import Mathlib

/-!
Process table of tinyos3 (`kernel_proc.c`)

A shallow embedding of the process table, its free-list allocator, the
system calls `Exec`, `WaitChild`, `Exit`, `GetPid`, `GetPPid`, and the
introspection stream of `OpenInfo`.

Conventions of the embedding

* A `PCB*` is `Option Nat`: `none` is `NULL`, `some i` is `&PT[i]`.
* `Pid_t` is `Int`; `get_pid` turns a pointer into its table index.
* `MAX_PROC` and `MAX_FILEID` come from headers that are not part of the
  sources at hand; every function that uses them takes them as a parameter.
* `process_count` is an `unsigned int`: increments and decrements wrap
  modulo `2 ^ 32`.
* An `int* status` is `Option Int`: `none` is `NULL`, `some v` is a cell that
  currently holds `v`; functions that may write through it return the cell.
* A byte buffer `void* args` is `Option (List Nat)`.
* A system call runs under the kernel mutex up to its return or its first
  `kernel_wait`. `step` and `Reachable` have the calls alone; `stepK` and
  `ReachableK` have also the calls that are woken and go on from their wait.
-/

namespace TinyOS

/-! ## Data model -/

/-- The three states of a PCB slot (`pid_state` of `kernel_proc.h`). -/
inductive pid_state where
  | FREE
  | ALIVE
  | ZOMBIE
  deriving DecidableEq, Repr

open pid_state

/-- Modelled from the spec: the reserved "no process" id. Its definition is in
`tinyos.h`, which is not among the sources; ids are table positions, so the
sentinel is a negative `Pid_t`. -/
def NOPROC : Int := -1

/-- The thread control block `sys_Exec` builds for the main thread. The fields
are the ones `sys_Exec` writes; `thread` is the handle returned by
`spawn_thread`, recorded as the pid of the owning process, and is `none` when
no thread was spawned. -/
structure PTCB where
  main_task : Option Nat
  argl : Int
  args : Option (List Nat)
  isDetached : Int
  hasExited : Int
  refCounter : Int
  exitFlag : Int
  thread : Option Nat
  deriving DecidableEq, Repr

/-- The process control block. `children_list` and `exited_list` hold the pids
whose `children_node`, respectively `exited_node`, is linked into the list. -/
structure PCB where
  pstate : pid_state
  parent : Option Nat
  exitval : Int
  main_task : Option Nat
  argl : Int
  args : Option (List Nat)
  FIDT : Nat → Option Nat
  children_list : List Nat
  exited_list : List Nat
  thread_list : List PTCB
  threadCount : Nat

/-- The globals of `kernel_proc.c`, together with the reference counts that the
file-handle layer keeps for each FCB. -/
structure KState where
  PT : Nat → PCB
  process_count : Nat
  pcb_freelist : Option Nat
  refcount : Nat → Nat

/-- Overwrite one slot of the table. -/
def setPCB (s : KState) (p : Nat) (pcb : PCB) : KState :=
  { s with PT := Function.update s.PT p pcb }

/-- Source `get_pcb`: `NULL` for a FREE slot, the slot otherwise. -/
def get_pcb (s : KState) (pid : Nat) : Option Nat :=
  if (s.PT pid).pstate = FREE then none else some pid

/-- Source `get_pid`: `NOPROC` for `NULL`, the table index otherwise. -/
def get_pid (pcb : Option Nat) : Int :=
  match pcb with
  | none => NOPROC
  | some i => (i : Int)

/-- Source `initialize_PCB`. The fields it does not write (`parent`,
`exitval`, `main_task`) are those of a zero-initialised global. -/
def initialize_PCB : PCB :=
  { pstate := FREE
    parent := none
    exitval := 0
    main_task := none
    argl := 0
    args := none
    FIDT := fun _ => none
    children_list := []
    exited_list := []
    thread_list := []
    threadCount := 0 }

/-- The free-list loop of `initialize_processes`, entered with `pcbiter` at
`PT + n`: each step decrements `pcbiter`, links that slot in front of the list
and makes it the head, until `pcbiter` is `PT`. -/
def build_freelist : Nat → KState → KState
  | 0, s => s
  | pcbiter + 1, s =>
    let s1 := setPCB s pcbiter { s.PT pcbiter with parent := s.pcb_freelist }
    build_freelist pcbiter { s1 with pcb_freelist := some pcbiter }

/-- Source `initialize_processes` up to `process_count = 0`: every PCB is
initialised and the free list threads the slots in increasing order. -/
def initialize_table (MAX_PROC : Nat) : KState :=
  build_freelist MAX_PROC
    { PT := fun _ => initialize_PCB
      process_count := 0
      pcb_freelist := none
      refcount := fun _ => 0 }

/-- Source `acquire_PCB`. -/
def acquire_PCB (s : KState) : Option Nat × KState :=
  match s.pcb_freelist with
  | none => (none, s)
  | some p =>
    (some p,
      { s with
        PT := Function.update s.PT p { s.PT p with pstate := ALIVE }
        pcb_freelist := (s.PT p).parent
        process_count := (s.process_count + 1) % 2 ^ 32 })

/-- Source `release_PCB`. -/
def release_PCB (s : KState) (pcb : Nat) : KState :=
  { s with
    PT := Function.update s.PT pcb
      { s.PT pcb with pstate := FREE, parent := s.pcb_freelist }
    pcb_freelist := some pcb
    process_count := (s.process_count + 2 ^ 32 - 1) % 2 ^ 32 }

/-- Modelled from the spec: the reference-count increment of the file-handle
layer (`FCB_incref` of `kernel_streams`, not among the sources). -/
def FCB_incref (s : KState) (fcb : Nat) : KState :=
  { s with refcount := Function.update s.refcount fcb (s.refcount fcb + 1) }

/-- One iteration of the inheritance loop of `sys_Exec`: slot `i` of the
parent is copied, and the handle it holds, if any, is incremented. -/
def inherit_step (curproc newproc : Nat) (i : Nat) (s : KState) : KState :=
  let s1 := setPCB s newproc
    { s.PT newproc with
      FIDT := Function.update (s.PT newproc).FIDT i ((s.PT curproc).FIDT i) }
  match (s1.PT newproc).FIDT i with
  | some fcb => FCB_incref s1 fcb
  | none => s1

/-- The inheritance loop of `sys_Exec`, for the `n` slots from `i` on. -/
def inherit_files (curproc newproc : Nat) : Nat → Nat → KState → KState
  | _, 0, s => s
  | i, n + 1, s => inherit_files curproc newproc (i + 1) n (inherit_step curproc newproc i s)

/-- The call `sys_Exec` is given an argument buffer it may copy: `args` is
`NULL`, or `argl` is not negative and the buffer holds at least `argl` bytes.
Outside of this the `malloc(argl)` and `memcpy` of the source fail or read
past the buffer, and `copy_args` does not describe them. -/
def copy_args_defined (argl : Int) (args : Option (List Nat)) : Prop :=
  match args with
  | some bytes => 0 ≤ argl ∧ argl ≤ (bytes.length : Int)
  | none => True

/-- The `malloc` + `memcpy` of `argl` bytes from `args`, `NULL` staying
`NULL`. The list `args` holds the bytes readable at the pointer; the copy is
the one the source makes where `copy_args_defined` holds, and has no meaning
elsewhere. -/
def copy_args (argl : Int) (args : Option (List Nat)) : Option (List Nat) :=
  match args with
  | some bytes => some (bytes.take argl.toNat)
  | none => none

/-- Modelled from the spec: `rlist_push_front` of the intrusive list library
(not among the sources), on the list of linked pids. -/
def rlist_push_front (l : List Nat) (node : Nat) : List Nat := node :: l

/-- Modelled from the spec: `rlist_push_back` of the intrusive list library,
on the thread list. -/
def rlist_push_back (l : List PTCB) (node : PTCB) : List PTCB := l ++ [node]

/-- The branch of `sys_Exec` on `get_pid(newproc)<=1`: a process with pid at
most 1 gets no parent; any other is linked to `CURPROC = &PT[curproc]`, pushed
on the front of its children list, and inherits its file handles. -/
def sys_Exec_inherit (MAX_FILEID : Nat) (s : KState) (curproc newproc : Nat) : KState :=
  if get_pid (some newproc) ≤ 1 then
    setPCB s newproc { s.PT newproc with parent := none }
  else
    let a := setPCB s newproc { s.PT newproc with parent := some curproc }
    let b := setPCB a curproc
      { a.PT curproc with
        children_list := rlist_push_front (a.PT curproc).children_list newproc }
    inherit_files curproc newproc 0 MAX_FILEID b

/-- The PTCB that `sys_Exec` allocates and fills for the main thread of
`newproc`; a thread is spawned only when `call` is not `NULL`. -/
def sys_Exec_ptcb (newproc : Nat) (call : Option Nat) (argl : Int)
    (args : Option (List Nat)) : PTCB :=
  { main_task := call
    argl := argl
    args := copy_args argl args
    isDetached := 0
    hasExited := 0
    refCounter := 0
    exitFlag := 1
    thread := match call with
      | some _ => some newproc
      | none => none }

/-- Source `sys_Exec`, with `CURPROC = &PT[curproc]`. -/
def sys_Exec (MAX_FILEID : Nat) (s : KState) (curproc : Nat)
    (call : Option Nat) (argl : Int) (args : Option (List Nat)) : Int × KState :=
  match acquire_PCB s with
  | (none, s0) => (get_pid none, s0)
  | (some newproc, s0) =>
    let s1 := sys_Exec_inherit MAX_FILEID s0 curproc newproc
    let s2 := setPCB s1 newproc
      { s1.PT newproc with
        main_task := call
        argl := argl
        args := copy_args argl args
        threadCount := (s1.PT newproc).threadCount + 1
        thread_list := rlist_push_back (s1.PT newproc).thread_list
          (sys_Exec_ptcb newproc call argl args) }
    (get_pid (some newproc), s2)

/-- Source `initialize_processes`: `none` is the `FATAL` exit taken when the
idle process does not get pid 0. -/
def initialize_processes (MAX_PROC MAX_FILEID : Nat) : Option KState :=
  let r := sys_Exec MAX_FILEID (initialize_table MAX_PROC) 0 none 0 none
  if r.1 ≠ 0 then none else some r.2

/-- Source `sys_GetPid`. -/
def sys_GetPid (curproc : Nat) : Int := get_pid (some curproc)

/-- Source `sys_GetPPid`. -/
def sys_GetPPid (s : KState) (curproc : Nat) : Int :=
  get_pid (s.PT curproc).parent

/-! ## Waiting and reaping -/

/-- Modelled from the spec: `rlist_remove` of the intrusive list library (not
among the sources) applied to `children_node` of `pcb`: the node is unlinked
from whichever children list holds it. -/
def rlist_remove_children_node (s : KState) (pcb : Nat) : KState :=
  { s with
    PT := fun q =>
      { s.PT q with children_list := (s.PT q).children_list.filter (fun x => x ≠ pcb) } }

/-- Modelled from the spec: `rlist_remove` applied to `exited_node` of `pcb`:
the node is unlinked from whichever zombie-children list holds it. -/
def rlist_remove_exited_node (s : KState) (pcb : Nat) : KState :=
  { s with
    PT := fun q =>
      { s.PT q with exited_list := (s.PT q).exited_list.filter (fun x => x ≠ pcb) } }

/-- Source `cleanup_zombie`: returns the status cell and the new state. -/
def cleanup_zombie (s : KState) (pcb : Nat) (status : Option Int) :
    Option Int × KState :=
  let status1 := match status with
    | some _ => some (s.PT pcb).exitval
    | none => none
  let s1 := rlist_remove_children_node s pcb
  let s2 := rlist_remove_exited_node s1 pcb
  (status1, release_PCB s2 pcb)

/-- What a call of the wait family does: it returns a pid (with the status
cell and the state it leaves), or it enters `kernel_wait`, or the `assert` of
`wait_for_any_child` fails. -/
inductive WaitResult where
  | returned (cpid : Int) (status : Option Int) (s : KState)
  | blocked
  | assert_failed

/-- The part of `wait_for_specific_child` from the `while` loop on, which is
also where the caller resumes after `kernel_wait`: one test of the loop
condition, then the reap. -/
def wait_for_specific_child_loop (s : KState) (child : Nat) (cpid : Int)
    (status : Option Int) : WaitResult :=
  if (s.PT child).pstate = ALIVE then .blocked
  else
    let r := cleanup_zombie s child status
    .returned cpid r.1 r.2

/-- Source `wait_for_specific_child`, with `CURPROC = &PT[curproc]`. -/
def wait_for_specific_child (MAX_PROC : Nat) (s : KState) (curproc : Nat)
    (cpid : Int) (status : Option Int) : WaitResult :=
  if cpid < 0 ∨ cpid ≥ (MAX_PROC : Int) then .returned NOPROC status s
  else
    let parent : Option Nat := some curproc
    match get_pcb s cpid.toNat with
    | none => .returned NOPROC status s
    | some child =>
      if (s.PT child).parent ≠ parent then .returned NOPROC status s
      else wait_for_specific_child_loop s child cpid status

/-- The part of `wait_for_any_child` from the `while` loop on, which is also
where the caller resumes after `kernel_wait`. -/
def wait_for_any_child_loop (s : KState) (curproc : Nat) (status : Option Int) :
    WaitResult :=
  match (s.PT curproc).exited_list with
  | [] => .blocked
  | child :: _ =>
    if (s.PT child).pstate ≠ ZOMBIE then .assert_failed
    else
      let cpid := get_pid (some child)
      let r := cleanup_zombie s child status
      .returned cpid r.1 r.2

/-- Source `wait_for_any_child`, with `CURPROC = &PT[curproc]`. -/
def wait_for_any_child (s : KState) (curproc : Nat) (status : Option Int) :
    WaitResult :=
  match (s.PT curproc).children_list with
  | [] => .returned NOPROC status s
  | _ :: _ => wait_for_any_child_loop s curproc status

/-- Source `sys_WaitChild`. -/
def sys_WaitChild (MAX_PROC : Nat) (s : KState) (curproc : Nat) (cpid : Int)
    (status : Option Int) : WaitResult :=
  if cpid ≠ NOPROC then wait_for_specific_child MAX_PROC s curproc cpid status
  else wait_for_any_child s curproc status

/-! ## Termination -/

/-- Modelled from the spec: the thread-exit handoff `sys_ThreadExit` of the
thread subsystem (not among the sources), called by the last thread of
`curproc`; threads other than the main thread are created by that subsystem
and are not part of this development. The handoff tears down the calling
thread, so that no thread-list entry and no live thread remain, turns the
process into a ZOMBIE and relocates it from the children list to the
zombie-children list of its parent. -/
def sys_ThreadExit (s : KState) (curproc : Nat) (_exitval : Int) : KState :=
  let s1 := setPCB s curproc
    { s.PT curproc with thread_list := [], threadCount := 0, pstate := ZOMBIE }
  match (s.PT curproc).parent with
  | none => s1
  | some parent =>
    let s2 := rlist_remove_children_node s1 curproc
    setPCB s2 parent
      { s2.PT parent with
        exited_list := rlist_push_front (s2.PT parent).exited_list curproc }

/-- How the drain loop of `sys_Exit` ends: the loop is left, or a
`sys_WaitChild` of the loop enters `kernel_wait`, or its `assert` fails. -/
inductive DrainResult where
  | done (s : KState)
  | blocked (s : KState)
  | assert_failed (s : KState)

/-- The loop `while(sys_WaitChild(NOPROC,NULL)!=NOPROC);` of `sys_Exit`, run for
at most `fuel` iterations; `none` when the fuel does not suffice. -/
def sys_Exit_drain (MAX_PROC : Nat) (curproc : Nat) : Nat → KState → Option DrainResult
  | 0, _ => none
  | fuel + 1, s =>
    match sys_WaitChild MAX_PROC s curproc NOPROC none with
    | .returned cpid _ s1 =>
      if cpid ≠ NOPROC then sys_Exit_drain MAX_PROC curproc fuel s1
      else some (.done s1)
    | .blocked => some (.blocked s)
    | .assert_failed => some (.assert_failed s)

/-- Source `sys_Exit`, with `CURPROC = &PT[curproc]`. Every reap of the drain
loop unlinks the head of the caller's zombie-children list, so the length of
that list plus one is fuel enough. The result is `done` with the state after
the handoff, or where the call stopped. -/
def sys_Exit (MAX_PROC : Nat) (s : KState) (curproc : Nat) (exitval : Int) :
    Option DrainResult :=
  let drained :=
    if sys_GetPid curproc = 1 then
      sys_Exit_drain MAX_PROC curproc ((s.PT curproc).exited_list.length + 1) s
    else some (.done s)
  match drained with
  | some (.done s1) =>
    let s2 := setPCB s1 curproc { s1.PT curproc with exitval := exitval }
    some (.done (sys_ThreadExit s2 curproc exitval))
  | r => r

/-- Where `sys_Exit` stands before its last call: it is about to call
`sys_ThreadExit(exitval)` as `curproc` in the state `s`, or it waits in its
drain loop, or the `assert` of the drain loop has failed. -/
inductive ExitCall where
  | handoff (s : KState) (curproc : Nat) (exitval : Int)
  | blocked (s : KState)
  | assert_failed (s : KState)

/-- Source `sys_Exit` with its last line, the call of `sys_ThreadExit`, written
down and not run: the drain loop, the store of the exit code, and then the
state and the argument of the handoff. -/
def sys_Exit_call (MAX_PROC : Nat) (s : KState) (curproc : Nat) (exitval : Int) :
    Option ExitCall :=
  let drained :=
    if sys_GetPid curproc = 1 then
      sys_Exit_drain MAX_PROC curproc ((s.PT curproc).exited_list.length + 1) s
    else some (.done s)
  match drained with
  | some (.done s1) =>
    let s2 := setPCB s1 curproc { s1.PT curproc with exitval := exitval }
    some (.handoff s2 curproc exitval)
  | some (.blocked s1) => some (.blocked s1)
  | some (.assert_failed s1) => some (.assert_failed s1)
  | none => none

/-- Running the call that `sys_Exit` ends with. -/
def ExitCall.result : ExitCall → DrainResult
  | .handoff s curproc exitval => .done (sys_ThreadExit s curproc exitval)
  | .blocked s => .blocked s
  | .assert_failed s => .assert_failed s

/-- The runs of the loop `while(sys_WaitChild(NOPROC,NULL)!=NOPROC);` as its
text gives them, call by call: `DrainRun M c n s r` says that from the state
`s` the loop makes `n` calls that return a pid, so that it goes round again,
and then a call that ends it as `r`: the call returns `NOPROC` and the loop is
left, or it enters `kernel_wait`, or its `assert` fails. -/
inductive DrainRun (MAX_PROC curproc : Nat) : Nat → KState → DrainResult → Prop where
  | leave {s s1 : KState} {st : Option Int} :
      sys_WaitChild MAX_PROC s curproc NOPROC none = .returned NOPROC st s1 →
      DrainRun MAX_PROC curproc 0 s (.done s1)
  | wait {s : KState} :
      sys_WaitChild MAX_PROC s curproc NOPROC none = .blocked →
      DrainRun MAX_PROC curproc 0 s (.blocked s)
  | abort {s : KState} :
      sys_WaitChild MAX_PROC s curproc NOPROC none = .assert_failed →
      DrainRun MAX_PROC curproc 0 s (.assert_failed s)
  | iterate {n : Nat} {s s1 : KState} {cpid : Int} {st : Option Int} {r : DrainResult} :
      sys_WaitChild MAX_PROC s curproc NOPROC none = .returned cpid st s1 →
      cpid ≠ NOPROC → DrainRun MAX_PROC curproc n s1 r →
      DrainRun MAX_PROC curproc (n + 1) s r

/-! ## Reachable states -/

/-- A system call together with the process that issues it. -/
inductive Op where
  | Exec (curproc : Nat) (call : Option Nat) (argl : Int) (args : Option (List Nat))
  | WaitChild (curproc : Nat) (cpid : Int) (status : Option Int)
  | Exit (curproc : Nat) (exitval : Int)

/-- The process that issues an operation. -/
def Op.caller : Op → Nat
  | .Exec c _ _ _ => c
  | .WaitChild c _ _ => c
  | .Exit c _ => c

/-- The operations that run `sys_WaitChild`: the call itself, and `sys_Exit`,
whose drain loop calls it. -/
def Op.reaps : Op → Bool
  | .Exec _ _ _ _ => false
  | .WaitChild _ _ _ => true
  | .Exit _ _ => true

/-- The state a system call leaves when it runs under the kernel mutex from
its entry to its return or to its first `kernel_wait`. `CURPROC` is the PCB of
a running process: a call whose caller is not an ALIVE slot of the table does
not happen. A `sys_WaitChild` that enters `kernel_wait` has changed nothing; a
`sys_Exit` that enters it has done the reaps of its drain loop so far. What a
call does when it is woken from `kernel_wait` is no part of `step`: that is
`Waiter.resume`, and `stepK` has both. -/
def step (MAX_PROC MAX_FILEID : Nat) (s : KState) (op : Op) : KState :=
  if op.caller < MAX_PROC ∧ (s.PT op.caller).pstate = ALIVE then
    match op with
    | .Exec c call argl args => (sys_Exec MAX_FILEID s c call argl args).2
    | .WaitChild c cpid status =>
      match sys_WaitChild MAX_PROC s c cpid status with
      | .returned _ _ s1 => s1
      | _ => s
    | .Exit c exitval =>
      match sys_Exit MAX_PROC s c exitval with
      | some (.done s1) => s1
      | some (.blocked s1) => s1
      | _ => s
  else s

/-- Run a sequence of system calls. -/
def run (MAX_PROC MAX_FILEID : Nat) (s : KState) : List Op → KState
  | [] => s
  | op :: ops => run MAX_PROC MAX_FILEID (step MAX_PROC MAX_FILEID s op) ops

/-- The states the kernel reaches from `initialize_processes` by system calls
of which none goes on after a `kernel_wait`: a call that waits is given up and
made anew. The states reached when waiting calls are woken and go on are the
wider `ReachableK`. -/
inductive Reachable (MAX_PROC MAX_FILEID : Nat) : KState → Prop where
  | init {s : KState} :
      initialize_processes MAX_PROC MAX_FILEID = some s → Reachable MAX_PROC MAX_FILEID s
  | step {s : KState} (op : Op) :
      Reachable MAX_PROC MAX_FILEID s →
      Reachable MAX_PROC MAX_FILEID (step MAX_PROC MAX_FILEID s op)

/-! ## The allocator invariant -/

/-- The list `l` is the free list that starts at `head` and is threaded
through the `parent` fields. -/
def IsChain (PT : Nat → PCB) : Option Nat → List Nat → Prop
  | none, [] => True
  | some h, x :: t => h = x ∧ IsChain PT (PT x).parent t
  | _, _ => False

/-- What holds of every reachable state: the free list holds each FREE slot of
the table once and `process_count` counts the others; the zombie-children
lists hold ZOMBIE slots of the table; a slot that is not ALIVE has no
thread. -/
structure Inv (MAX_PROC : Nat) (s : KState) : Prop where
  chain : ∃ l, IsChain s.PT s.pcb_freelist l ∧ l.Nodup ∧
    (∀ i, i ∈ l ↔ i < MAX_PROC ∧ (s.PT i).pstate = FREE) ∧
    s.process_count + l.length = MAX_PROC
  exited : ∀ q x, x ∈ (s.PT q).exited_list → x < MAX_PROC ∧ (s.PT x).pstate = ZOMBIE
  threads : ∀ i, (s.PT i).pstate ≠ ALIVE →
    (s.PT i).threadCount = 0 ∧ (s.PT i).thread_list = []

/-- The state a drain loop leaves. -/
def DrainResult.state : DrainResult → KState
  | .done s => s
  | .blocked s => s
  | .assert_failed s => s

/-- Between two states every slot kept its state or went from ZOMBIE to
FREE. -/
def OnlyReaped (s s1 : KState) : Prop :=
  ∀ q, (s1.PT q).pstate = (s.PT q).pstate ∨
    ((s.PT q).pstate = ZOMBIE ∧ (s1.PT q).pstate = FREE)

/-! ## Calls that wait and are woken -/

/-- A call that has entered `kernel_wait` and goes on from there when it is
woken: in the loop of `wait_for_specific_child`, with the local `child` it
computed before the wait; in the loop of `wait_for_any_child`; or in the
`wait_for_any_child` of a `sys_WaitChild` of the drain loop of `sys_Exit`. -/
inductive Waiter where
  | specific (curproc child : Nat) (cpid : Int) (status : Option Int)
  | any (curproc : Nat) (status : Option Int)
  | drain (curproc : Nat) (exitval : Int)

/-- What a woken call does: it goes on from its `kernel_wait`, at the test of
the loop it waits in. The result is the state it leaves and whether the call
has come to its end (`true`) or waits again (`false`). A woken call of the drain
loop that has reaped goes round the loop again, which is what `sys_Exit` does
from its first line for process 1, the only process that waits there. -/
def Waiter.resume (MAX_PROC : Nat) (s : KState) : Waiter → KState × Bool
  | .specific _ child cpid status =>
    match wait_for_specific_child_loop s child cpid status with
    | .returned _ _ s1 => (s1, true)
    | .blocked => (s, false)
    | .assert_failed => (s, true)
  | .any curproc status =>
    match wait_for_any_child_loop s curproc status with
    | .returned _ _ s1 => (s1, true)
    | .blocked => (s, false)
    | .assert_failed => (s, true)
  | .drain curproc exitval =>
    match wait_for_any_child_loop s curproc none with
    | .returned _ _ s1 =>
      match sys_Exit MAX_PROC s1 curproc exitval with
      | some (.done s2) => (s2, true)
      | some (.blocked s2) => (s2, false)
      | some (.assert_failed s2) => (s2, true)
      | none => (s1, true)
    | .blocked => (s, false)
    | .assert_failed => (s, true)

/-- The kernel between two runs under the mutex: the process table and the
calls that wait in `kernel_wait`. -/
structure Kernel where
  st : KState
  waiting : List Waiter

/-- What runs next under the kernel mutex: a new system call, or the waiting
call number `i`, woken. -/
inductive Event where
  | call (op : Op)
  | wake (i : Nat)

/-- The call that waits when a `sys_WaitChild(cpid, status)` of `curproc` has
entered `kernel_wait`. -/
def Waiter.ofWaitChild (curproc : Nat) (cpid : Int) (status : Option Int) : Waiter :=
  if cpid ≠ NOPROC then .specific curproc cpid.toNat cpid status
  else .any curproc status

/-- One run under the kernel mutex. A system call changes the table as `step`
says, and when it enters `kernel_wait` it joins the waiting calls; a woken call
goes on as `Waiter.resume` says and leaves the waiting calls when it has come
to its end. -/
def stepK (MAX_PROC MAX_FILEID : Nat) (k : Kernel) : Event → Kernel
  | .call op =>
    if op.caller < MAX_PROC ∧ (k.st.PT op.caller).pstate = ALIVE then
      match op with
      | .Exec c call argl args =>
        { k with st := (sys_Exec MAX_FILEID k.st c call argl args).2 }
      | .WaitChild c cpid status =>
        match sys_WaitChild MAX_PROC k.st c cpid status with
        | .returned _ _ s1 => { k with st := s1 }
        | .blocked => { k with waiting := k.waiting ++ [Waiter.ofWaitChild c cpid status] }
        | .assert_failed => k
      | .Exit c exitval =>
        match sys_Exit MAX_PROC k.st c exitval with
        | some (.done s1) => { k with st := s1 }
        | some (.blocked s1) => { st := s1, waiting := k.waiting ++ [.drain c exitval] }
        | _ => k
    else k
  | .wake i =>
    match k.waiting.get? i with
    | none => k
    | some w =>
      let r := w.resume MAX_PROC k.st
      { st := r.1, waiting := if r.2 then k.waiting.eraseIdx i else k.waiting }

/-- Run a sequence of system calls and wake-ups. -/
def runK (MAX_PROC MAX_FILEID : Nat) (k : Kernel) : List Event → Kernel
  | [] => k
  | e :: es => runK MAX_PROC MAX_FILEID (stepK MAX_PROC MAX_FILEID k e) es

/-- The states the kernel reaches from `initialize_processes` by system calls
and by waking calls that wait. -/
inductive ReachableK (MAX_PROC MAX_FILEID : Nat) : Kernel → Prop where
  | init {s : KState} :
      initialize_processes MAX_PROC MAX_FILEID = some s →
      ReachableK MAX_PROC MAX_FILEID { st := s, waiting := [] }
  | step {k : Kernel} (e : Event) :
      ReachableK MAX_PROC MAX_FILEID k →
      ReachableK MAX_PROC MAX_FILEID (stepK MAX_PROC MAX_FILEID k e)

/-! ## The introspection stream -/

/-- Modelled from the spec: the reserved "no file" id (`NOFILE` of `tinyos.h`,
which is not among the sources). -/
def NOFILE : Int := -1

/-- The record `procinfo` that `sys_OpenInfo` fills. Its declaration is in
`tinyos.h`; the fields are the ones `sys_OpenInfo` writes. `args` is the byte
array of the record, of which the indices below the array size exist. -/
structure procinfo where
  pid : Int
  ppid : Int
  alive : Int
  thread_count : Nat
  main_task : Option Nat
  argl : Int
  args : Nat → Nat

/-- Modelled from the spec: the stream object `InfoCB`, declared in a header
that is not among the sources, with a buffer "sized for one fixed-format record
per eligible slot". `infoTable` holds the bytes written so far; what the array
holds beyond them is indeterminate and is never read. -/
structure InfoCB where
  read_pos : Nat
  write_pos : Nat
  infoTable : List Nat

/-- The conversion of the `unsigned int` that `info_read` counts in to the
`int` it returns. -/
def to_int (n : Nat) : Int :=
  if n % 2 ^ 32 < 2 ^ 31 then ((n % 2 ^ 32 : Nat) : Int) else ((n % 2 ^ 32 : Nat) : Int) - 2 ^ 32

/-- The `while` loop of `info_read`, for at most `fuel` iterations: `pos`
counts the bytes copied, `buf` collects them. -/
def info_read_loop (size : Nat) : Nat → Nat → InfoCB → List Nat → Nat × InfoCB × List Nat
  | 0, pos, infocb, buf => (pos, infocb, buf)
  | fuel + 1, pos, infocb, buf =>
    if pos < size ∧ infocb.read_pos < infocb.write_pos then
      info_read_loop size fuel (pos + 1)
        { infocb with read_pos := infocb.read_pos + 1 }
        (buf ++ [infocb.infoTable.getD infocb.read_pos 0])
    else (pos, infocb, buf)

/-- Source `info_read`: the value returned, the stream object afterwards, and
the bytes stored in `buf[0 .. pos)`. Every iteration increments `pos`, which
stays below `size`, so `size` iterations are all the loop can make. -/
def info_read (infocb : InfoCB) (size : Nat) : Int × InfoCB × List Nat :=
  let r := info_read_loop size size 0 infocb []
  (to_int r.1, r.2.1, r.2.2)

/-- The loop of `sys_OpenInfo` that copies the argument bytes into the record,
for `n` more iterations from index `j`: `none` when it reads through a `NULL`
`args`, reads past the end of the argument buffer, or writes past the end of
the array `args` of the record, which has `ARGS_SIZE` bytes. -/
def copy_info_args (ARGS_SIZE : Nat) (args : Option (List Nat)) :
    Nat → Nat → (Nat → Nat) → Option (Nat → Nat)
  | 0, _, dst => some dst
  | n + 1, j, dst =>
    match args with
    | none => none
    | some bytes =>
      match bytes.get? j with
      | none => none
      | some b =>
        if j < ARGS_SIZE then
          copy_info_args ARGS_SIZE args n (j + 1) (Function.update dst j b)
        else none

/-- The fields of the record that `sys_OpenInfo` assigns for slot `i`, before
the argument bytes are copied. -/
def fill_info (s : KState) (i : Nat) (info : procinfo) : procinfo :=
  { info with
    pid := get_pid (some i)
    ppid := get_pid (s.PT i).parent
    alive := if (s.PT i).pstate = ALIVE then 1 else 0
    thread_count := (s.PT i).threadCount
    main_task := (s.PT i).main_task
    argl := (s.PT i).argl }

/-- The `for` loop of `sys_OpenInfo` over the table, for `n` more slots from
slot `i`. `image r j` is byte `j` of the memory image of the record `r`, and
`SIZE` is `sizeof(procinfo)`; the one record `info` is reused from slot to
slot. `none` when the copy of the argument bytes faults. -/
def sys_OpenInfo_loop (ARGS_SIZE SIZE : Nat) (image : procinfo → Nat → Nat) (s : KState) :
    Nat → Nat → procinfo → InfoCB → Option (procinfo × InfoCB)
  | 0, _, info, infoCB => some (info, infoCB)
  | n + 1, i, info, infoCB =>
    if (s.PT i).pstate = ALIVE ∨ (s.PT i).pstate = ZOMBIE then
      let info1 := fill_info s i info
      match copy_info_args ARGS_SIZE (s.PT i).args info1.argl.toNat 0 info1.args with
      | none => none
      | some a =>
        let info2 := { info1 with args := a }
        let infoCB1 : InfoCB :=
          { infoCB with
            infoTable := infoCB.infoTable.take infoCB.write_pos ++
              (List.range SIZE).map (image info2)
            write_pos := infoCB.write_pos + SIZE }
        sys_OpenInfo_loop ARGS_SIZE SIZE image s n (i + 1) info2 infoCB1
    else sys_OpenInfo_loop ARGS_SIZE SIZE image s n (i + 1) info infoCB

/-- What `sys_OpenInfo` does: it returns `NOFILE`, or it faults while it copies
argument bytes, or it returns the reserved file id, with the stream object it
has attached to the reserved FCB. -/
inductive OpenInfoResult where
  | nofile
  | fault
  | opened (fid : Int) (fcb : Nat) (infoCB : InfoCB)

/-- Source `sys_OpenInfo`. `reserved` is what `FCB_reserve` of the file-handle
layer answers: `none` when it fails, the file id and the FCB otherwise. `info0`
is the content of the freshly allocated record, which `xmalloc` does not
initialise. -/
def sys_OpenInfo (MAX_PROC ARGS_SIZE SIZE : Nat) (image : procinfo → Nat → Nat)
    (info0 : procinfo) (s : KState) (reserved : Option (Int × Nat)) : OpenInfoResult :=
  match reserved with
  | none => .nofile
  | some (fid, fcb) =>
    let infoCB : InfoCB := { read_pos := 0, write_pos := 0, infoTable := [] }
    match sys_OpenInfo_loop ARGS_SIZE SIZE image s MAX_PROC 0 info0 infoCB with
    | none => .fault
    | some (_, infoCB1) => .opened fid fcb infoCB1

/-- The stream object after `k` calls of `info_read` with the same `size`. -/
def info_read_seq (infocb : InfoCB) (size : Nat) : Nat → InfoCB
  | 0 => infocb
  | k + 1 => (info_read (info_read_seq infocb size k) size).2.1

/-! ## Walking the free list -/

/-- Follow the free list from `head` through the `parent` fields for at most
`fuel` links: the slots met, or `none` when `NULL` is not reached. -/
def walk_freelist (PT : Nat → PCB) : Nat → Option Nat → Option (List Nat)
  | _, none => some []
  | 0, some _ => none
  | fuel + 1, some p => (walk_freelist PT fuel (PT p).parent).map (fun l => p :: l)

/-! ## Example states -/

/-- A table of four slots with two file-handle slots, after
`initialize_processes`. -/
def ex_boot : KState := (sys_Exec 2 (initialize_table 4) 0 none 0 none).2

/-- The idle process starts process 1, which starts processes 2 and 3: the
table is full. -/
def ex_full : KState :=
  run 4 2 ex_boot
    [.Exec 0 (some 1) 0 none, .Exec 1 (some 1) 0 none, .Exec 1 (some 1) 0 none]

/-- Process 1 has started processes 2 and 3, and process 2 has exited with
code 5. -/
def ex_zombie : KState := step 4 2 ex_full (.Exit 2 5)

/-- Process 1 of the booted table holds handle 7 in slot 0 and handle 8 in
slot 1 of its handle table, each with one reference. -/
def ex_files : KState :=
  { setPCB (run 4 2 ex_boot [.Exec 0 (some 1) 0 none]) 1
      { (run 4 2 ex_boot [.Exec 0 (some 1) 0 none]).PT 1 with
        FIDT := fun i => if i = 0 then some 7 else if i = 1 then some 8 else none } with
    refcount := fun f => if f = 7 ∨ f = 8 then 1 else 0 }

/-- Process 1 has started process 2 only, and process 2 has exited with
code 5. -/
def ex_lone_zombie : KState :=
  run 4 2 ex_boot [.Exec 0 (some 1) 0 none, .Exec 1 (some 1) 0 none, .Exit 2 5]

/-- The allocator invariant, together with the fact that the slots beyond the
table are never touched: they stay FREE. -/
def InvR (MAX_PROC : Nat) (s : KState) : Prop :=
  Inv MAX_PROC s ∧ ∀ i, MAX_PROC ≤ i → (s.PT i).pstate = FREE

/-- In every PCB `threadCount` is the length of the thread list. -/
def ThreadsCounted (s : KState) : Prop :=
  ∀ i, (s.PT i).threadCount = (s.PT i).thread_list.length

/-- From the full table, where process 1 has the ALIVE children 3 and 2:
process 2 exits with code 5 and a `sys_WaitChild(2)` of process 1 reaps it. -/
def ex_reaped : KState := run 4 2 ex_full [.Exit 2 5, .WaitChild 1 2 none]

/-- An example of a record layout of six bytes, the last two of them argument
bytes. -/
def ex_image (r : procinfo) : Nat → Nat
  | 0 => r.pid.toNat
  | 1 => (r.ppid + 1).toNat
  | 2 => r.alive.toNat
  | 3 => r.thread_count
  | j + 4 => r.args j

/-- An example of the content of a freshly allocated record. -/
def ex_info0 : procinfo :=
  { pid := 0, ppid := 0, alive := 0, thread_count := 0, main_task := none, argl := 0,
    args := fun _ => 0 }

/-- On the booted table of four slots, process 0 starts process 1 with an
argument length of 3 and no argument buffer. -/
def ex_argl_only : KState := run 4 2 ex_boot [.Exec 0 (some 1) 3 none]

/-- On the booted table of four slots, process 0 starts process 1 with three
argument bytes. -/
def ex_three_args : KState := run 4 2 ex_boot [.Exec 0 (some 1) 3 (some [7, 8, 9])]

/-- From the full table, where process 1 has the ALIVE children 3 and 2: a
`sys_WaitChild(2)` of process 1 enters the wait; process 2 exits with code 5; a
second `sys_WaitChild(2)` of process 1 reaps it; then the first call is
woken. -/
def ex_woken : Kernel :=
  runK 4 2 { st := ex_boot, waiting := [] }
    [.call (.Exec 0 (some 1) 0 none), .call (.Exec 1 (some 1) 0 none),
      .call (.Exec 1 (some 1) 0 none), .call (.WaitChild 1 2 none), .call (.Exit 2 5),
      .call (.WaitChild 1 2 none), .wake 0]

/-- After `ex_woken`, process 1 starts a process. -/
def ex_refilled : Kernel := stepK 4 2 ex_woken (.call (.Exec 1 (some 1) 0 none))

/-- After `ex_refilled`, process 1 starts another process. -/
def ex_refilled_twice : Kernel := stepK 4 2 ex_refilled (.call (.Exec 1 (some 1) 0 none))

/-- As `ex_woken`, with four calls `sys_WaitChild(2)` of process 1 that enter
the wait before process 2 exits and is reaped, all four woken afterwards. -/
def ex_woken_four : Kernel :=
  runK 4 2 { st := ex_boot, waiting := [] }
    [.call (.Exec 0 (some 1) 0 none), .call (.Exec 1 (some 1) 0 none),
      .call (.Exec 1 (some 1) 0 none), .call (.WaitChild 1 2 none),
      .call (.WaitChild 1 2 none), .call (.WaitChild 1 2 none), .call (.WaitChild 1 2 none),
      .call (.Exit 2 5), .call (.WaitChild 1 2 none), .wake 0, .wake 0, .wake 0, .wake 0]

/-- From the full table: process 1 calls `sys_Exit(7)` and waits in its drain
loop, its children 3 and 2 being ALIVE; process 2 exits and the call is woken;
process 3 exits and the call is woken again. -/
def ex_drained : Kernel :=
  runK 4 2 { st := ex_boot, waiting := [] }
    [.call (.Exec 0 (some 1) 0 none), .call (.Exec 1 (some 1) 0 none),
      .call (.Exec 1 (some 1) 0 none), .call (.Exit 1 7), .call (.Exit 2 5), .wake 0,
      .call (.Exit 3 6), .wake 0]

/-- Process 1 has the one child 2, a ZOMBIE with exit code 5 that is on the
zombie-children list of process 1 and on its children list as well. -/
def ex_listed_zombie : KState :=
  setPCB ex_lone_zombie 1 { ex_lone_zombie.PT 1 with children_list := [2] }

/-! ## Lemmas on the free list -/

theorem IsChain_congr {PT1 PT2 : Nat → PCB} :
    ∀ (l : List Nat) (h : Option Nat),
      (∀ x ∈ l, (PT2 x).parent = (PT1 x).parent) →
      IsChain PT1 h l → IsChain PT2 h l := by
  intro l
  induction l with
  | nil =>
    intro h _ hc
    cases h with
    | none => simp [IsChain]
    | some b => simp [IsChain] at hc
  | cons a t ih =>
    intro h hp hc
    cases h with
    | none => simp [IsChain] at hc
    | some b =>
      simp only [IsChain] at hc ⊢
      refine ⟨hc.1, ?_⟩
      rw [hp a (List.mem_cons_self a t)]
      exact ih _ (fun x hx => hp x (List.mem_cons_of_mem a hx)) hc.2

theorem IsChain_nil_head {PT : Nat → PCB} {h : Option Nat} (hc : IsChain PT h []) :
    h = none := by
  cases h with
  | none => rfl
  | some b => simp [IsChain] at hc

theorem IsChain_none {PT : Nat → PCB} {l : List Nat} (hc : IsChain PT none l) :
    l = [] := by
  cases l with
  | nil => rfl
  | cons a t => simp [IsChain] at hc

theorem IsChain_some {PT : Nat → PCB} {b : Nat} {l : List Nat}
    (hc : IsChain PT (some b) l) :
    ∃ t, l = b :: t ∧ IsChain PT (PT b).parent t := by
  cases l with
  | nil => simp [IsChain] at hc
  | cons a t =>
    simp only [IsChain] at hc
    obtain ⟨rfl, h2⟩ := hc
    exact ⟨t, rfl, h2⟩

theorem IsChain_cons {PT : Nat → PCB} {h : Option Nat} {a : Nat} {t : List Nat}
    (hc : IsChain PT h (a :: t)) :
    h = some a ∧ IsChain PT (PT a).parent t := by
  cases h with
  | none => simp [IsChain] at hc
  | some b =>
    simp only [IsChain] at hc
    obtain ⟨rfl, h2⟩ := hc
    exact ⟨rfl, h2⟩

/-- The free-list loop prepends the slots below `n`, in increasing order, and
writes nothing but `parent` fields. -/
theorem build_freelist_spec :
    ∀ (n : Nat) (s : KState) (l : List Nat),
      IsChain s.PT s.pcb_freelist l → (∀ x ∈ l, n ≤ x) →
      IsChain (build_freelist n s).PT (build_freelist n s).pcb_freelist
          (List.range n ++ l) ∧
        (∀ q, ∃ p, (build_freelist n s).PT q = { s.PT q with parent := p }) ∧
        (build_freelist n s).process_count = s.process_count ∧
        (build_freelist n s).refcount = s.refcount := by
  intro n
  induction n with
  | zero =>
    intro s l hc _
    exact ⟨by simpa [build_freelist] using hc, fun q => ⟨(s.PT q).parent, rfl⟩, rfl, rfl⟩
  | succ n ih =>
    intro s l hc hl
    have hn : n ∉ l := fun hmem => absurd (hl n hmem) (by omega)
    have hc1 : IsChain (Function.update s.PT n { s.PT n with parent := s.pcb_freelist })
        (some n) (n :: l) := by
      simp only [IsChain, Function.update_same, true_and]
      refine IsChain_congr l _ ?_ hc
      intro x hx
      have hxn : x ≠ n := fun e => hn (e ▸ hx)
      simp [Function.update_noteq hxn]
    have hl1 : ∀ x ∈ n :: l, n ≤ x := by
      intro x hx
      rcases List.mem_cons.1 hx with rfl | hx
      · exact le_rfl
      · exact Nat.le_of_succ_le (hl x hx)
    obtain ⟨h1, h2, h3, h4⟩ := ih
      { setPCB s n { s.PT n with parent := s.pcb_freelist } with pcb_freelist := some n }
      (n :: l) hc1 hl1
    refine ⟨?_, ?_, ?_, ?_⟩
    · simpa [build_freelist, List.range_succ, List.append_assoc] using h1
    · intro q
      obtain ⟨p, hp⟩ := h2 q
      simp only [build_freelist]
      by_cases hq : q = n
      · subst hq
        exact ⟨p, by rw [hp]; simp [setPCB]⟩
      · exact ⟨p, by rw [hp]; simp [setPCB, Function.update_noteq hq]⟩
    · simpa [build_freelist] using h3
    · simpa [build_freelist] using h4

theorem initialize_table_chain (M : Nat) :
    IsChain (initialize_table M).PT (initialize_table M).pcb_freelist (List.range M) := by
  have h := (build_freelist_spec M
    { PT := fun _ => initialize_PCB, process_count := 0, pcb_freelist := none,
      refcount := fun _ => 0 } [] (by simp [IsChain]) (by simp)).1
  simpa [initialize_table] using h

theorem initialize_table_PT (M q : Nat) :
    ∃ p, (initialize_table M).PT q = { initialize_PCB with parent := p } := by
  have h := (build_freelist_spec M
    { PT := fun _ => initialize_PCB, process_count := 0, pcb_freelist := none,
      refcount := fun _ => 0 } [] (by simp [IsChain]) (by simp)).2.1 q
  simpa [initialize_table] using h

theorem initialize_table_count (M : Nat) : (initialize_table M).process_count = 0 := by
  have h := (build_freelist_spec M
    { PT := fun _ => initialize_PCB, process_count := 0, pcb_freelist := none,
      refcount := fun _ => 0 } [] (by simp [IsChain]) (by simp)).2.2.1
  simpa [initialize_table] using h

/-! ## Lemmas on `sys_Exec` -/

/-- The conditional `FCB_incref` of the inheritance loop touches one
reference count and nothing else. -/
theorem incref_if_some (s1 : KState) (o : Option Nat) :
    (match o with
      | some fcb => FCB_incref s1 fcb
      | none => s1).pcb_freelist = s1.pcb_freelist ∧
    (match o with
      | some fcb => FCB_incref s1 fcb
      | none => s1).process_count = s1.process_count ∧
    (match o with
      | some fcb => FCB_incref s1 fcb
      | none => s1).PT = s1.PT ∧
    ∀ f, (match o with
      | some fcb => FCB_incref s1 fcb
      | none => s1).refcount f = s1.refcount f + if o = some f then 1 else 0 := by
  cases o with
  | none => simp
  | some g =>
    refine ⟨rfl, rfl, rfl, ?_⟩
    intro f
    by_cases hg : g = f
    · subst hg
      simp [FCB_incref]
    · have hg2 : f ≠ g := fun e => hg e.symm
      simp [FCB_incref, hg, Function.update_noteq hg2]

/-- What one iteration of the inheritance loop does. -/
theorem inherit_step_spec (c new i : Nat) (s : KState) :
    (inherit_step c new i s).pcb_freelist = s.pcb_freelist ∧
    (inherit_step c new i s).process_count = s.process_count ∧
    (∀ q, (inherit_step c new i s).PT q =
      { s.PT q with
        FIDT := if q = new then Function.update (s.PT q).FIDT i ((s.PT c).FIDT i)
          else (s.PT q).FIDT }) ∧
    (∀ f, (inherit_step c new i s).refcount f =
      s.refcount f + if (s.PT c).FIDT i = some f then 1 else 0) := by
  have hPT : ∀ q, (setPCB s new { s.PT new with
      FIDT := Function.update (s.PT new).FIDT i ((s.PT c).FIDT i) }).PT q =
      { s.PT q with
        FIDT := if q = new then Function.update (s.PT q).FIDT i ((s.PT c).FIDT i)
          else (s.PT q).FIDT } := by
    intro q
    rcases eq_or_ne q new with rfl | hq
    · simp [setPCB]
    · simp [setPCB, hq, Function.update_noteq hq]
  have hnew : ((setPCB s new { s.PT new with
      FIDT := Function.update (s.PT new).FIDT i ((s.PT c).FIDT i) }).PT new).FIDT i =
      (s.PT c).FIDT i := by
    simp [setPCB]
  obtain ⟨k1, k2, k3, k4⟩ := incref_if_some
    (setPCB s new { s.PT new with
      FIDT := Function.update (s.PT new).FIDT i ((s.PT c).FIDT i) })
    (((setPCB s new { s.PT new with
      FIDT := Function.update (s.PT new).FIDT i ((s.PT c).FIDT i) }).PT new).FIDT i)
  refine ⟨k1, k2, ?_, ?_⟩
  · intro q
    exact (congrFun k3 q).trans (hPT q)
  · intro f
    refine (k4 f).trans ?_
    rw [hnew]
    rfl

theorem inherit_files_frame (c new : Nat) :
    ∀ (n i : Nat) (s : KState),
      (inherit_files c new i n s).pcb_freelist = s.pcb_freelist ∧
      (inherit_files c new i n s).process_count = s.process_count ∧
      ∀ q, ∃ f, (inherit_files c new i n s).PT q = { s.PT q with FIDT := f } := by
  intro n
  induction n with
  | zero =>
    intro i s
    exact ⟨rfl, rfl, fun q => ⟨(s.PT q).FIDT, rfl⟩⟩
  | succ n ih =>
    intro i s
    simp only [inherit_files]
    obtain ⟨h1, h2, h3, _⟩ := inherit_step_spec c new i s
    obtain ⟨e1, e2, e3⟩ := ih (i + 1) (inherit_step c new i s)
    refine ⟨by rw [e1, h1], by rw [e2, h2], fun q => ?_⟩
    obtain ⟨f, hf⟩ := e3 q
    exact ⟨f, by rw [hf, h3 q]⟩

@[simp] theorem inherit_files_freelist (c new n i : Nat) (s : KState) :
    (inherit_files c new i n s).pcb_freelist = s.pcb_freelist :=
  (inherit_files_frame c new n i s).1

@[simp] theorem inherit_files_count (c new n i : Nat) (s : KState) :
    (inherit_files c new i n s).process_count = s.process_count :=
  (inherit_files_frame c new n i s).2.1

@[simp] theorem inherit_files_pstate (c new n i : Nat) (s : KState) (q : Nat) :
    ((inherit_files c new i n s).PT q).pstate = (s.PT q).pstate := by
  obtain ⟨f, hf⟩ := (inherit_files_frame c new n i s).2.2 q
  rw [hf]

@[simp] theorem inherit_files_parent (c new n i : Nat) (s : KState) (q : Nat) :
    ((inherit_files c new i n s).PT q).parent = (s.PT q).parent := by
  obtain ⟨f, hf⟩ := (inherit_files_frame c new n i s).2.2 q
  rw [hf]

@[simp] theorem inherit_files_exitval (c new n i : Nat) (s : KState) (q : Nat) :
    ((inherit_files c new i n s).PT q).exitval = (s.PT q).exitval := by
  obtain ⟨f, hf⟩ := (inherit_files_frame c new n i s).2.2 q
  rw [hf]

@[simp] theorem inherit_files_children (c new n i : Nat) (s : KState) (q : Nat) :
    ((inherit_files c new i n s).PT q).children_list = (s.PT q).children_list := by
  obtain ⟨f, hf⟩ := (inherit_files_frame c new n i s).2.2 q
  rw [hf]

@[simp] theorem inherit_files_exited (c new n i : Nat) (s : KState) (q : Nat) :
    ((inherit_files c new i n s).PT q).exited_list = (s.PT q).exited_list := by
  obtain ⟨f, hf⟩ := (inherit_files_frame c new n i s).2.2 q
  rw [hf]

@[simp] theorem inherit_files_threads (c new n i : Nat) (s : KState) (q : Nat) :
    ((inherit_files c new i n s).PT q).thread_list = (s.PT q).thread_list := by
  obtain ⟨f, hf⟩ := (inherit_files_frame c new n i s).2.2 q
  rw [hf]

@[simp] theorem inherit_files_threadCount (c new n i : Nat) (s : KState) (q : Nat) :
    ((inherit_files c new i n s).PT q).threadCount = (s.PT q).threadCount := by
  obtain ⟨f, hf⟩ := (inherit_files_frame c new n i s).2.2 q
  rw [hf]

theorem sys_Exec_inherit_frame (F : Nat) (s : KState) (c new : Nat) :
    (sys_Exec_inherit F s c new).pcb_freelist = s.pcb_freelist ∧
    (sys_Exec_inherit F s c new).process_count = s.process_count ∧
    (∀ q, ((sys_Exec_inherit F s c new).PT q).pstate = (s.PT q).pstate) ∧
    (∀ q, ((sys_Exec_inherit F s c new).PT q).exited_list = (s.PT q).exited_list) ∧
    (∀ q, ((sys_Exec_inherit F s c new).PT q).threadCount = (s.PT q).threadCount) ∧
    (∀ q, ((sys_Exec_inherit F s c new).PT q).thread_list = (s.PT q).thread_list) ∧
    (∀ q, ((sys_Exec_inherit F s c new).PT q).exitval = (s.PT q).exitval) ∧
    (∀ q, q ≠ new → ((sys_Exec_inherit F s c new).PT q).parent = (s.PT q).parent) := by
  unfold sys_Exec_inherit
  split_ifs with h
  · refine ⟨rfl, rfl, ?_, ?_, ?_, ?_, ?_, ?_⟩ <;> intro q <;>
      by_cases hq : q = new <;> simp [setPCB, hq, Function.update_noteq]
  · refine ⟨?_, ?_, ?_, ?_, ?_, ?_, ?_, ?_⟩
    · simp [setPCB]
    · simp [setPCB]
    all_goals
      intro q
      rcases eq_or_ne q new with rfl | hq <;> rcases eq_or_ne q c with rfl | hc <;>
        simp [setPCB, Function.update_apply, *]

@[simp] theorem sys_Exec_inherit_freelist (F : Nat) (s : KState) (c new : Nat) :
    (sys_Exec_inherit F s c new).pcb_freelist = s.pcb_freelist :=
  (sys_Exec_inherit_frame F s c new).1

@[simp] theorem sys_Exec_inherit_count (F : Nat) (s : KState) (c new : Nat) :
    (sys_Exec_inherit F s c new).process_count = s.process_count :=
  (sys_Exec_inherit_frame F s c new).2.1

@[simp] theorem sys_Exec_inherit_pstate (F : Nat) (s : KState) (c new q : Nat) :
    ((sys_Exec_inherit F s c new).PT q).pstate = (s.PT q).pstate :=
  (sys_Exec_inherit_frame F s c new).2.2.1 q

@[simp] theorem sys_Exec_inherit_exited (F : Nat) (s : KState) (c new q : Nat) :
    ((sys_Exec_inherit F s c new).PT q).exited_list = (s.PT q).exited_list :=
  (sys_Exec_inherit_frame F s c new).2.2.2.1 q

@[simp] theorem sys_Exec_inherit_threadCount (F : Nat) (s : KState) (c new q : Nat) :
    ((sys_Exec_inherit F s c new).PT q).threadCount = (s.PT q).threadCount :=
  (sys_Exec_inherit_frame F s c new).2.2.2.2.1 q

@[simp] theorem sys_Exec_inherit_threads (F : Nat) (s : KState) (c new q : Nat) :
    ((sys_Exec_inherit F s c new).PT q).thread_list = (s.PT q).thread_list :=
  (sys_Exec_inherit_frame F s c new).2.2.2.2.2.1 q

@[simp] theorem sys_Exec_inherit_exitval (F : Nat) (s : KState) (c new q : Nat) :
    ((sys_Exec_inherit F s c new).PT q).exitval = (s.PT q).exitval :=
  (sys_Exec_inherit_frame F s c new).2.2.2.2.2.2.1 q

theorem sys_Exec_inherit_parent (F : Nat) (s : KState) (c new q : Nat) (hq : q ≠ new) :
    ((sys_Exec_inherit F s c new).PT q).parent = (s.PT q).parent :=
  (sys_Exec_inherit_frame F s c new).2.2.2.2.2.2.2 q hq

theorem sys_Exec_none {F : Nat} {s : KState} (c : Nat) (call : Option Nat) (argl : Int)
    (args : Option (List Nat)) (h : s.pcb_freelist = none) :
    sys_Exec F s c call argl args = (NOPROC, s) := by
  simp [sys_Exec, acquire_PCB, h, get_pid]

/-- What a successful `sys_Exec` does to the fields the invariant speaks of. -/
theorem sys_Exec_some {F : Nat} {s : KState} {p : Nat} (c : Nat) (call : Option Nat)
    (argl : Int) (args : Option (List Nat)) (h : s.pcb_freelist = some p) :
    (sys_Exec F s c call argl args).1 = (p : Int) ∧
    (sys_Exec F s c call argl args).2.pcb_freelist = (s.PT p).parent ∧
    (sys_Exec F s c call argl args).2.process_count = (s.process_count + 1) % 2 ^ 32 ∧
    ((sys_Exec F s c call argl args).2.PT p).pstate = ALIVE ∧
    (∀ q, q ≠ p →
      ((sys_Exec F s c call argl args).2.PT q).pstate = (s.PT q).pstate ∧
      ((sys_Exec F s c call argl args).2.PT q).parent = (s.PT q).parent ∧
      ((sys_Exec F s c call argl args).2.PT q).threadCount = (s.PT q).threadCount ∧
      ((sys_Exec F s c call argl args).2.PT q).thread_list = (s.PT q).thread_list) ∧
    (∀ q, ((sys_Exec F s c call argl args).2.PT q).exited_list = (s.PT q).exited_list) ∧
    ((sys_Exec F s c call argl args).2.PT p).threadCount = (s.PT p).threadCount + 1 ∧
    ((sys_Exec F s c call argl args).2.PT p).thread_list =
      (s.PT p).thread_list ++ [sys_Exec_ptcb p call argl args] := by
  simp only [sys_Exec, acquire_PCB, h]
  refine ⟨rfl, ?_, ?_, ?_, ?_, ?_, ?_, ?_⟩
  · simp [setPCB]
  · simp [setPCB]
  · simp [setPCB]
  · intro q hq
    simp [setPCB, Function.update_noteq hq, sys_Exec_inherit_parent _ _ _ _ _ hq]
  · intro q
    rcases eq_or_ne q p with rfl | hq
    · simp [setPCB]
    · simp [setPCB, Function.update_noteq hq]
  · simp [setPCB]
  · simp [setPCB, rlist_push_back]

theorem Inv_sys_Exec {M F : Nat} (hM : M < 2 ^ 32) {s : KState} (hI : Inv M s)
    (c : Nat) (call : Option Nat) (argl : Int) (args : Option (List Nat)) :
    Inv M (sys_Exec F s c call argl args).2 := by
  cases hfl : s.pcb_freelist with
  | none => rw [sys_Exec_none c call argl args hfl]; exact hI
  | some p =>
    obtain ⟨_, e2, e3, e4, e5, e6, _, _⟩ := sys_Exec_some (F := F) c call argl args hfl
    obtain ⟨l, hc, hnd, hmem, hcnt⟩ := hI.chain
    rw [hfl] at hc
    obtain ⟨t, rfl, hct⟩ := IsChain_some hc
    have hpt : p ∉ t := (List.nodup_cons.1 hnd).1
    have hpfree : p < M ∧ (s.PT p).pstate = FREE := (hmem p).1 (List.mem_cons_self p t)
    refine ⟨⟨t, ?_, (List.nodup_cons.1 hnd).2, ?_, ?_⟩, ?_, ?_⟩
    · rw [e2]
      refine IsChain_congr t _ ?_ hct
      intro x hx
      exact (e5 x (fun e => hpt (e ▸ hx))).2.1
    · intro i
      rcases eq_or_ne i p with rfl | hi
      · simp [hpt, e4]
      · rw [(e5 i hi).1, ← hmem i]
        simp [hi]
    · rw [e3]
      simp only [List.length_cons] at hcnt
      rw [Nat.mod_eq_of_lt (by omega)]
      omega
    · intro q x hx
      rw [e6 q] at hx
      have hz := hI.exited q x hx
      have hxp : x ≠ p := by
        rintro rfl
        rw [hpfree.2] at hz
        exact absurd hz.2 (by decide)
      exact ⟨hz.1, by rw [(e5 x hxp).1]; exact hz.2⟩
    · intro i hi
      rcases eq_or_ne i p with rfl | hip
      · exact absurd e4 hi
      · rw [(e5 i hip).1] at hi
        rw [(e5 i hip).2.2.1, (e5 i hip).2.2.2]
        exact hI.threads i hi

/-! ## Lemmas on reaping -/

/-- What `cleanup_zombie` does to the fields the invariant speaks of. -/
theorem cleanup_zombie_spec (s : KState) (x : Nat) (st : Option Int) :
    (cleanup_zombie s x st).2.pcb_freelist = some x ∧
    (cleanup_zombie s x st).2.process_count = (s.process_count + 2 ^ 32 - 1) % 2 ^ 32 ∧
    ((cleanup_zombie s x st).2.PT x).pstate = FREE ∧
    ((cleanup_zombie s x st).2.PT x).parent = s.pcb_freelist ∧
    (∀ q, q ≠ x →
      ((cleanup_zombie s x st).2.PT q).pstate = (s.PT q).pstate ∧
      ((cleanup_zombie s x st).2.PT q).parent = (s.PT q).parent) ∧
    (∀ q, ((cleanup_zombie s x st).2.PT q).exited_list =
      (s.PT q).exited_list.filter (fun y => y ≠ x)) ∧
    (∀ q, ((cleanup_zombie s x st).2.PT q).children_list =
      (s.PT q).children_list.filter (fun y => y ≠ x)) ∧
    (∀ q, ((cleanup_zombie s x st).2.PT q).threadCount = (s.PT q).threadCount ∧
      ((cleanup_zombie s x st).2.PT q).thread_list = (s.PT q).thread_list ∧
      ((cleanup_zombie s x st).2.PT q).exitval = (s.PT q).exitval) := by
  refine ⟨rfl, rfl, ?_, ?_, ?_, ?_, ?_, ?_⟩
  · simp [cleanup_zombie, release_PCB]
  · simp [cleanup_zombie, release_PCB, rlist_remove_children_node, rlist_remove_exited_node]
  · intro q hq
    simp [cleanup_zombie, release_PCB, rlist_remove_children_node, rlist_remove_exited_node,
      Function.update_noteq hq]
  all_goals
    intro q
    rcases eq_or_ne q x with rfl | hq <;>
      simp [cleanup_zombie, release_PCB, rlist_remove_children_node,
        rlist_remove_exited_node, Function.update_apply, *]

theorem nodup_length_lt {M x : Nat} {l : List Nat} (hnd : l.Nodup)
    (hl : ∀ i ∈ l, i < M) (hx : x < M) (hxl : x ∉ l) : l.length < M := by
  have hnd2 : (x :: l).Nodup := List.nodup_cons.2 ⟨hxl, hnd⟩
  have hsub : (x :: l).toFinset ⊆ Finset.range M := by
    intro i hi
    rw [List.mem_toFinset] at hi
    rw [Finset.mem_range]
    rcases List.mem_cons.1 hi with rfl | hi
    · exact hx
    · exact hl i hi
  have hcard := Finset.card_le_card hsub
  rw [List.toFinset_card_of_nodup hnd2, Finset.card_range, List.length_cons] at hcard
  omega

theorem Inv_cleanup_zombie {M : Nat} (hM : M < 2 ^ 32) {s : KState} (hI : Inv M s) {x : Nat}
    (hx : x < M) (hz : (s.PT x).pstate = ZOMBIE) (st : Option Int) :
    Inv M (cleanup_zombie s x st).2 := by
  obtain ⟨e1, e2, e3, e4, e5, e6, _, e8⟩ := cleanup_zombie_spec s x st
  obtain ⟨l, hc, hnd, hmem, hcnt⟩ := hI.chain
  have hxl : x ∉ l := by
    intro hm
    have := ((hmem x).1 hm).2
    rw [hz] at this
    exact absurd this (by decide)
  have hlen : l.length < M := nodup_length_lt hnd (fun i hi => ((hmem i).1 hi).1) hx hxl
  refine ⟨⟨x :: l, ?_, List.nodup_cons.2 ⟨hxl, hnd⟩, ?_, ?_⟩, ?_, ?_⟩
  · rw [e1]
    simp only [IsChain, true_and]
    rw [e4]
    refine IsChain_congr l _ ?_ hc
    intro y hy
    exact (e5 y (fun e => hxl (e ▸ hy))).2
  · intro i
    rcases eq_or_ne i x with rfl | hi
    · simp [e3, hx]
    · rw [(e5 i hi).1, ← hmem i]
      simp [hi]
  · rw [e2, List.length_cons]
    have h1 : s.process_count + 2 ^ 32 - 1 = (s.process_count - 1) + 2 ^ 32 := by omega
    rw [h1, Nat.add_mod_right, Nat.mod_eq_of_lt (by omega)]
    omega
  · intro q y hy
    rw [e6 q, List.mem_filter] at hy
    have hyx : y ≠ x := by simpa using hy.2
    have h := hI.exited q y hy.1
    exact ⟨h.1, by rw [(e5 y hyx).1]; exact h.2⟩
  · intro i hi
    rw [(e8 i).1, (e8 i).2.1]
    rcases eq_or_ne i x with rfl | hix
    · exact hI.threads i (by rw [hz]; decide)
    · rw [(e5 i hix).1] at hi
      exact hI.threads i hi

/-- A `sys_WaitChild` that returns has either changed nothing and returned
`NOPROC`, or reaped a ZOMBIE slot and returned its index. -/
theorem sys_WaitChild_cases {M : Nat} {s : KState} {c : Nat}
    {cpid : Int} {st st1 : Option Int} {r : Int} {s1 : KState}
    (h : sys_WaitChild M s c cpid st = .returned r st1 s1) :
    (r = NOPROC ∧ st1 = st ∧ s1 = s) ∨
    ∃ x, (s.PT x).pstate = ZOMBIE ∧ r = (x : Int) ∧
      st1 = (cleanup_zombie s x st).1 ∧ s1 = (cleanup_zombie s x st).2 ∧
      (cpid ≠ NOPROC → cpid = (x : Int) ∧ x < M ∧ (s.PT x).parent = some c) ∧
      (cpid = NOPROC → (s.PT c).exited_list.head? = some x ∧ (s.PT c).children_list ≠ []) := by
  unfold sys_WaitChild at h
  split_ifs at h with hc
  · -- a specific child
    unfold wait_for_specific_child at h
    split_ifs at h with hr
    · simp only [WaitResult.returned.injEq] at h
      exact Or.inl ⟨h.1.symm, h.2.1.symm, h.2.2.symm⟩
    · simp only [get_pcb] at h
      split_ifs at h with hfree
      · simp only [WaitResult.returned.injEq] at h
        exact Or.inl ⟨h.1.symm, h.2.1.symm, h.2.2.symm⟩
      · simp only at h
        split_ifs at h with hpar
        · simp only [WaitResult.returned.injEq] at h
          exact Or.inl ⟨h.1.symm, h.2.1.symm, h.2.2.symm⟩
        · unfold wait_for_specific_child_loop at h
          split_ifs at h with halive
          simp only [WaitResult.returned.injEq] at h
          refine Or.inr ⟨cpid.toNat, ?_, by omega, h.2.1.symm, h.2.2.symm, ?_, ?_⟩
          · cases hs : (s.PT cpid.toNat).pstate with
            | FREE => exact absurd hs hfree
            | ALIVE => exact absurd hs halive
            | ZOMBIE => rfl
          · intro _
            exact ⟨by omega, by omega, by simpa using hpar⟩
          · intro e
            exact absurd e hc
  · -- any child
    unfold wait_for_any_child at h
    split at h
    · simp only [WaitResult.returned.injEq] at h
      exact Or.inl ⟨h.1.symm, h.2.1.symm, h.2.2.symm⟩
    · rename_i hd tl hch
      unfold wait_for_any_child_loop at h
      split at h
      · exact absurd h (by simp)
      · rename_i child rest hex
        split_ifs at h with hz
        simp only [WaitResult.returned.injEq] at h
        refine Or.inr ⟨child, by simpa using hz, ?_, h.2.1.symm, h.2.2.symm, ?_, ?_⟩
        · rw [← h.1]; rfl
        · intro hne
          exact absurd (by simpa using hc) hne
        · intro _
          exact ⟨by rw [hex]; rfl, by rw [hch]; simp⟩

/-- In a state that satisfies the invariant, the slot a `sys_WaitChild` reaps
is a slot of the table. -/
theorem sys_WaitChild_returned {M : Nat} {s : KState} (hI : Inv M s) {c : Nat}
    {cpid : Int} {st st1 : Option Int} {r : Int} {s1 : KState}
    (h : sys_WaitChild M s c cpid st = .returned r st1 s1) :
    (r = NOPROC ∧ st1 = st ∧ s1 = s) ∨
    ∃ x, x < M ∧ (s.PT x).pstate = ZOMBIE ∧ r = (x : Int) ∧
      st1 = (cleanup_zombie s x st).1 ∧ s1 = (cleanup_zombie s x st).2 ∧
      (cpid ≠ NOPROC → cpid = (x : Int) ∧ (s.PT x).parent = some c) ∧
      (cpid = NOPROC → (s.PT c).exited_list.head? = some x ∧ (s.PT c).children_list ≠ []) := by
  rcases sys_WaitChild_cases h with h0 | ⟨x, hz, hr, h1, h2, h3, h4⟩
  · exact Or.inl h0
  · refine Or.inr ⟨x, ?_, hz, hr, h1, h2, fun hne => ⟨(h3 hne).1, (h3 hne).2.2⟩, h4⟩
    by_cases hc : cpid = NOPROC
    · exact (hI.exited c x (List.mem_of_mem_head? (h4 hc).1)).1
    · exact (h3 hc).2.1

theorem Inv_sys_WaitChild {M : Nat} (hM : M < 2 ^ 32) {s : KState} (hI : Inv M s) {c : Nat}
    {cpid : Int} {st st1 : Option Int} {r : Int} {s1 : KState}
    (h : sys_WaitChild M s c cpid st = .returned r st1 s1) : Inv M s1 := by
  rcases sys_WaitChild_returned hI h with ⟨_, _, rfl⟩ | ⟨x, hx, hz, _, _, rfl, _⟩
  · exact hI
  · exact Inv_cleanup_zombie hM hI hx hz st

/-! ## Lemmas on termination -/

theorem sys_WaitChild_alive {M : Nat} {s : KState} (hI : Inv M s) {c : Nat}
    {cpid : Int} {st st1 : Option Int} {r : Int} {s1 : KState}
    (h : sys_WaitChild M s c cpid st = .returned r st1 s1) (q : Nat)
    (hq : (s.PT q).pstate = ALIVE) : (s1.PT q).pstate = ALIVE := by
  rcases sys_WaitChild_returned hI h with ⟨_, _, rfl⟩ | ⟨x, _, hz, _, _, rfl, _⟩
  · exact hq
  · have hqx : q ≠ x := by
      rintro rfl
      rw [hz] at hq
      exact absurd hq (by decide)
    rw [((cleanup_zombie_spec s x st).2.2.2.2.1 q hqx).1]
    exact hq

theorem Inv_sys_Exit_drain {M : Nat} (hM : M < 2 ^ 32) (c : Nat) :
    ∀ (fuel : Nat) (s : KState) (r : DrainResult), Inv M s → (s.PT c).pstate = ALIVE →
      sys_Exit_drain M c fuel s = some r →
      Inv M r.state ∧ (r.state.PT c).pstate = ALIVE := by
  intro fuel
  induction fuel with
  | zero =>
    intro s r _ _ h
    simp [sys_Exit_drain] at h
  | succ n ih =>
    intro s r hI ha h
    simp only [sys_Exit_drain] at h
    split at h
    · rename_i cpid st1 s1 hw
      split_ifs at h with hc
      · exact ih s1 r (Inv_sys_WaitChild hM hI hw) (sys_WaitChild_alive hI hw c ha) h
      · simp only [Option.some.injEq] at h
        subst h
        exact ⟨Inv_sys_WaitChild hM hI hw, sys_WaitChild_alive hI hw c ha⟩
    · simp only [Option.some.injEq] at h
      subst h
      exact ⟨hI, ha⟩
    · simp only [Option.some.injEq] at h
      subst h
      exact ⟨hI, ha⟩

theorem Inv_set_exitval {M : Nat} {s : KState} (hI : Inv M s) (c : Nat) (v : Int) :
    Inv M (setPCB s c { s.PT c with exitval := v }) := by
  have hp : ∀ q, ((setPCB s c { s.PT c with exitval := v }).PT q).pstate = (s.PT q).pstate ∧
      ((setPCB s c { s.PT c with exitval := v }).PT q).parent = (s.PT q).parent ∧
      ((setPCB s c { s.PT c with exitval := v }).PT q).exited_list = (s.PT q).exited_list ∧
      ((setPCB s c { s.PT c with exitval := v }).PT q).threadCount = (s.PT q).threadCount ∧
      ((setPCB s c { s.PT c with exitval := v }).PT q).thread_list = (s.PT q).thread_list := by
    intro q
    rcases eq_or_ne q c with rfl | hq <;> simp [setPCB, Function.update_apply, *]
  obtain ⟨l, hc, hnd, hmem, hcnt⟩ := hI.chain
  refine ⟨⟨l, IsChain_congr l _ (fun x _ => (hp x).2.1) hc, hnd, ?_, hcnt⟩, ?_, ?_⟩
  · intro i
    rw [(hp i).1]
    exact hmem i
  · intro q x hx
    rw [(hp q).2.2.1] at hx
    rw [(hp x).1]
    exact hI.exited q x hx
  · intro i hi
    rw [(hp i).1] at hi
    rw [(hp i).2.2.2.1, (hp i).2.2.2.2]
    exact hI.threads i hi

/-- What the thread-exit handoff does to the fields the invariant speaks of. -/
theorem sys_ThreadExit_spec (s : KState) (c : Nat) (v : Int) :
    (sys_ThreadExit s c v).pcb_freelist = s.pcb_freelist ∧
    (sys_ThreadExit s c v).process_count = s.process_count ∧
    ((sys_ThreadExit s c v).PT c).pstate = ZOMBIE ∧
    ((sys_ThreadExit s c v).PT c).threadCount = 0 ∧
    ((sys_ThreadExit s c v).PT c).thread_list = [] ∧
    (∀ q, ((sys_ThreadExit s c v).PT q).parent = (s.PT q).parent) ∧
    (∀ q, q ≠ c →
      ((sys_ThreadExit s c v).PT q).pstate = (s.PT q).pstate ∧
      ((sys_ThreadExit s c v).PT q).threadCount = (s.PT q).threadCount ∧
      ((sys_ThreadExit s c v).PT q).thread_list = (s.PT q).thread_list) ∧
    (∀ q x, x ∈ ((sys_ThreadExit s c v).PT q).exited_list →
      x = c ∨ x ∈ (s.PT q).exited_list) := by
  unfold sys_ThreadExit
  cases hpar : (s.PT c).parent with
  | none =>
    refine ⟨rfl, rfl, ?_, ?_, ?_, ?_, ?_, ?_⟩
    · simp [setPCB]
    · simp [setPCB]
    · simp [setPCB]
    · intro q
      rcases eq_or_ne q c with rfl | hq <;> simp [setPCB, Function.update_apply, *]
    · intro q hq
      simp [setPCB, Function.update_apply, *]
    · intro q x hx
      rcases eq_or_ne q c with rfl | hq <;> simp_all [setPCB, Function.update_apply]
  | some p =>
    refine ⟨rfl, rfl, ?_, ?_, ?_, ?_, ?_, ?_⟩
    · rcases eq_or_ne c p with rfl | hq <;>
        simp [setPCB, rlist_remove_children_node, Function.update_apply, *]
    · rcases eq_or_ne c p with rfl | hq <;>
        simp [setPCB, rlist_remove_children_node, Function.update_apply, *]
    · rcases eq_or_ne c p with rfl | hq <;>
        simp [setPCB, rlist_remove_children_node, Function.update_apply, *]
    · intro q
      rcases eq_or_ne q c with rfl | hq <;> rcases eq_or_ne q p with rfl | hqp <;>
        simp [setPCB, rlist_remove_children_node, Function.update_apply, *]
    · intro q hq
      rcases eq_or_ne q p with rfl | hqp <;>
        simp [setPCB, rlist_remove_children_node, Function.update_apply, *]
    · intro q x hx
      rcases eq_or_ne q c with rfl | hq <;> rcases eq_or_ne q p with rfl | hqp <;>
        simp_all [setPCB, rlist_remove_children_node, rlist_push_front, Function.update_apply]

theorem Inv_sys_ThreadExit {M : Nat} {s : KState} (hI : Inv M s) {c : Nat} (hc : c < M)
    (ha : (s.PT c).pstate = ALIVE) (v : Int) : Inv M (sys_ThreadExit s c v) := by
  obtain ⟨e1, e2, e3, e4, e5, e6, e7, e8⟩ := sys_ThreadExit_spec s c v
  obtain ⟨l, hch, hnd, hmem, hcnt⟩ := hI.chain
  refine ⟨⟨l, ?_, hnd, ?_, ?_⟩, ?_, ?_⟩
  · rw [e1]
    exact IsChain_congr l _ (fun x _ => e6 x) hch
  · intro i
    rcases eq_or_ne i c with rfl | hi
    · rw [hmem i, e3, ha]
      simp
    · rw [(e7 i hi).1]
      exact hmem i
  · rw [e2]
    exact hcnt
  · intro q x hx
    rcases e8 q x hx with rfl | hx
    · exact ⟨hc, e3⟩
    · have h := hI.exited q x hx
      have hxc : x ≠ c := by
        rintro rfl
        rw [ha] at h
        exact absurd h.2 (by decide)
      exact ⟨h.1, by rw [(e7 x hxc).1]; exact h.2⟩
  · intro i hi
    rcases eq_or_ne i c with rfl | hic
    · exact ⟨e4, e5⟩
    · rw [(e7 i hic).1] at hi
      rw [(e7 i hic).2.1, (e7 i hic).2.2]
      exact hI.threads i hi

/-! ## The invariant holds of every reachable state -/

theorem Inv_initialize_table (M : Nat) : Inv M (initialize_table M) := by
  have hp : ∀ q, ((initialize_table M).PT q).pstate = FREE ∧
      ((initialize_table M).PT q).exited_list = [] ∧
      ((initialize_table M).PT q).threadCount = 0 ∧
      ((initialize_table M).PT q).thread_list = [] := by
    intro q
    obtain ⟨p, hp⟩ := initialize_table_PT M q
    rw [hp]
    simp [initialize_PCB]
  refine ⟨⟨List.range M, initialize_table_chain M, List.nodup_range M, ?_, ?_⟩, ?_, ?_⟩
  · intro i
    simp [(hp i).1]
  · simp [initialize_table_count]
  · intro q x hx
    rw [(hp q).2.1] at hx
    simp at hx
  · intro i _
    exact ⟨(hp i).2.2.1, (hp i).2.2.2⟩

theorem Inv_initialize_processes {M F : Nat} (hM : M < 2 ^ 32) {s : KState}
    (h : initialize_processes M F = some s) : Inv M s := by
  unfold initialize_processes at h
  simp only at h
  split_ifs at h
  simp only [Option.some.injEq] at h
  subst h
  exact Inv_sys_Exec hM (Inv_initialize_table M) 0 none 0 none

theorem Inv_sys_Exit {M : Nat} (hM : M < 2 ^ 32) {s : KState} (hI : Inv M s) {c : Nat}
    (hc : c < M) (ha : (s.PT c).pstate = ALIVE) (v : Int) {r : DrainResult}
    (h : sys_Exit M s c v = some r) : Inv M r.state := by
  unfold sys_Exit at h
  simp only at h
  have key : ∀ d : Option DrainResult,
      (∀ r1, d = some r1 → Inv M r1.state ∧ (r1.state.PT c).pstate = ALIVE) →
      (match d with
        | some (.done s1) =>
          some (.done (sys_ThreadExit (setPCB s1 c { s1.PT c with exitval := v }) c v))
        | r => r) = some r → Inv M r.state := by
    intro d hd hr
    cases d with
    | none => simp at hr
    | some r1 =>
      cases r1 with
      | done s1 =>
        simp only [Option.some.injEq] at hr
        subst hr
        obtain ⟨h1, h2⟩ := hd _ rfl
        refine Inv_sys_ThreadExit (Inv_set_exitval h1 c v) hc ?_ v
        simpa [setPCB] using h2
      | blocked s1 =>
        simp only [Option.some.injEq] at hr
        subst hr
        exact (hd _ rfl).1
      | assert_failed s1 =>
        simp only [Option.some.injEq] at hr
        subst hr
        exact (hd _ rfl).1
  refine key _ ?_ h
  intro r1 hr1
  split_ifs at hr1
  · exact Inv_sys_Exit_drain hM c _ s r1 hI ha hr1
  · simp only [Option.some.injEq] at hr1
    subst hr1
    exact ⟨hI, ha⟩

theorem Inv_step {M F : Nat} (hM : M < 2 ^ 32) {s : KState} (hI : Inv M s) (op : Op) :
    Inv M (step M F s op) := by
  unfold step
  split_ifs with hc
  · cases op with
    | Exec c call argl args => exact Inv_sys_Exec hM hI c call argl args
    | WaitChild c cpid status =>
      simp only
      split
      · rename_i r st1 s1 hw
        exact Inv_sys_WaitChild hM hI hw
      · exact hI
    | Exit c v =>
      simp only
      split
      · rename_i s1 he
        exact Inv_sys_Exit hM hI hc.1 hc.2 v he
      · rename_i s1 he
        exact Inv_sys_Exit hM hI hc.1 hc.2 v he
      · exact hI
  · exact hI

theorem Reachable.inv {M F : Nat} (hM : M < 2 ^ 32) {s : KState}
    (h : Reachable M F s) : Inv M s := by
  induction h with
  | init h0 => exact Inv_initialize_processes hM h0
  | step op _ ih => exact Inv_step hM ih op

theorem Inv_run {M F : Nat} (hM : M < 2 ^ 32) (ops : List Op) :
    ∀ {s : KState}, Inv M s → Inv M (run M F s ops) := by
  induction ops with
  | nil => intro s h; exact h
  | cons op ops ih => intro s h; exact ih (Inv_step hM h op)

theorem Reachable.run {M F : Nat} (ops : List Op) :
    ∀ {s : KState}, Reachable M F s → Reachable M F (run M F s ops) := by
  induction ops with
  | nil => intro s h; exact h
  | cons op ops ih => intro s h; exact ih (Reachable.step op h)

theorem ex_boot_reachable : Reachable 4 2 ex_boot := Reachable.init rfl

theorem ex_full_reachable : Reachable 4 2 ex_full := Reachable.run _ ex_boot_reachable

theorem ex_zombie_reachable : Reachable 4 2 ex_zombie := Reachable.step _ ex_full_reachable

/-! ## Creation -/

/-- The parent link a successful `sys_Exec` gives the new process. -/
theorem sys_Exec_parent {F : Nat} {s : KState} {p : Nat} (c : Nat) (call : Option Nat)
    (argl : Int) (args : Option (List Nat)) (h : s.pcb_freelist = some p) :
    ((sys_Exec F s c call argl args).2.PT p).parent =
      if (p : Int) ≤ 1 then none else some c := by
  simp only [sys_Exec, acquire_PCB, h]
  unfold sys_Exec_inherit
  split_ifs with h1 h2 h2
  · simp [setPCB]
  · exact absurd h1 h2
  · exact absurd h2 h1
  · rcases eq_or_ne p c with rfl | hpc <;> simp [setPCB, Function.update_apply, *]

/-- In a state that satisfies the invariant, the free list is empty exactly
when no slot of the table is FREE. -/
theorem freelist_none_iff {M : Nat} {s : KState} (hI : Inv M s) :
    s.pcb_freelist = none ↔ ∀ i, i < M → (s.PT i).pstate ≠ FREE := by
  obtain ⟨l, hc, _, hmem, _⟩ := hI.chain
  constructor
  · intro h i hi hfree
    rw [h] at hc
    have hl := IsChain_none hc
    have : i ∈ l := (hmem i).2 ⟨hi, hfree⟩
    rw [hl] at this
    exact absurd this (List.not_mem_nil i)
  · intro h
    cases hfl : s.pcb_freelist with
    | none => rfl
    | some p =>
      rw [hfl] at hc
      obtain ⟨t, rfl, _⟩ := IsChain_some hc
      have := (hmem p).1 (List.mem_cons_self p t)
      exact absurd this.2 (h p this.1)

/-- In a state that satisfies the invariant, the head of the free list is a
FREE slot of the table. -/
theorem freelist_head_free {M : Nat} {s : KState} (hI : Inv M s) {p : Nat}
    (h : s.pcb_freelist = some p) : p < M ∧ (s.PT p).pstate = FREE := by
  obtain ⟨l, hc, _, hmem, _⟩ := hI.chain
  rw [h] at hc
  obtain ⟨t, rfl, _⟩ := IsChain_some hc
  exact (hmem p).1 (List.mem_cons_self p t)

theorem pstate_ne_free_iff (st : pid_state) : st ≠ FREE ↔ st = ALIVE ∨ st = ZOMBIE := by
  cases st <;> simp

/-- Where no call goes on after a wait, that is in every state of `Reachable`:
`sys_Exec` returns `NOPROC` exactly when no slot of the table is FREE, that is when all `MAX_PROC` slots are ALIVE or
ZOMBIE; and a call that returns `NOPROC` leaves the whole state as it was:
`process_count`, the free list and every PCB. -/
theorem exec_noproc_iff_table_full_of_reachable (M F : Nat) (hM : M < 2 ^ 32) (s : KState)
    (hR : Reachable M F s) (curproc : Nat) (call : Option Nat) (argl : Int)
    (args : Option (List Nat)) :
    ((sys_Exec F s curproc call argl args).1 = NOPROC ↔
      ∀ i, i < M → (s.PT i).pstate = ALIVE ∨ (s.PT i).pstate = ZOMBIE) ∧
    ((sys_Exec F s curproc call argl args).1 = NOPROC →
      (sys_Exec F s curproc call argl args).2 = s) := by
  have hI := hR.inv hM
  have hiff := freelist_none_iff hI
  simp only [pstate_ne_free_iff] at hiff
  cases hfl : s.pcb_freelist with
  | none =>
    rw [sys_Exec_none curproc call argl args hfl]
    exact ⟨⟨fun _ => hiff.1 hfl, fun _ => rfl⟩, fun _ => rfl⟩
  | some p =>
    have hret := (sys_Exec_some (F := F) curproc call argl args hfl).1
    have hne : (sys_Exec F s curproc call argl args).1 ≠ NOPROC := by
      rw [hret]
      unfold NOPROC
      omega
    refine ⟨⟨fun h => absurd h hne, fun h => ?_⟩, fun h => absurd h hne⟩
    have := hiff.2 h
    rw [hfl] at this
    exact absurd this (by simp)

/-- At the full table of four slots the call returns `NOPROC`. -/
theorem exec_noproc_iff_table_full_of_reachable_example :
    (sys_Exec 2 ex_full 1 (some 1) 0 none).1 = NOPROC ∧
    (((sys_Exec 2 ex_full 1 (some 1) 0 none).1 = NOPROC ↔
      ∀ i, i < 4 → (ex_full.PT i).pstate = ALIVE ∨ (ex_full.PT i).pstate = ZOMBIE) ∧
    ((sys_Exec 2 ex_full 1 (some 1) 0 none).1 = NOPROC →
      (sys_Exec 2 ex_full 1 (some 1) 0 none).2 = ex_full)) :=
  ⟨by decide,
    exec_noproc_iff_table_full_of_reachable 4 2 (by norm_num) ex_full ex_full_reachable 1 (some 1) 0 none⟩

/-! ## How slot states change -/

theorem OnlyReaped.refl (s : KState) : OnlyReaped s s := fun _ => Or.inl rfl

theorem OnlyReaped.trans {s s1 s2 : KState} (h1 : OnlyReaped s s1) (h2 : OnlyReaped s1 s2) :
    OnlyReaped s s2 := by
  intro q
  rcases h1 q with e1 | ⟨a1, b1⟩ <;> rcases h2 q with e2 | ⟨a2, b2⟩
  · exact Or.inl (e2.trans e1)
  · exact Or.inr ⟨e1 ▸ a2, b2⟩
  · exact Or.inr ⟨a1, e2.trans b1⟩
  · rw [b1] at a2
    exact absurd a2 (by decide)

theorem sys_WaitChild_onlyReaped {M : Nat} {s : KState} {c : Nat}
    {cpid : Int} {st st1 : Option Int} {r : Int} {s1 : KState}
    (h : sys_WaitChild M s c cpid st = .returned r st1 s1) : OnlyReaped s s1 := by
  rcases sys_WaitChild_cases h with ⟨_, _, rfl⟩ | ⟨x, hz, _, _, rfl, _⟩
  · exact OnlyReaped.refl _
  · intro q
    rcases eq_or_ne q x with rfl | hq
    · exact Or.inr ⟨hz, (cleanup_zombie_spec s q st).2.2.1⟩
    · exact Or.inl ((cleanup_zombie_spec s x st).2.2.2.2.1 q hq).1

theorem sys_Exit_drain_onlyReaped {M : Nat} (c : Nat) :
    ∀ (fuel : Nat) (s : KState) (r : DrainResult),
      sys_Exit_drain M c fuel s = some r → OnlyReaped s r.state := by
  intro fuel
  induction fuel with
  | zero =>
    intro s r h
    simp [sys_Exit_drain] at h
  | succ n ih =>
    intro s r h
    simp only [sys_Exit_drain] at h
    split at h
    · rename_i cpid st1 s1 hw
      split_ifs at h with hc
      · exact (sys_WaitChild_onlyReaped hw).trans (ih s1 r h)
      · simp only [Option.some.injEq] at h
        subst h
        exact sys_WaitChild_onlyReaped hw
    · simp only [Option.some.injEq] at h
      subst h
      exact OnlyReaped.refl s
    · simp only [Option.some.injEq] at h
      subst h
      exact OnlyReaped.refl s

/-- A slot that `sys_Exit` leaves FREE was FREE or ZOMBIE before. -/
theorem sys_Exit_release {M : Nat} {s : KState} {c : Nat} (v : Int) {r : DrainResult}
    (h : sys_Exit M s c v = some r) {x : Nat} (hx : (s.PT x).pstate ≠ FREE)
    (hf : (r.state.PT x).pstate = FREE) : (s.PT x).pstate = ZOMBIE := by
  unfold sys_Exit at h
  simp only at h
  have key : ∀ d : Option DrainResult, (∀ r1, d = some r1 → OnlyReaped s r1.state) →
      (match d with
        | some (.done s1) =>
          some (.done (sys_ThreadExit (setPCB s1 c { s1.PT c with exitval := v }) c v))
        | r => r) = some r → (s.PT x).pstate = ZOMBIE := by
    intro d hd hr
    have fin : ∀ s1, OnlyReaped s s1 → (s1.PT x).pstate = FREE → (s.PT x).pstate = ZOMBIE := by
      intro s1 h1 h2
      rcases h1 x with e | ⟨a, _⟩
      · exact absurd (e ▸ h2) hx
      · exact a
    cases d with
    | none => simp at hr
    | some r1 =>
      cases r1 with
      | done s1 =>
        simp only [Option.some.injEq] at hr
        subst hr
        obtain ⟨_, _, e3, _, _, _, e7, _⟩ :=
          sys_ThreadExit_spec (setPCB s1 c { s1.PT c with exitval := v }) c v
        rcases eq_or_ne x c with rfl | hxc
        · simp only [DrainResult.state] at hf
          rw [e3] at hf
          exact absurd hf (by decide)
        · simp only [DrainResult.state] at hf
          rw [(e7 x hxc).1] at hf
          refine fin s1 (hd _ rfl) ?_
          simpa [setPCB, Function.update_noteq hxc] using hf
      | blocked s1 =>
        simp only [Option.some.injEq] at hr
        subst hr
        exact fin s1 (hd _ rfl) hf
      | assert_failed s1 =>
        simp only [Option.some.injEq] at hr
        subst hr
        exact fin s1 (hd _ rfl) hf
  refine key _ ?_ h
  intro r1 hr1
  split_ifs at hr1
  · exact sys_Exit_drain_onlyReaped c _ s r1 hr1
  · simp only [Option.some.injEq] at hr1
    subst hr1
    exact OnlyReaped.refl s

/-- A step that turns a slot FREE runs `sys_WaitChild`, and the slot was a
ZOMBIE. -/
theorem step_release {M F : Nat} {s : KState} (op : Op) {x : Nat}
    (hx : (s.PT x).pstate ≠ FREE) (hf : ((step M F s op).PT x).pstate = FREE) :
    op.reaps = true ∧ (s.PT x).pstate = ZOMBIE := by
  unfold step at hf
  split_ifs at hf with hc
  · cases op with
    | Exec c call argl args =>
      simp only at hf
      cases hfl : s.pcb_freelist with
      | none =>
        rw [sys_Exec_none c call argl args hfl] at hf
        exact absurd hf hx
      | some p =>
        obtain ⟨_, _, _, e4, e5, _⟩ := sys_Exec_some (F := F) c call argl args hfl
        rcases eq_or_ne x p with rfl | hxp
        · rw [e4] at hf
          exact absurd hf (by decide)
        · rw [(e5 x hxp).1] at hf
          exact absurd hf hx
    | WaitChild c cpid status =>
      refine ⟨rfl, ?_⟩
      simp only at hf
      split at hf
      · rename_i r st1 s1 hw
        rcases sys_WaitChild_onlyReaped hw x with e | ⟨a, _⟩
        · exact absurd (e ▸ hf) hx
        · exact a
      · exact absurd hf hx
    | Exit c v =>
      refine ⟨rfl, ?_⟩
      simp only at hf
      split at hf
      · rename_i s1 he
        exact sys_Exit_release v he hx hf
      · rename_i s1 he
        exact sys_Exit_release v he hx hf
      · exact absurd hf hx
  · exact absurd hf hx

/-- A slot that is not FREE and is FREE after a run of system calls was
released at one of them: a call that runs `sys_WaitChild` found it a ZOMBIE and
left it FREE. -/
theorem run_release {M F : Nat} {x : Nat} :
    ∀ (ops : List Op) (s : KState), (s.PT x).pstate ≠ FREE →
      ((run M F s ops).PT x).pstate = FREE →
      ∃ ops1 op ops2, ops = ops1 ++ op :: ops2 ∧ op.reaps = true ∧
        ((run M F s ops1).PT x).pstate = ZOMBIE ∧
        ((step M F (run M F s ops1) op).PT x).pstate = FREE := by
  intro ops
  induction ops with
  | nil =>
    intro s hx hf
    exact absurd hf hx
  | cons op rest ih =>
    intro s hx hf
    by_cases h1 : ((step M F s op).PT x).pstate = FREE
    · obtain ⟨hr, hz⟩ := step_release op hx h1
      exact ⟨[], op, rest, rfl, hr, hz, h1⟩
    · obtain ⟨ops1, op1, ops2, e, hr, hz, hf1⟩ := ih (step M F s op) h1 hf
      exact ⟨op :: ops1, op1, ops2, by rw [e]; rfl, hr, hz, hf1⟩

/-- Where no call goes on after a wait, that is in every state of `Reachable`:
the id a successful `sys_Exec` returns is the index of a FREE slot of the table, so it differs from the id of every process
that is ALIVE or ZOMBIE at the call; and whenever a later `sys_Exec`, after any
run of system calls, returns the same id again, one of the calls in between ran
`sys_WaitChild`, found that slot a ZOMBIE and released it. -/
theorem exec_id_fresh_until_reaped_of_reachable (M F : Nat) (hM : M < 2 ^ 32) (s : KState)
    (hR : Reachable M F s) (curproc : Nat) (call : Option Nat) (argl : Int)
    (args : Option (List Nat)) (x : Nat)
    (hx : (sys_Exec F s curproc call argl args).1 = (x : Int)) :
    (x < M ∧ (s.PT x).pstate = FREE) ∧
    (∀ i : Nat, (s.PT i).pstate = ALIVE ∨ (s.PT i).pstate = ZOMBIE →
      (sys_Exec F s curproc call argl args).1 ≠ (i : Int)) ∧
    (∀ (ops : List Op) (curproc2 : Nat) (call2 : Option Nat) (argl2 : Int)
      (args2 : Option (List Nat)),
      (sys_Exec F (run M F (sys_Exec F s curproc call argl args).2 ops)
        curproc2 call2 argl2 args2).1 = (x : Int) →
      ∃ ops1 op ops2, ops = ops1 ++ op :: ops2 ∧ op.reaps = true ∧
        ((run M F (sys_Exec F s curproc call argl args).2 ops1).PT x).pstate = ZOMBIE ∧
        ((step M F (run M F (sys_Exec F s curproc call argl args).2 ops1) op).PT x).pstate
          = FREE) := by
  have hI := hR.inv hM
  have fresh : ∀ {t : KState}, Inv M t → ∀ (c : Nat) (cl : Option Nat) (al : Int)
      (ar : Option (List Nat)), (sys_Exec F t c cl al ar).1 = (x : Int) →
      t.pcb_freelist = some x ∧ x < M ∧ (t.PT x).pstate = FREE := by
    intro t hIt c cl al ar h
    cases hfl : t.pcb_freelist with
    | none =>
      rw [sys_Exec_none c cl al ar hfl] at h
      simp only [NOPROC] at h
      omega
    | some p =>
      rw [(sys_Exec_some (F := F) c cl al ar hfl).1] at h
      have hpx : p = x := by exact_mod_cast h
      subst hpx
      exact ⟨rfl, freelist_head_free hIt hfl⟩
  obtain ⟨hfl, hxM, hfree⟩ := fresh hI curproc call argl args hx
  refine ⟨⟨hxM, hfree⟩, ?_, ?_⟩
  · intro i hi e
    rw [hx] at e
    have hix : x = i := by exact_mod_cast e
    subst hix
    rw [hfree] at hi
    rcases hi with h | h <;> exact absurd h (by decide)
  · intro ops c2 call2 argl2 args2 h2
    have hI1 : Inv M (sys_Exec F s curproc call argl args).2 :=
      Inv_sys_Exec hM hI curproc call argl args
    have halive : ((sys_Exec F s curproc call argl args).2.PT x).pstate = ALIVE :=
      (sys_Exec_some (F := F) curproc call argl args hfl).2.2.2.1
    have hfree2 := (fresh (Inv_run hM ops hI1) c2 call2 argl2 args2 h2).2.2
    exact run_release ops _ (by rw [halive]; decide) hfree2

/-- On the table of four slots: process 1 starts process 2; after process 2
has exited and process 1 has reaped it, the next `sys_Exec` returns 2 again. -/
theorem exec_id_fresh_until_reaped_of_reachable_example :
    (sys_Exec 2 (run 4 2 ex_boot [.Exec 0 (some 1) 0 none]) 1 (some 1) 0 none).1 = (2 : Nat) ∧
    (sys_Exec 2 (run 4 2 (sys_Exec 2 (run 4 2 ex_boot [.Exec 0 (some 1) 0 none])
        1 (some 1) 0 none).2 [.Exit 2 5, .WaitChild 1 2 none]) 1 (some 1) 0 none).1
      = (2 : Nat) ∧
    ∃ ops1 op ops2, [Op.Exit 2 5, Op.WaitChild 1 2 none] = ops1 ++ op :: ops2 ∧
      op.reaps = true ∧
      ((run 4 2 (sys_Exec 2 (run 4 2 ex_boot [.Exec 0 (some 1) 0 none])
        1 (some 1) 0 none).2 ops1).PT 2).pstate = ZOMBIE ∧
      ((step 4 2 (run 4 2 (sys_Exec 2 (run 4 2 ex_boot [.Exec 0 (some 1) 0 none])
        1 (some 1) 0 none).2 ops1) op).PT 2).pstate = FREE :=
  ⟨by decide, by decide,
    (exec_id_fresh_until_reaped_of_reachable 4 2 (by norm_num)
      (run 4 2 ex_boot [.Exec 0 (some 1) 0 none]) (Reachable.run _ ex_boot_reachable)
      1 (some 1) 0 none 2 (by decide)).2.2
      [.Exit 2 5, .WaitChild 1 2 none] 1 (some 1) 0 none (by decide)⟩

theorem initialize_table_head (M : Nat) (hM : 2 ≤ M) :
    (initialize_table M).pcb_freelist = some 0 ∧
    ((initialize_table M).PT 0).parent = some 1 := by
  have hc := initialize_table_chain M
  obtain ⟨k, rfl⟩ : ∃ k, M = k + 2 := ⟨M - 2, by omega⟩
  have hr : List.range (k + 2) = 0 :: 1 :: List.map (fun i => i + 2) (List.range k) := by
    rw [List.range_succ_eq_map, List.range_succ_eq_map]
    simp [Function.comp_def]
  rw [hr] at hc
  obtain ⟨h0, hc1⟩ := IsChain_cons hc
  exact ⟨h0, (IsChain_cons hc1).1⟩

/-- C3: on the table built by `initialize_processes`, with room for at least
two processes, the first creation call (the `Exec` with an absent entry task
that `initialize_processes` makes itself) returns id 0, and the second
creation call, whoever makes it, returns id 1; both new PCBs have no parent,
so the parent id of process 1 is `NOPROC`. -/
theorem C3_first_ids_are_0_and_1 (M F : Nat) (hM : 2 ≤ M) (curproc : Nat)
    (call : Option Nat) (argl : Int) (args : Option (List Nat)) :
    (sys_Exec F (initialize_table M) 0 none 0 none).1 = 0 ∧
    initialize_processes M F = some (sys_Exec F (initialize_table M) 0 none 0 none).2 ∧
    ((sys_Exec F (initialize_table M) 0 none 0 none).2.PT 0).parent = none ∧
    (sys_Exec F (sys_Exec F (initialize_table M) 0 none 0 none).2
      curproc call argl args).1 = 1 ∧
    ((sys_Exec F (sys_Exec F (initialize_table M) 0 none 0 none).2
      curproc call argl args).2.PT 0).parent = none ∧
    ((sys_Exec F (sys_Exec F (initialize_table M) 0 none 0 none).2
      curproc call argl args).2.PT 1).parent = none ∧
    sys_GetPPid (sys_Exec F (sys_Exec F (initialize_table M) 0 none 0 none).2
      curproc call argl args).2 1 = NOPROC := by
  obtain ⟨h0, h1⟩ := initialize_table_head M hM
  obtain ⟨r0, f0, _⟩ := sys_Exec_some (F := F) 0 none 0 none h0
  have p0 := sys_Exec_parent (F := F) 0 none 0 none h0
  rw [h1] at f0
  obtain ⟨r1, _, _, _, e5, _⟩ := sys_Exec_some (F := F) curproc call argl args f0
  have p1 := sys_Exec_parent (F := F) curproc call argl args f0
  simp only [Nat.cast_zero, Nat.cast_one, zero_le_one, le_refl, if_true] at p0 p1
  have r0z : (sys_Exec F (initialize_table M) 0 none 0 none).1 = 0 := by
    rw [r0]; rfl
  refine ⟨r0z, ?_, p0, ?_, ?_, p1, ?_⟩
  · simp [initialize_processes, r0z]
  · rw [r1]; rfl
  · rw [(e5 0 (by decide)).2.1]
    exact p0
  · simp [sys_GetPPid, p1, get_pid]

/-- C3, on a table of four slots, the second call made by the idle process. -/
theorem C3_first_ids_are_0_and_1_witness :
    (sys_Exec 2 (initialize_table 4) 0 none 0 none).1 = 0 ∧
    initialize_processes 4 2 = some (sys_Exec 2 (initialize_table 4) 0 none 0 none).2 ∧
    ((sys_Exec 2 (initialize_table 4) 0 none 0 none).2.PT 0).parent = none ∧
    (sys_Exec 2 (sys_Exec 2 (initialize_table 4) 0 none 0 none).2
      0 (some 1) 3 (some [10, 20, 30])).1 = 1 ∧
    ((sys_Exec 2 (sys_Exec 2 (initialize_table 4) 0 none 0 none).2
      0 (some 1) 3 (some [10, 20, 30])).2.PT 0).parent = none ∧
    ((sys_Exec 2 (sys_Exec 2 (initialize_table 4) 0 none 0 none).2
      0 (some 1) 3 (some [10, 20, 30])).2.PT 1).parent = none ∧
    sys_GetPPid (sys_Exec 2 (sys_Exec 2 (initialize_table 4) 0 none 0 none).2
      0 (some 1) 3 (some [10, 20, 30])).2 1 = NOPROC :=
  C3_first_ids_are_0_and_1 4 2 (by decide) 0 (some 1) 3 (some [10, 20, 30])

/-! ## Waiting -/

/-- C4: for a `cpid` other than `NOPROC` that is out of range, or denotes a
FREE slot, or denotes a process whose parent is not the caller,
`sys_WaitChild` returns `NOPROC` and does not enter the wait; the state it
leaves is the state it found (table, free list, `process_count`, both child
lists of every PCB) and the status cell is untouched. -/
theorem C4_wait_illegal_child_is_noop (M : Nat) (s : KState) (curproc : Nat) (cpid : Int)
    (status : Option Int) (hne : cpid ≠ NOPROC)
    (h : cpid < 0 ∨ cpid ≥ (M : Int) ∨ (s.PT cpid.toNat).pstate = FREE ∨
      (s.PT cpid.toNat).parent ≠ some curproc) :
    sys_WaitChild M s curproc cpid status = .returned NOPROC status s := by
  unfold sys_WaitChild
  rw [if_pos hne]
  unfold wait_for_specific_child
  split_ifs with hr
  · rfl
  · have h2 : (s.PT cpid.toNat).pstate = FREE ∨ (s.PT cpid.toNat).parent ≠ some curproc := by
      rcases h with h | h | h
      · exact absurd (Or.inl h) hr
      · exact absurd (Or.inr h) hr
      · exact h
    simp only [get_pcb]
    split_ifs with hfree
    · rfl
    · simp only
      split_ifs with hpar
      · rfl
      · rcases h2 with h2 | h2
        · exact absurd h2 hfree
        · exact absurd h2 hpar

/-- C4, in the state where process 2 is a zombie child of process 1: waits by
process 3 for process 2 (not its child), and by process 1 for ids 7 and -5
(out of range), return `NOPROC` and change nothing. -/
theorem C4_wait_illegal_child_is_noop_witness :
    ((ex_zombie.PT 2).pstate = ZOMBIE ∧ (ex_zombie.PT 2).parent = some 1) ∧
    sys_WaitChild 4 ex_zombie 3 2 (some 9) = .returned NOPROC (some 9) ex_zombie ∧
    sys_WaitChild 4 ex_zombie 1 7 (some 9) = .returned NOPROC (some 9) ex_zombie ∧
    sys_WaitChild 4 ex_zombie 1 (-5) none = .returned NOPROC none ex_zombie :=
  ⟨by decide,
    C4_wait_illegal_child_is_noop 4 ex_zombie 3 2 (some 9) (by decide)
      (Or.inr (Or.inr (Or.inr (by decide)))),
    C4_wait_illegal_child_is_noop 4 ex_zombie 1 7 (some 9) (by decide)
      (Or.inr (Or.inl (by decide))),
    C4_wait_illegal_child_is_noop 4 ex_zombie 1 (-5) none (by decide)
      (Or.inl (by decide))⟩

/-- C5: a `sys_WaitChild(NOPROC, status)` by a caller whose children list is
empty returns `NOPROC`, does not enter the wait, and leaves the state and the
status cell as they were; by a caller whose children list is non-empty and
whose zombie-children list is empty it enters the wait without returning. -/
theorem C5_wait_any_no_children_or_blocks (M : Nat) (s : KState) (curproc : Nat)
    (status : Option Int) :
    ((s.PT curproc).children_list = [] →
      sys_WaitChild M s curproc NOPROC status = .returned NOPROC status s) ∧
    ((s.PT curproc).children_list ≠ [] → (s.PT curproc).exited_list = [] →
      sys_WaitChild M s curproc NOPROC status = .blocked) := by
  unfold sys_WaitChild
  rw [if_neg (by simp)]
  unfold wait_for_any_child
  constructor
  · intro h
    rw [h]
  · intro h1 h2
    cases hch : (s.PT curproc).children_list with
    | nil => exact absurd hch h1
    | cons a t =>
      simp only [wait_for_any_child_loop, h2]

/-- C5, on the full table of four slots: process 3 has no children, and
process 1 has the children 3 and 2, neither of which has exited. -/
theorem C5_wait_any_no_children_or_blocks_witness :
    sys_WaitChild 4 ex_full 3 NOPROC (some 9) = .returned NOPROC (some 9) ex_full ∧
    sys_WaitChild 4 ex_full 1 NOPROC (some 9) = .blocked :=
  ⟨(C5_wait_any_no_children_or_blocks 4 ex_full 3 (some 9)).1 (by decide),
    (C5_wait_any_no_children_or_blocks 4 ex_full 1 (some 9)).2 (by decide) (by decide)⟩

/-! ## Reaping -/

/-- What a reap leaves, in a state that satisfies the invariant: the exit code
in the status cell if there is one, the slot FREE at the head of the free
list, one process less, the child on no list, and every other PCB as it was but
for the two lists. -/
theorem cleanup_zombie_effect {M : Nat} (hM : M < 2 ^ 32) {s : KState} (hI : Inv M s)
    {x : Nat} (hx : x < M) (hz : (s.PT x).pstate = ZOMBIE) (status : Option Int) :
    (∀ v, status = some v → (cleanup_zombie s x status).1 = some (s.PT x).exitval) ∧
    (status = none → (cleanup_zombie s x status).1 = none) ∧
    (∀ q, x ∉ ((cleanup_zombie s x status).2.PT q).children_list ∧
      x ∉ ((cleanup_zombie s x status).2.PT q).exited_list) ∧
    ((cleanup_zombie s x status).2.PT x).pstate = FREE ∧
    (cleanup_zombie s x status).2.pcb_freelist = some x ∧
    (cleanup_zombie s x status).2.process_count + 1 = s.process_count ∧
    (∀ q, q ≠ x → ((cleanup_zombie s x status).2.PT q).pstate = (s.PT q).pstate) ∧
    (∀ q, q ≠ x → (cleanup_zombie s x status).2.PT q =
      { s.PT q with
        children_list := (s.PT q).children_list.filter (fun y => y ≠ x)
        exited_list := (s.PT q).exited_list.filter (fun y => y ≠ x) }) ∧
    (cleanup_zombie s x status).2.refcount = s.refcount := by
  obtain ⟨e1, e2, e3, _, e5, e6, e7, _⟩ := cleanup_zombie_spec s x status
  obtain ⟨l, _, hnd, hmem, hcnt⟩ := hI.chain
  have hxl : x ∉ l := by
    intro hm
    have := ((hmem x).1 hm).2
    rw [hz] at this
    exact absurd this (by decide)
  have hlen : l.length < M := nodup_length_lt hnd (fun i hi => ((hmem i).1 hi).1) hx hxl
  refine ⟨?_, ?_, ?_, e3, e1, ?_, fun q hq => (e5 q hq).1, ?_, rfl⟩
  · rintro v rfl
    rfl
  · rintro rfl
    rfl
  · intro q
    rw [e6 q, e7 q]
    simp [List.mem_filter]
  · rw [e2]
    have h1 : s.process_count + 2 ^ 32 - 1 = (s.process_count - 1) + 2 ^ 32 := by omega
    rw [h1, Nat.add_mod_right, Nat.mod_eq_of_lt (by omega)]
    omega
  · intro q hq
    simp [cleanup_zombie, release_PCB, rlist_remove_children_node, rlist_remove_exited_node,
      Function.update_noteq hq]

/-- A wait for an id that is out of range or denotes a FREE slot returns
`NOPROC` and changes nothing. -/
theorem sys_WaitChild_free (M : Nat) (s : KState) (c x : Nat) (status : Option Int)
    (h : M ≤ x ∨ (s.PT x).pstate = FREE) :
    sys_WaitChild M s c (x : Int) status = .returned NOPROC status s := by
  have hne : (x : Int) ≠ NOPROC := by
    unfold NOPROC
    omega
  unfold sys_WaitChild
  rw [if_pos hne]
  unfold wait_for_specific_child
  split_ifs with hr
  · rfl
  · have hfree : (s.PT x).pstate = FREE := by
      rcases h with h | h
      · exact absurd (Or.inr (by exact_mod_cast h)) hr
      · exact h
    simp [get_pcb, hfree]

/-- The drain loop of `sys_Exit` ends within the fuel `sys_Exit` gives it:
each reap takes the head off the caller's zombie-children list. -/
theorem sys_Exit_drain_terminates (M c : Nat) :
    ∀ (fuel : Nat) (s : KState), (s.PT c).exited_list.length < fuel →
      ∃ r, sys_Exit_drain M c fuel s = some r := by
  intro fuel
  induction fuel with
  | zero =>
    intro s h
    exact absurd h (Nat.not_lt_zero _)
  | succ n ih =>
    intro s h
    simp only [sys_Exit_drain]
    split
    · rename_i cpid st1 s1 hw
      split_ifs with hc
      · rcases sys_WaitChild_cases hw with ⟨h0, _, _⟩ | ⟨x, _, _, _, rfl, _, h4⟩
        · exact absurd h0 hc
        · apply ih
          obtain ⟨hhead, _⟩ := h4 rfl
          rw [(cleanup_zombie_spec s x none).2.2.2.2.2.1 c]
          cases hl : (s.PT c).exited_list with
          | nil => rw [hl] at hhead; simp at hhead
          | cons y rest =>
            rw [hl] at hhead h
            have hyx : y = x := by simpa using hhead
            subst hyx
            have hle := List.length_filter_le (fun z => decide (z ≠ y)) rest
            simp only [List.length_cons] at h
            simp only [ne_eq, decide_not, List.filter_cons, decide_True, Bool.not_true,
              Bool.false_eq_true, if_false]
            simp only [ne_eq, decide_not] at hle
            omega
      · exact ⟨_, rfl⟩
    · exact ⟨_, rfl⟩
    · exact ⟨_, rfl⟩

/-- `sys_Exit` always has a result: the drain loop does not run out of fuel. -/
theorem sys_Exit_total (M : Nat) (s : KState) (c : Nat) (v : Int) :
    ∃ r, sys_Exit M s c v = some r := by
  unfold sys_Exit
  simp only
  split_ifs
  · obtain ⟨r, hr⟩ := sys_Exit_drain_terminates M c ((s.PT c).exited_list.length + 1) s
      (Nat.lt_succ_self _)
    rw [hr]
    cases r <;> exact ⟨_, rfl⟩
  · exact ⟨_, rfl⟩

/-- A FREE slot stays FREE across `sys_Exit`. -/
theorem sys_Exit_keeps_free {M : Nat} {s : KState} {c : Nat} (v : Int) {r : DrainResult}
    (h : sys_Exit M s c v = some r) {x : Nat} (hc : (s.PT c).pstate = ALIVE)
    (hx : (s.PT x).pstate = FREE) : (r.state.PT x).pstate = FREE := by
  have hxc : x ≠ c := by
    rintro rfl
    rw [hx] at hc
    exact absurd hc (by decide)
  unfold sys_Exit at h
  simp only at h
  have key : ∀ d : Option DrainResult, (∀ r1, d = some r1 → OnlyReaped s r1.state) →
      (match d with
        | some (.done s1) =>
          some (.done (sys_ThreadExit (setPCB s1 c { s1.PT c with exitval := v }) c v))
        | r => r) = some r → (r.state.PT x).pstate = FREE := by
    intro d hd hr
    have fin : ∀ s1, OnlyReaped s s1 → (s1.PT x).pstate = FREE := by
      intro s1 h1
      rcases h1 x with e | ⟨_, b⟩
      · exact e.trans hx
      · exact b
    cases d with
    | none => simp at hr
    | some r1 =>
      cases r1 with
      | done s1 =>
        simp only [Option.some.injEq] at hr
        subst hr
        obtain ⟨_, _, _, _, _, _, e7, _⟩ :=
          sys_ThreadExit_spec (setPCB s1 c { s1.PT c with exitval := v }) c v
        simp only [DrainResult.state]
        rw [(e7 x hxc).1]
        simpa [setPCB, Function.update_noteq hxc] using fin s1 (hd _ rfl)
      | blocked s1 =>
        simp only [Option.some.injEq] at hr
        subst hr
        exact fin s1 (hd _ rfl)
      | assert_failed s1 =>
        simp only [Option.some.injEq] at hr
        subst hr
        exact fin s1 (hd _ rfl)
  refine key _ ?_ h
  intro r1 hr1
  split_ifs at hr1
  · exact sys_Exit_drain_onlyReaped c _ s r1 hr1
  · simp only [Option.some.injEq] at hr1
    subst hr1
    exact OnlyReaped.refl s

/-- A FREE slot stays FREE across every step that is not a creation. -/
theorem step_keeps_free {M F : Nat} {s : KState} (op : Op) (hop : op.reaps = true) {x : Nat}
    (hx : (s.PT x).pstate = FREE) : ((step M F s op).PT x).pstate = FREE := by
  unfold step
  split_ifs with hc
  · cases op with
    | Exec c call argl args => simp [Op.reaps] at hop
    | WaitChild c cpid status =>
      simp only
      split
      · rename_i r st1 s1 hw
        rcases sys_WaitChild_onlyReaped hw x with e | ⟨_, b⟩
        · exact e.trans hx
        · exact b
      · exact hx
    | Exit c v =>
      simp only
      split
      · rename_i s1 he
        exact sys_Exit_keeps_free v he hc.2 hx
      · rename_i s1 he
        exact sys_Exit_keeps_free v he hc.2 hx
      · exact hx
  · exact hx

theorem run_keeps_free {M F : Nat} {x : Nat} :
    ∀ (ops : List Op) (s : KState), (∀ op ∈ ops, op.reaps = true) →
      (s.PT x).pstate = FREE → ((run M F s ops).PT x).pstate = FREE := by
  intro ops
  induction ops with
  | nil =>
    intro s _ hx
    exact hx
  | cons op rest ih =>
    intro s hops hx
    exact ih (step M F s op) (fun o ho => hops o (List.mem_cons_of_mem op ho))
      (step_keeps_free op (hops op (List.mem_cons_self op rest)) hx)

/-- C8: once a `sys_WaitChild` of process `P`, in either mode, has returned the
id `X` of a child it reaped, a `sys_WaitChild(X, status)` by `P` in the state
that the reap left returns `NOPROC`, does not enter the wait, and changes
neither the state nor the status cell; and so does every later one, after any
run of waits and exits, as long as no creation has taken place. -/
theorem C8_wait_again_after_reap_is_noproc (M F : Nat) (s : KState) (curproc : Nat)
    (cpid : Int) (status : Option Int) (X : Int) (st1 : Option Int) (s1 : KState)
    (h : sys_WaitChild M s curproc cpid status = .returned X st1 s1) (hX : X ≠ NOPROC)
    (status2 : Option Int) :
    sys_WaitChild M s1 curproc X status2 = .returned NOPROC status2 s1 ∧
    ∀ ops : List Op, (∀ op ∈ ops, op.reaps = true) →
      sys_WaitChild M (run M F s1 ops) curproc X status2 =
        .returned NOPROC status2 (run M F s1 ops) := by
  rcases sys_WaitChild_cases h with ⟨h0, _, _⟩ | ⟨x, _, rfl, _, rfl, _, _⟩
  · exact absurd h0 hX
  · have hfree := (cleanup_zombie_spec s x status).2.2.1
    exact ⟨sys_WaitChild_free M _ curproc x status2 (Or.inr hfree),
      fun ops hops => sys_WaitChild_free M _ curproc x status2
        (Or.inr (run_keeps_free ops _ hops hfree))⟩

/-- C8, in the state where process 2 is a zombie child of process 1: process 1
reaps it by a wait for any child, and then waits for id 2, at once and again
after process 3 has exited. -/
theorem C8_wait_again_after_reap_is_noproc_witness :
    sys_WaitChild 4 (cleanup_zombie ex_zombie 2 (some 0)).2 1 2 (some 9) =
      .returned NOPROC (some 9) (cleanup_zombie ex_zombie 2 (some 0)).2 ∧
    sys_WaitChild 4 (run 4 2 (cleanup_zombie ex_zombie 2 (some 0)).2 [.Exit 3 0]) 1 2 (some 9) =
      .returned NOPROC (some 9) (run 4 2 (cleanup_zombie ex_zombie 2 (some 0)).2 [.Exit 3 0]) :=
  ⟨(C8_wait_again_after_reap_is_noproc 4 2 ex_zombie 1 NOPROC (some 0) 2
      (cleanup_zombie ex_zombie 2 (some 0)).1 (cleanup_zombie ex_zombie 2 (some 0)).2
      rfl (by decide) (some 9)).1,
    (C8_wait_again_after_reap_is_noproc 4 2 ex_zombie 1 NOPROC (some 0) 2
      (cleanup_zombie ex_zombie 2 (some 0)).1 (cleanup_zombie ex_zombie 2 (some 0)).2
      rfl (by decide) (some 9)).2 [.Exit 3 0] (by decide)⟩

/-! ## File-handle inheritance -/

/-- The slots the inheritance loop has copied hold the handles of the parent;
every other slot of every table is as before. -/
theorem inherit_files_FIDT (c new : Nat) :
    ∀ (n i : Nat) (s : KState) (q j : Nat),
      ((inherit_files c new i n s).PT q).FIDT j =
        if q = new ∧ i ≤ j ∧ j < i + n then (s.PT c).FIDT j else (s.PT q).FIDT j := by
  intro n
  induction n with
  | zero =>
    intro i s q j
    have : ¬(q = new ∧ i ≤ j ∧ j < i) := by omega
    simp [inherit_files, this]
  | succ n ih =>
    intro i s q j
    simp only [inherit_files]
    rw [ih]
    have h3 := (inherit_step_spec c new i s).2.2.1
    rw [h3 c, h3 q]
    by_cases hq : q = new
    · subst hq
      by_cases hj : j = i
      · subst hj
        have h1 : ¬(j + 1 ≤ j ∧ j < j + 1 + n) := by omega
        have h2 : j ≤ j ∧ j < j + (n + 1) := by omega
        simp [h1, h2]
      · by_cases h1 : i + 1 ≤ j ∧ j < i + 1 + n
        · have h2 : i ≤ j ∧ j < i + (n + 1) := by omega
          by_cases hcq : c = q
          · subst hcq
            simp [h1, h2, Function.update_noteq hj]
          · simp [h1, h2, hcq]
        · have h2 : ¬(i ≤ j ∧ j < i + (n + 1)) := by omega
          simp [h1, h2, Function.update_noteq hj]
    · simp [hq]

/-- The inheritance loop leaves the handle table of the parent as it was. -/
theorem inherit_files_FIDT_parent (c new n i : Nat) (s : KState) (j : Nat) :
    ((inherit_files c new i n s).PT c).FIDT j = (s.PT c).FIDT j := by
  rw [inherit_files_FIDT]
  split_ifs <;> rfl

/-- The inheritance loop increments a handle once for each copied slot that
holds it. -/
theorem inherit_files_refcount (c new : Nat) (f : Nat) :
    ∀ (n i : Nat) (s : KState),
      (inherit_files c new i n s).refcount f =
        s.refcount f +
          (List.range' i n).countP (fun j => decide ((s.PT c).FIDT j = some f)) := by
  intro n
  induction n with
  | zero =>
    intro i s
    simp [inherit_files]
  | succ n ih =>
    intro i s
    simp only [inherit_files]
    rw [ih, (inherit_step_spec c new i s).2.2.2 f]
    have hc : ∀ j, ((inherit_step c new i s).PT c).FIDT j = (s.PT c).FIDT j := by
      intro j
      have := inherit_files_FIDT_parent c new 1 i s j
      simpa [inherit_files] using this
    simp only [hc]
    rw [List.range'_succ, List.countP_cons]
    by_cases hfi : (s.PT c).FIDT i = some f
    · simp [hfi]
      omega
    · simp [hfi]

theorem setPCB_FIDT (s : KState) (p : Nat) (pcb : PCB) (q : Nat)
    (h : pcb.FIDT = (s.PT p).FIDT) : ((setPCB s p pcb).PT q).FIDT = (s.PT q).FIDT := by
  rcases eq_or_ne q p with rfl | hq
  · simp [setPCB, h]
  · simp [setPCB, Function.update_noteq hq]

/-- The inheritance loop over all `F` slots, started in a state `b` whose
handle tables and reference counts are those of `s`. -/
theorem inherit_files_all (F : Nat) (b s : KState) (c new : Nat)
    (hb : ∀ q, (b.PT q).FIDT = (s.PT q).FIDT) (hr : b.refcount = s.refcount) :
    (∀ q j, ((inherit_files c new 0 F b).PT q).FIDT j =
      if q = new ∧ j < F then (s.PT c).FIDT j else (s.PT q).FIDT j) ∧
    (∀ f, (inherit_files c new 0 F b).refcount f =
      s.refcount f + (List.range F).countP (fun j => decide ((s.PT c).FIDT j = some f))) := by
  constructor
  · intro q j
    rw [inherit_files_FIDT, hb c, hb q]
    simp
  · intro f
    rw [inherit_files_refcount, List.range_eq_range', hr]
    simp only [hb c]

/-- The handle tables and reference counts after the inheritance branch of
`sys_Exec` for a process with id above 1. -/
theorem sys_Exec_inherit_files (F : Nat) (s : KState) (c new : Nat)
    (hgp : ¬ get_pid (some new) ≤ 1) :
    (∀ q j, ((sys_Exec_inherit F s c new).PT q).FIDT j =
      if q = new ∧ j < F then (s.PT c).FIDT j else (s.PT q).FIDT j) ∧
    (∀ f, (sys_Exec_inherit F s c new).refcount f =
      s.refcount f + (List.range F).countP (fun j => decide ((s.PT c).FIDT j = some f))) := by
  unfold sys_Exec_inherit
  rw [if_neg hgp]
  exact inherit_files_all F _ s c new
    (fun q => (setPCB_FIDT _ _ _ q (by rfl)).trans (setPCB_FIDT _ _ _ q (by rfl))) rfl

/-- The handle tables and reference counts after a successful `sys_Exec` that
creates a process with id above 1. -/
theorem sys_Exec_files {F : Nat} {s : KState} {p : Nat} (c : Nat) (call : Option Nat)
    (argl : Int) (args : Option (List Nat)) (h : s.pcb_freelist = some p) (hp : 1 < p) :
    (∀ q j, ((sys_Exec F s c call argl args).2.PT q).FIDT j =
      if q = p ∧ j < F then (s.PT c).FIDT j else (s.PT q).FIDT j) ∧
    (∀ f, (sys_Exec F s c call argl args).2.refcount f =
      s.refcount f + (List.range F).countP (fun j => decide ((s.PT c).FIDT j = some f))) := by
  have hgp : ¬ get_pid (some p) ≤ 1 := by
    simp only [get_pid]
    omega
  have hs0 : ∀ q, ((({ s with
      PT := Function.update s.PT p { s.PT p with pstate := ALIVE }
      pcb_freelist := (s.PT p).parent
      process_count := (s.process_count + 1) % 2 ^ 32 } : KState)).PT q).FIDT =
      (s.PT q).FIDT := by
    intro q
    rcases eq_or_ne q p with rfl | hq
    · simp
    · simp [Function.update_noteq hq]
  obtain ⟨k1, k2⟩ := sys_Exec_inherit_files F
    { s with
      PT := Function.update s.PT p { s.PT p with pstate := ALIVE }
      pcb_freelist := (s.PT p).parent
      process_count := (s.process_count + 1) % 2 ^ 32 } c p hgp
  simp only [sys_Exec, acquire_PCB, h]
  constructor
  · intro q j
    rw [setPCB_FIDT _ _ _ _ (by rfl), k1 q j, hs0 c, hs0 q]
  · intro f
    refine (k2 f).trans ?_
    have hc := hs0 c
    simp only [] at hc
    simp [hc]

/-- A successful `sys_Exec` took the head of the free list. -/
theorem sys_Exec_ret {F : Nat} {s : KState} {c : Nat} {call : Option Nat} {argl : Int}
    {args : Option (List Nat)} {x : Nat}
    (hx : (sys_Exec F s c call argl args).1 = (x : Int)) : s.pcb_freelist = some x := by
  cases hfl : s.pcb_freelist with
  | none =>
    rw [sys_Exec_none c call argl args hfl] at hx
    simp only [NOPROC] at hx
    omega
  | some p =>
    rw [(sys_Exec_some (F := F) c call argl args hfl).1] at hx
    have hpx : p = x := by exact_mod_cast hx
    rw [hpx]

theorem countP_eq_one_of_unique {F i : Nat} {p : Nat → Bool} (hi : i < F) (hp : p i = true)
    (huniq : ∀ j, j < F → p j = true → j = i) : (List.range F).countP p = 1 := by
  have h1 : (List.range F).countP p = (List.range F).countP (fun j => j == i) := by
    apply List.countP_congr
    intro j hj
    rw [List.mem_range] at hj
    constructor
    · intro h
      simpa using huniq j hj h
    · intro h
      have hji : j = i := by simpa using h
      rw [hji]
      exact hp
  rw [h1, ← List.count_eq_countP]
  exact List.count_eq_one_of_mem (List.nodup_range F) (List.mem_range.2 hi)

/-- C9: after a successful `sys_Exec` that creates a process `x` with id above
1 from the caller `curproc`, the first `MAX_FILEID` slots of the handle table
of `x` equal those of the caller before the call; the caller's table is
unchanged; every handle has gained one reference for each of these slots of
the caller that holds it, so a handle held in exactly one slot has gained
exactly one. -/
theorem C9_exec_inherits_file_handles (F : Nat) (s : KState) (curproc : Nat)
    (call : Option Nat) (argl : Int) (args : Option (List Nat)) (x : Nat)
    (hx : (sys_Exec F s curproc call argl args).1 = (x : Int)) (h1 : 1 < x) :
    (∀ i, i < F →
      ((sys_Exec F s curproc call argl args).2.PT x).FIDT i = (s.PT curproc).FIDT i) ∧
    (∀ i, ((sys_Exec F s curproc call argl args).2.PT curproc).FIDT i =
      (s.PT curproc).FIDT i) ∧
    (∀ f, (sys_Exec F s curproc call argl args).2.refcount f =
      s.refcount f +
        (List.range F).countP (fun j => decide ((s.PT curproc).FIDT j = some f))) ∧
    (∀ f i, i < F → (s.PT curproc).FIDT i = some f →
      (∀ j, j < F → (s.PT curproc).FIDT j = some f → j = i) →
      (sys_Exec F s curproc call argl args).2.refcount f = s.refcount f + 1) := by
  obtain ⟨k1, k2⟩ := sys_Exec_files (F := F) curproc call argl args (sys_Exec_ret hx) h1
  refine ⟨?_, ?_, k2, ?_⟩
  · intro i hi
    rw [k1 x i, if_pos ⟨rfl, hi⟩]
  · intro i
    rw [k1 curproc i]
    split_ifs <;> rfl
  · intro f i hi hf huniq
    rw [k2 f, countP_eq_one_of_unique hi (by simpa using hf)
      (fun j hj h => huniq j hj (by simpa using h))]

/-- C9, for process 1 holding the handles 7 and 8 and creating process 2. -/
theorem C9_exec_inherits_file_handles_witness :
    ((sys_Exec 2 ex_files 1 (some 1) 0 none).2.PT 2).FIDT 0 = some 7 ∧
    ((sys_Exec 2 ex_files 1 (some 1) 0 none).2.PT 2).FIDT 1 = some 8 ∧
    (sys_Exec 2 ex_files 1 (some 1) 0 none).2.refcount 7 = 2 ∧
    (sys_Exec 2 ex_files 1 (some 1) 0 none).2.refcount 8 = 2 ∧
    ((∀ i, i < 2 →
      ((sys_Exec 2 ex_files 1 (some 1) 0 none).2.PT 2).FIDT i = (ex_files.PT 1).FIDT i) ∧
    (∀ i, ((sys_Exec 2 ex_files 1 (some 1) 0 none).2.PT 1).FIDT i = (ex_files.PT 1).FIDT i) ∧
    (∀ f, (sys_Exec 2 ex_files 1 (some 1) 0 none).2.refcount f =
      ex_files.refcount f +
        (List.range 2).countP (fun j => decide ((ex_files.PT 1).FIDT j = some f))) ∧
    (∀ f i, i < 2 → (ex_files.PT 1).FIDT i = some f →
      (∀ j, j < 2 → (ex_files.PT 1).FIDT j = some f → j = i) →
      (sys_Exec 2 ex_files 1 (some 1) 0 none).2.refcount f = ex_files.refcount f + 1)) :=
  ⟨by decide, by decide, by decide, by decide,
    C9_exec_inherits_file_handles 2 ex_files 1 (some 1) 0 none 2 (by decide) (by decide)⟩

/-! ## The main thread -/

/-- A successful `sys_Exec` with an entry task increments `threadCount` of the
new process once and appends one PTCB to its thread list; where no call goes on
after a wait, that is in every state of `Reachable`, the slot it takes has no thread, so the new process has
`threadCount` 1 and a thread list of that one PTCB, which stores the task and
`argl` given, and, where the copy is defined, a copy of the first `argl` bytes
of `args`: all of them when the buffer has `argl` bytes, and no buffer when
`args` is absent. This covers
a slot that has been used before, since the thread-exit handoff left it
without threads. -/
theorem exec_main_thread_of_reachable (M F : Nat) (hM : M < 2 ^ 32) (s : KState)
    (hR : Reachable M F s) (curproc : Nat) (task : Nat) (argl : Int)
    (args : Option (List Nat)) (x : Nat)
    (hx : (sys_Exec F s curproc (some task) argl args).1 = (x : Int)) :
    ((sys_Exec F s curproc (some task) argl args).2.PT x).threadCount =
      (s.PT x).threadCount + 1 ∧
    ((sys_Exec F s curproc (some task) argl args).2.PT x).threadCount = 1 ∧
    ∃ ptcb, ((sys_Exec F s curproc (some task) argl args).2.PT x).thread_list =
        (s.PT x).thread_list ++ [ptcb] ∧
      ((sys_Exec F s curproc (some task) argl args).2.PT x).thread_list = [ptcb] ∧
      ptcb.main_task = some task ∧ ptcb.argl = argl ∧
      (∀ bytes, args = some bytes → copy_args_defined argl args →
        ptcb.args = some (bytes.take argl.toNat)) ∧
      (∀ bytes, args = some bytes → (bytes.length : Int) = argl → ptcb.args = some bytes) ∧
      (args = none → ptcb.args = none) := by
  have hI := hR.inv hM
  have hfl := sys_Exec_ret hx
  obtain ⟨_, _, _, _, _, _, e7, e8⟩ := sys_Exec_some (F := F) curproc (some task) argl args hfl
  have hfree := (freelist_head_free hI hfl).2
  obtain ⟨t1, t2⟩ := hI.threads x (by rw [hfree]; decide)
  refine ⟨e7, by rw [e7, t1], sys_Exec_ptcb x (some task) argl args, e8,
    by rw [e8, t2]; rfl, rfl, rfl, ?_, ?_, ?_⟩
  · rintro bytes rfl _
    rfl
  · rintro bytes rfl hlen
    have : argl.toNat = bytes.length := by omega
    simp [sys_Exec_ptcb, copy_args, this]
  · rintro rfl
    rfl

/-- On the table of four slots: process 1 starts process 2, process 2
exits and is reaped, and process 1 creates a process in the recycled slot 2
with three argument bytes. -/
theorem exec_main_thread_of_reachable_example :
    (sys_Exec 2 (run 4 2 ex_boot [.Exec 0 (some 1) 0 none, .Exec 1 (some 1) 0 none,
      .Exit 2 5, .WaitChild 1 2 none]) 1 (some 6) 3 (some [10, 20, 30])).1 = (2 : Nat) ∧
    ((sys_Exec 2 (run 4 2 ex_boot [.Exec 0 (some 1) 0 none, .Exec 1 (some 1) 0 none,
      .Exit 2 5, .WaitChild 1 2 none]) 1 (some 6) 3 (some [10, 20, 30])).2.PT 2).threadCount
      = 1 ∧
    ∃ ptcb, ((sys_Exec 2 (run 4 2 ex_boot [.Exec 0 (some 1) 0 none, .Exec 1 (some 1) 0 none,
        .Exit 2 5, .WaitChild 1 2 none]) 1 (some 6) 3 (some [10, 20, 30])).2.PT 2).thread_list
        = ((run 4 2 ex_boot [.Exec 0 (some 1) 0 none, .Exec 1 (some 1) 0 none,
          .Exit 2 5, .WaitChild 1 2 none]).PT 2).thread_list ++ [ptcb] ∧
      ((sys_Exec 2 (run 4 2 ex_boot [.Exec 0 (some 1) 0 none, .Exec 1 (some 1) 0 none,
        .Exit 2 5, .WaitChild 1 2 none]) 1 (some 6) 3 (some [10, 20, 30])).2.PT 2).thread_list
        = [ptcb] ∧
      ptcb.main_task = some 6 ∧ ptcb.argl = 3 ∧
      (∀ bytes, some [10, 20, 30] = some bytes → copy_args_defined 3 (some [10, 20, 30]) →
        ptcb.args = some (bytes.take (3 : Int).toNat)) ∧
      (∀ bytes, some [10, 20, 30] = some bytes → (bytes.length : Int) = 3 →
        ptcb.args = some bytes) ∧
      ((some [10, 20, 30] : Option (List Nat)) = none → ptcb.args = none) :=
  ⟨by decide,
    (exec_main_thread_of_reachable 4 2 (by norm_num)
      (run 4 2 ex_boot [.Exec 0 (some 1) 0 none, .Exec 1 (some 1) 0 none,
        .Exit 2 5, .WaitChild 1 2 none])
      (Reachable.run _ ex_boot_reachable) 1 6 3 (some [10, 20, 30]) 2 (by decide)).2⟩

/-! ## Induction over the reachable states -/

/-- A property of states that holds of the initial table and is kept by
`sys_Exec`, by a reap of a ZOMBIE, and by the recording of the exit code
followed by the thread-exit handoff of an ALIVE process, is kept by every
step. -/
theorem step_preserves_core {M F : Nat} (P : KState → Prop) (s : KState) (op : Op)
    (hExec : ∀ c call argl args, op = Op.Exec c call argl args →
      P (sys_Exec F s c call argl args).2)
    (hReap : ∀ s x st, P s → (s.PT x).pstate = ZOMBIE → P (cleanup_zombie s x st).2)
    (hExit : ∀ s c v, P s → (s.PT c).pstate = ALIVE →
      P (sys_ThreadExit (setPCB s c { s.PT c with exitval := v }) c v))
    (hP : P s) : P (step M F s op) := by
  have hWait : ∀ {s c cpid st r st1 s1}, P s →
      sys_WaitChild M s c cpid st = .returned r st1 s1 → P s1 := by
    intro s c cpid st r st1 s1 hs hw
    rcases sys_WaitChild_cases hw with ⟨_, _, rfl⟩ | ⟨x, hz, _, _, rfl, _⟩
    · exact hs
    · exact hReap s x st hs hz
  have hDrain : ∀ (c fuel : Nat) (s : KState) (r : DrainResult), P s →
      (s.PT c).pstate = ALIVE → sys_Exit_drain M c fuel s = some r →
      P r.state ∧ (r.state.PT c).pstate = ALIVE := by
    intro c fuel
    induction fuel with
    | zero =>
      intro s r _ _ h
      simp [sys_Exit_drain] at h
    | succ n ih =>
      intro s r hs ha h
      simp only [sys_Exit_drain] at h
      split at h
      · rename_i cpid st1 s1 hw
        have ha1 : (s1.PT c).pstate = ALIVE := by
          rcases sys_WaitChild_onlyReaped hw c with e | ⟨a, _⟩
          · exact e.trans ha
          · rw [ha] at a
            exact absurd a (by decide)
        split_ifs at h with hc
        · exact ih s1 r (hWait hs hw) ha1 h
        · simp only [Option.some.injEq] at h
          subst h
          exact ⟨hWait hs hw, ha1⟩
      · simp only [Option.some.injEq] at h
        subst h
        exact ⟨hs, ha⟩
      · simp only [Option.some.injEq] at h
        subst h
        exact ⟨hs, ha⟩
  have hSysExit : ∀ (c : Nat) (v : Int) (r : DrainResult), (s.PT c).pstate = ALIVE →
      sys_Exit M s c v = some r → P r.state := by
    intro c v r ha h
    unfold sys_Exit at h
    simp only at h
    have key : ∀ d : Option DrainResult,
        (∀ r1, d = some r1 → P r1.state ∧ (r1.state.PT c).pstate = ALIVE) →
        (match d with
          | some (.done s1) =>
            some (.done (sys_ThreadExit (setPCB s1 c { s1.PT c with exitval := v }) c v))
          | r => r) = some r → P r.state := by
      intro d hd hr
      cases d with
      | none => simp at hr
      | some r1 =>
        cases r1 with
        | done s1 =>
          simp only [Option.some.injEq] at hr
          subst hr
          obtain ⟨h1, h2⟩ := hd _ rfl
          exact hExit s1 c v h1 h2
        | blocked s1 =>
          simp only [Option.some.injEq] at hr
          subst hr
          exact (hd _ rfl).1
        | assert_failed s1 =>
          simp only [Option.some.injEq] at hr
          subst hr
          exact (hd _ rfl).1
    refine key _ ?_ h
    intro r1 hr1
    split_ifs at hr1
    · exact hDrain c _ s r1 hP ha hr1
    · simp only [Option.some.injEq] at hr1
      subst hr1
      exact ⟨hP, ha⟩
  unfold step
  split_ifs with hc
  · cases op with
    | Exec c call argl args => exact hExec c call argl args rfl
    | WaitChild c cpid status =>
      simp only
      split
      · rename_i r st1 s1 hw
        exact hWait hP hw
      · exact hP
    | Exit c v =>
      simp only
      split
      · rename_i s1 he
        exact hSysExit c v _ hc.2 he
      · rename_i s1 he
        exact hSysExit c v _ hc.2 he
      · exact hP
  · exact hP

theorem step_preserves {M F : Nat} (P : KState → Prop)
    (hExec : ∀ s c call argl args, P s → P (sys_Exec F s c call argl args).2)
    (hReap : ∀ s x st, P s → (s.PT x).pstate = ZOMBIE → P (cleanup_zombie s x st).2)
    (hExit : ∀ s c v, P s → (s.PT c).pstate = ALIVE →
      P (sys_ThreadExit (setPCB s c { s.PT c with exitval := v }) c v))
    (s : KState) (op : Op) (hP : P s) : P (step M F s op) :=
  step_preserves_core P s op (fun c call argl args _ => hExec s c call argl args hP)
    hReap hExit hP

/-- A property kept by a reap of a ZOMBIE and by the exit of an ALIVE process
is kept by every run of system calls that creates no process. -/
theorem run_preserves_reaps {M F : Nat} (P : KState → Prop)
    (hReap : ∀ s x st, P s → (s.PT x).pstate = ZOMBIE → P (cleanup_zombie s x st).2)
    (hExit : ∀ s c v, P s → (s.PT c).pstate = ALIVE →
      P (sys_ThreadExit (setPCB s c { s.PT c with exitval := v }) c v)) :
    ∀ (ops : List Op) (s : KState), (∀ op ∈ ops, op.reaps = true) → P s →
      P (run M F s ops) := by
  intro ops
  induction ops with
  | nil =>
    intro s _ hP
    exact hP
  | cons op rest ih =>
    intro s hops hP
    refine ih _ (fun o ho => hops o (List.mem_cons_of_mem op ho)) ?_
    refine step_preserves_core P s op ?_ hReap hExit hP
    intro c call argl args e
    have := hops op (List.mem_cons_self op rest)
    rw [e] at this
    simp [Op.reaps] at this

/-- Induction over the reachable states, by the primitive transitions. -/
theorem Reachable.induct {M F : Nat} (P : KState → Prop)
    (hInit : P (initialize_table M))
    (hExec : ∀ s c call argl args, P s → P (sys_Exec F s c call argl args).2)
    (hReap : ∀ s x st, P s → (s.PT x).pstate = ZOMBIE → P (cleanup_zombie s x st).2)
    (hExit : ∀ s c v, P s → (s.PT c).pstate = ALIVE →
      P (sys_ThreadExit (setPCB s c { s.PT c with exitval := v }) c v))
    {s : KState} (h : Reachable M F s) : P s := by
  induction h with
  | init h0 =>
    unfold initialize_processes at h0
    simp only at h0
    split_ifs at h0
    simp only [Option.some.injEq] at h0
    subst h0
    exact hExec _ 0 none 0 none hInit
  | step op _ ih => exact step_preserves P hExec hReap hExit _ op ih

/-! ## Parent links -/

theorem initialize_table_pstate (M q : Nat) : ((initialize_table M).PT q).pstate = FREE := by
  obtain ⟨p, hp⟩ := initialize_table_PT M q
  rw [hp]
  rfl

/-- C11: in every reachable state an ALIVE or ZOMBIE process with id 0 or 1 has
no parent link, so `sys_GetPPid` called by such a process returns `NOPROC`;
and `sys_GetPid` returns the table index of the caller's PCB. -/
theorem C11_roots_are_parentless (M F : Nat) (s : KState) (hR : Reachable M F s)
    (curproc : Nat) :
    (∀ i, i ≤ 1 → (s.PT i).pstate = ALIVE ∨ (s.PT i).pstate = ZOMBIE →
      (s.PT i).parent = none) ∧
    (curproc ≤ 1 → (s.PT curproc).pstate = ALIVE ∨ (s.PT curproc).pstate = ZOMBIE →
      sys_GetPPid s curproc = NOPROC) ∧
    sys_GetPid curproc = (curproc : Int) := by
  have key : ∀ i, i ≤ 1 → (s.PT i).pstate ≠ FREE → (s.PT i).parent = none := by
    refine Reachable.induct (M := M) (F := F)
      (fun s => ∀ i, i ≤ 1 → (s.PT i).pstate ≠ FREE → (s.PT i).parent = none)
      ?_ ?_ ?_ ?_ hR
    · intro i _ hne
      exact absurd (initialize_table_pstate M i) hne
    · intro s c call argl args hs i hi hne
      cases hfl : s.pcb_freelist with
      | none =>
        rw [sys_Exec_none c call argl args hfl] at hne ⊢
        exact hs i hi hne
      | some p =>
        obtain ⟨_, _, _, _, e5, _⟩ := sys_Exec_some (F := F) c call argl args hfl
        rcases eq_or_ne i p with rfl | hip
        · rw [sys_Exec_parent c call argl args hfl, if_pos (by exact_mod_cast hi)]
        · rw [(e5 i hip).1] at hne
          rw [(e5 i hip).2.1]
          exact hs i hi hne
    · intro s x st hs _ i hi hne
      obtain ⟨_, _, e3, _, e5, _⟩ := cleanup_zombie_spec s x st
      rcases eq_or_ne i x with rfl | hix
      · exact absurd e3 hne
      · rw [(e5 i hix).1] at hne
        rw [(e5 i hix).2]
        exact hs i hi hne
    · intro s c v hs ha i hi hne
      obtain ⟨_, _, _, _, _, e6, e7, _⟩ :=
        sys_ThreadExit_spec (setPCB s c { s.PT c with exitval := v }) c v
      have hpar : ((setPCB s c { s.PT c with exitval := v }).PT i).parent = (s.PT i).parent := by
        rcases eq_or_ne i c with rfl | hic <;> simp [setPCB, Function.update_apply, *]
      rw [e6 i, hpar]
      apply hs i hi
      rcases eq_or_ne i c with rfl | hic
      · rw [ha]
        decide
      · rw [(e7 i hic).1] at hne
        simpa [setPCB, Function.update_noteq hic] using hne
  have key2 : ∀ i, i ≤ 1 → (s.PT i).pstate = ALIVE ∨ (s.PT i).pstate = ZOMBIE →
      (s.PT i).parent = none :=
    fun i hi h => key i hi ((pstate_ne_free_iff _).2 h)
  refine ⟨key2, ?_, rfl⟩
  intro hc h
  simp [sys_GetPPid, key2 curproc hc h, get_pid]

/-- C11, in the state where processes 0 and 1 run and process 1 has
children. -/
theorem C11_roots_are_parentless_witness :
    (ex_full.PT 1).pstate = ALIVE ∧
    ((∀ i, i ≤ 1 → (ex_full.PT i).pstate = ALIVE ∨ (ex_full.PT i).pstate = ZOMBIE →
      (ex_full.PT i).parent = none) ∧
    (1 ≤ 1 → (ex_full.PT 1).pstate = ALIVE ∨ (ex_full.PT 1).pstate = ZOMBIE →
      sys_GetPPid ex_full 1 = NOPROC) ∧
    sys_GetPid 1 = ((1 : Nat) : Int)) :=
  ⟨by decide, C11_roots_are_parentless 4 2 ex_full ex_full_reachable 1⟩

theorem sys_Exec_inherit_children (F : Nat) (s : KState) (c new : Nat)
    (hgp : ¬ get_pid (some new) ≤ 1) :
    ((sys_Exec_inherit F s c new).PT c).children_list = new :: (s.PT c).children_list := by
  unfold sys_Exec_inherit
  rw [if_neg hgp]
  simp only [inherit_files_children]
  rcases eq_or_ne c new with rfl | hcn <;>
    simp [setPCB, rlist_push_front, Function.update_apply, *]

/-- C12: after a successful `sys_Exec` that returns an id `x` above 1, the
parent link of the new PCB is the calling process, `x` is the first element of
the caller's children list with the previous children behind it in their
order, and `sys_GetPPid` called by the new process returns the caller's id. -/
theorem C12_exec_links_child_to_caller (F : Nat) (s : KState) (curproc : Nat)
    (call : Option Nat) (argl : Int) (args : Option (List Nat)) (x : Nat)
    (hx : (sys_Exec F s curproc call argl args).1 = (x : Int)) (h1 : 1 < x) :
    ((sys_Exec F s curproc call argl args).2.PT x).parent = some curproc ∧
    ((sys_Exec F s curproc call argl args).2.PT curproc).children_list =
      x :: (s.PT curproc).children_list ∧
    sys_GetPPid (sys_Exec F s curproc call argl args).2 x = (curproc : Int) := by
  have hfl := sys_Exec_ret hx
  have hgp : ¬ get_pid (some x) ≤ 1 := by
    simp only [get_pid]
    omega
  have hpar := sys_Exec_parent (F := F) curproc call argl args hfl
  rw [if_neg (by omega)] at hpar
  refine ⟨hpar, ?_, by simp [sys_GetPPid, hpar, get_pid]⟩
  have hch := sys_Exec_inherit_children F
    { s with
      PT := Function.update s.PT x { s.PT x with pstate := ALIVE }
      pcb_freelist := (s.PT x).parent
      process_count := (s.process_count + 1) % 2 ^ 32 } curproc x hgp
  have hs0 : ((Function.update s.PT x { s.PT x with pstate := ALIVE }) curproc).children_list
      = (s.PT curproc).children_list := by
    rcases eq_or_ne curproc x with rfl | hcx <;> simp [Function.update_apply, *]
  simp only [hs0] at hch
  simp only [sys_Exec, acquire_PCB, hfl]
  rcases eq_or_ne curproc x with rfl | hcx
  · simpa [setPCB] using hch
  · simpa [setPCB, Function.update_noteq hcx] using hch

/-- C12, on the table of four slots: process 1, which has the child 2, creates
process 3. -/
theorem C12_exec_links_child_to_caller_witness :
    ((run 4 2 ex_boot [.Exec 0 (some 1) 0 none, .Exec 1 (some 1) 0 none]).PT 1).children_list
      = [2] ∧
    ((sys_Exec 2 (run 4 2 ex_boot [.Exec 0 (some 1) 0 none, .Exec 1 (some 1) 0 none])
      1 (some 1) 0 none).2.PT 3).parent = some 1 ∧
    ((sys_Exec 2 (run 4 2 ex_boot [.Exec 0 (some 1) 0 none, .Exec 1 (some 1) 0 none])
      1 (some 1) 0 none).2.PT 1).children_list =
      3 :: ((run 4 2 ex_boot [.Exec 0 (some 1) 0 none, .Exec 1 (some 1) 0 none]).PT 1).children_list ∧
    sys_GetPPid (sys_Exec 2 (run 4 2 ex_boot [.Exec 0 (some 1) 0 none, .Exec 1 (some 1) 0 none])
      1 (some 1) 0 none).2 3 = ((1 : Nat) : Int) :=
  ⟨by decide,
    C12_exec_links_child_to_caller 2
      (run 4 2 ex_boot [.Exec 0 (some 1) 0 none, .Exec 1 (some 1) 0 none])
      1 (some 1) 0 none 3 (by decide) (by decide)⟩

/-! ## The drain loop of `sys_Exit` -/

/-- A wait for any child returns `NOPROC` only to a caller whose children list
is empty, and then changes nothing. -/
theorem wait_any_noproc {M : Nat} {s : KState} {c : Nat} {st st1 : Option Int}
    {s1 : KState} (h : sys_WaitChild M s c NOPROC st = .returned NOPROC st1 s1) :
    (s.PT c).children_list = [] ∧ s1 = s := by
  unfold sys_WaitChild at h
  rw [if_neg (by simp)] at h
  unfold wait_for_any_child at h
  split at h
  · rename_i hch
    simp only [WaitResult.returned.injEq, true_and] at h
    exact ⟨hch, h.2.symm⟩
  · unfold wait_for_any_child_loop at h
    split at h
    · exact absurd h (by simp)
    · rename_i child rest hex
      split_ifs at h with hz
      simp only [WaitResult.returned.injEq] at h
      have : get_pid (some child) ≠ NOPROC := by
        simp only [get_pid, NOPROC]
        omega
      exact absurd h.1 this

/-- The drain loop is left only with an empty children list of the caller. -/
theorem sys_Exit_drain_done {M : Nat} (c : Nat) :
    ∀ (fuel : Nat) (s s1 : KState), sys_Exit_drain M c fuel s = some (.done s1) →
      (s1.PT c).children_list = [] := by
  intro fuel
  induction fuel with
  | zero =>
    intro s s1 h
    simp [sys_Exit_drain] at h
  | succ n ih =>
    intro s s1 h
    simp only [sys_Exit_drain] at h
    split at h
    · rename_i cpid st1 s2 hw
      split_ifs at h with hc
      · exact ih s2 s1 h
      · simp only [Option.some.injEq, DrainResult.done.injEq] at h
        subst h
        have hc2 : cpid = NOPROC := by
          by_contra hne
          exact hc hne
        subst hc2
        obtain ⟨h1, h2⟩ := wait_any_noproc hw
        rw [h2]
        exact h1
    · simp at h
    · simp at h

/-- `sys_Exit` is `sys_Exit_call` followed by the handoff it writes down. -/
theorem sys_Exit_eq_call (M : Nat) (s : KState) (c : Nat) (v : Int) :
    sys_Exit M s c v = (sys_Exit_call M s c v).map ExitCall.result := by
  unfold sys_Exit sys_Exit_call
  simp only
  split_ifs with h
  · rcases sys_Exit_drain M c ((s.PT c).exited_list.length + 1) s with _ | (s1 | s1 | s1) <;> rfl
  · rfl

/-- What the drain loop computes is a run of `sys_WaitChild` calls, one for
each unit of fuel it uses. -/
theorem sys_Exit_drain_run {M : Nat} (c : Nat) :
    ∀ (fuel : Nat) (s : KState) (r : DrainResult), sys_Exit_drain M c fuel s = some r →
      ∃ n, n < fuel ∧ DrainRun M c n s r := by
  intro fuel
  induction fuel with
  | zero =>
    intro s r h
    simp [sys_Exit_drain] at h
  | succ k ih =>
    intro s r h
    simp only [sys_Exit_drain] at h
    split at h
    · rename_i cpid st s1 hw
      split_ifs at h with hc
      · obtain ⟨n, hn, hr⟩ := ih s1 r h
        exact ⟨n + 1, by omega, DrainRun.iterate hw hc hr⟩
      · have hc2 : cpid = NOPROC := by
          by_contra hne
          exact hc hne
        subst hc2
        simp only [Option.some.injEq] at h
        subst h
        exact ⟨0, by omega, DrainRun.leave hw⟩
    · rename_i hw
      simp only [Option.some.injEq] at h
      subst h
      exact ⟨0, by omega, DrainRun.wait hw⟩
    · rename_i hw
      simp only [Option.some.injEq] at h
      subst h
      exact ⟨0, by omega, DrainRun.abort hw⟩

/-- With more fuel than the run has calls that go round, the drain loop
computes the run. -/
theorem DrainRun.drain {M c n : Nat} {s : KState} {r : DrainResult}
    (h : DrainRun M c n s r) : ∀ fuel, n < fuel → sys_Exit_drain M c fuel s = some r := by
  induction h with
  | leave hw =>
    intro fuel hf
    obtain ⟨k, rfl⟩ := Nat.exists_eq_succ_of_ne_zero (by omega : fuel ≠ 0)
    simp [sys_Exit_drain, hw]
  | wait hw =>
    intro fuel hf
    obtain ⟨k, rfl⟩ := Nat.exists_eq_succ_of_ne_zero (by omega : fuel ≠ 0)
    simp [sys_Exit_drain, hw]
  | abort hw =>
    intro fuel hf
    obtain ⟨k, rfl⟩ := Nat.exists_eq_succ_of_ne_zero (by omega : fuel ≠ 0)
    simp [sys_Exit_drain, hw]
  | iterate hw hc _ ih =>
    intro fuel hf
    obtain ⟨k, rfl⟩ := Nat.exists_eq_succ_of_ne_zero (by omega : fuel ≠ 0)
    simp only [sys_Exit_drain, hw, if_pos hc]
    exact ih k (by omega)

/-- From a state the drain loop has one run. -/
theorem DrainRun.unique {M c n : Nat} {s : KState} {r : DrainResult}
    (h : DrainRun M c n s r) :
    ∀ {n1 : Nat} {r1 : DrainResult}, DrainRun M c n1 s r1 → n1 = n ∧ r1 = r := by
  induction h with
  | leave hw =>
    intro n1 r1 h1
    cases h1 with
    | leave hw1 =>
      rw [hw] at hw1
      simp only [WaitResult.returned.injEq, true_and] at hw1
      rw [hw1.2]
      exact ⟨rfl, rfl⟩
    | wait hw1 => rw [hw] at hw1; cases hw1
    | abort hw1 => rw [hw] at hw1; cases hw1
    | iterate hw1 hc1 _ =>
      rw [hw] at hw1
      simp only [WaitResult.returned.injEq] at hw1
      exact absurd hw1.1.symm hc1
  | wait hw =>
    intro n1 r1 h1
    cases h1 with
    | leave hw1 => rw [hw] at hw1; cases hw1
    | wait hw1 => exact ⟨rfl, rfl⟩
    | abort hw1 => rw [hw] at hw1; cases hw1
    | iterate hw1 hc1 _ => rw [hw] at hw1; cases hw1
  | abort hw =>
    intro n1 r1 h1
    cases h1 with
    | leave hw1 => rw [hw] at hw1; cases hw1
    | wait hw1 => rw [hw] at hw1; cases hw1
    | abort hw1 => exact ⟨rfl, rfl⟩
    | iterate hw1 hc1 _ => rw [hw] at hw1; cases hw1
  | iterate hw hc _ ih =>
    intro n1 r1 h1
    cases h1 with
    | leave hw1 =>
      rw [hw] at hw1
      simp only [WaitResult.returned.injEq] at hw1
      exact absurd hw1.1 hc
    | wait hw1 => rw [hw] at hw1; cases hw1
    | abort hw1 => rw [hw] at hw1; cases hw1
    | iterate hw1 hc1 hr1 =>
      rw [hw] at hw1
      simp only [WaitResult.returned.injEq] at hw1
      rw [← hw1.2.2] at hr1
      obtain ⟨e1, e2⟩ := ih hr1
      exact ⟨by omega, e2⟩

/-- A run of the drain loop that leaves the loop ends with an empty children list. -/
theorem DrainRun.children {M c n : Nat} {s : KState} {r : DrainResult}
    (h : DrainRun M c n s r) : ∀ s1, r = .done s1 → (s1.PT c).children_list = [] := by
  induction h with
  | leave hw =>
    intro s1 e
    simp only [DrainResult.done.injEq] at e
    subst e
    obtain ⟨h1, h2⟩ := wait_any_noproc hw
    rw [h2]
    exact h1
  | wait hw => intro s1 e; cases e
  | abort hw => intro s1 e; cases e
  | iterate hw hc _ ih => exact ih

/-- A run of the drain loop only turns ZOMBIE slots FREE. -/
theorem DrainRun.onlyReaped {M c n : Nat} {s : KState} {r : DrainResult}
    (h : DrainRun M c n s r) : OnlyReaped s r.state := by
  induction h with
  | leave hw => exact sys_WaitChild_onlyReaped hw
  | wait hw => exact OnlyReaped.refl _
  | abort hw => exact OnlyReaped.refl _
  | iterate hw hc _ ih => exact (sys_WaitChild_onlyReaped hw).trans ih

/-- In a state with the allocator invariant, a run of the drain loop with `n`
calls that go round lowers `process_count` by `n`. -/
theorem DrainRun.count {M c n : Nat} (hM : M < 2 ^ 32) {s : KState} {r : DrainResult}
    (h : DrainRun M c n s r) : Inv M s →
      Inv M r.state ∧ r.state.process_count + n = s.process_count := by
  induction h with
  | leave hw =>
    intro hI
    obtain ⟨_, h2⟩ := wait_any_noproc hw
    subst h2
    exact ⟨hI, rfl⟩
  | wait hw => intro hI; exact ⟨hI, rfl⟩
  | abort hw => intro hI; exact ⟨hI, rfl⟩
  | iterate hw hc _ ih =>
    intro hI
    obtain ⟨hI2, hcnt⟩ := ih (Inv_sys_WaitChild hM hI hw)
    refine ⟨hI2, ?_⟩
    rcases sys_WaitChild_returned hI hw with ⟨h0, _, _⟩ | ⟨x, hx, hz, _, _, rfl, _⟩
    · exact absurd h0 hc
    · have h6 := (cleanup_zombie_effect hM hI hx hz none).2.2.2.2.2.1
      omega

/-- A run of the drain loop with a call that goes round starts with the reap of
exactly one child, the head of the zombie-children list, and goes on as a run
from the state after that reap. -/
theorem DrainRun.first {M c n : Nat} {t : KState} {r : DrainResult}
    (h : DrainRun M c (n + 1) t r) :
    ∃ x : Nat, (t.PT c).exited_list.head? = some x ∧ (t.PT x).pstate = ZOMBIE ∧
      ((cleanup_zombie t x none).2.PT x).pstate = FREE ∧
      (∀ q, q ≠ x → ((cleanup_zombie t x none).2.PT q).pstate = (t.PT q).pstate) ∧
      DrainRun M c n (cleanup_zombie t x none).2 r := by
  cases h with
  | iterate hw hc hr =>
    rcases sys_WaitChild_cases hw with ⟨h0, _, _⟩ | ⟨x, hz, rfl, _, rfl, _, h4⟩
    · exact absurd h0 hc
    · obtain ⟨_, _, e3, _, e5, _⟩ := cleanup_zombie_spec t x none
      exact ⟨x, (h4 rfl).1, hz, e3, fun q hq => (e5 q hq).1, hr⟩

/-- C15: for the caller with id 1, the drain loop of `sys_Exit` is a run of
calls `sys_WaitChild(NOPROC, NULL)`, the only one from the state: `n` calls that
return a pid, each of which has reaped exactly one child (the head of the
zombie-children list goes from ZOMBIE to FREE and no other slot changes its
state, the run going on from the state after that reap, so that `process_count`
is `n` less where the allocator invariant holds), and then a call that ends
the run. When that call returns `NOPROC` the loop is
left, the children list of process 1 is empty, and `sys_Exit` stores the exit
code in that state and calls the handoff; when it enters `kernel_wait` or its
`assert` fails, `sys_Exit` stops there. A caller with another id goes to the
store at once. For every caller, when `sys_Exit` calls the thread-exit handoff
it calls it as the caller, with the code it was given, in a state where the
PCB of the caller stores that code already; and the result of `sys_Exit` is
the result of that handoff. -/
theorem C15_exit_drains_and_records_code (M : Nat) (hM : M < 2 ^ 32) (s : KState)
    (exitval : Int) :
    (∃ n r, DrainRun M 1 n s r ∧
      (∀ n1 r1, DrainRun M 1 n1 s r1 → n1 = n ∧ r1 = r) ∧
      (∀ s1, r = .done s1 → (s1.PT 1).children_list = [] ∧
        sys_Exit_call M s 1 exitval =
          some (.handoff (setPCB s1 1 { s1.PT 1 with exitval := exitval }) 1 exitval)) ∧
      (∀ s1, r = .blocked s1 → sys_Exit_call M s 1 exitval = some (.blocked s1)) ∧
      (∀ s1, r = .assert_failed s1 →
        sys_Exit_call M s 1 exitval = some (.assert_failed s1)) ∧
      OnlyReaped s r.state ∧
      (Inv M s → r.state.process_count + n = s.process_count)) ∧
    (∀ t n r, DrainRun M 1 (n + 1) t r →
      ∃ x : Nat, (t.PT 1).exited_list.head? = some x ∧ (t.PT x).pstate = ZOMBIE ∧
        ((cleanup_zombie t x none).2.PT x).pstate = FREE ∧
        (∀ q, q ≠ x → ((cleanup_zombie t x none).2.PT q).pstate = (t.PT q).pstate) ∧
        DrainRun M 1 n (cleanup_zombie t x none).2 r) ∧
    (∀ t cpid st t1, sys_WaitChild M t 1 NOPROC none = .returned cpid st t1 → cpid ≠ NOPROC →
      ∃ x : Nat, cpid = (x : Int) ∧ (t.PT 1).exited_list.head? = some x ∧
        (t.PT x).pstate = ZOMBIE ∧ (t1.PT x).pstate = FREE ∧
        ∀ q, q ≠ x → (t1.PT q).pstate = (t.PT q).pstate) ∧
    (∀ c, c ≠ 1 → sys_Exit_call M s c exitval =
      some (.handoff (setPCB s c { s.PT c with exitval := exitval }) c exitval)) ∧
    (∀ c s2 c2 code, sys_Exit_call M s c exitval = some (.handoff s2 c2 code) →
      c2 = c ∧ code = exitval ∧ (s2.PT c).exitval = exitval) ∧
    (∀ c, sys_Exit M s c exitval = (sys_Exit_call M s c exitval).map ExitCall.result) := by
  refine ⟨?_, fun t n r h => h.first, ?_, ?_, ?_, fun c => sys_Exit_eq_call M s c exitval⟩
  · obtain ⟨r, hr⟩ := sys_Exit_drain_terminates M 1 ((s.PT 1).exited_list.length + 1) s
      (by omega)
    obtain ⟨n, _, hrun⟩ := sys_Exit_drain_run 1 _ s r hr
    have hcall : ∀ r0, r = r0 → sys_Exit_call M s 1 exitval =
        (fun d : Option DrainResult => match d with
          | some (.done s1) =>
            some (.handoff (setPCB s1 1 { s1.PT 1 with exitval := exitval }) 1 exitval)
          | some (.blocked s1) => some (.blocked s1)
          | some (.assert_failed s1) => some (.assert_failed s1)
          | none => none) (some r0) := by
      rintro r0 rfl
      unfold sys_Exit_call
      simp only
      rw [if_pos (by rfl), hr]
    refine ⟨n, r, hrun, fun n1 r1 h1 => hrun.unique h1, ?_, ?_, ?_, hrun.onlyReaped,
      fun hI => (hrun.count hM hI).2⟩
    · intro s1 e
      exact ⟨hrun.children s1 e, hcall _ e⟩
    · intro s1 e
      exact hcall _ e
    · intro s1 e
      exact hcall _ e
  · intro t cpid st t1 hw hne
    rcases sys_WaitChild_cases hw with ⟨h0, _, _⟩ | ⟨x, hz, rfl, _, rfl, _, h4⟩
    · exact absurd h0 hne
    · obtain ⟨_, _, e3, _, e5, _⟩ := cleanup_zombie_spec t x none
      exact ⟨x, rfl, (h4 rfl).1, hz, e3, fun q hq => (e5 q hq).1⟩
  · intro c hc
    unfold sys_Exit_call
    simp only
    rw [if_neg]
    intro h
    apply hc
    simp only [sys_GetPid, get_pid] at h
    exact_mod_cast h
  · intro c s2 c2 code h
    unfold sys_Exit_call at h
    simp only at h
    split at h
    · rename_i s1 _
      simp only [Option.some.injEq, ExitCall.handoff.injEq] at h
      obtain ⟨rfl, rfl, rfl⟩ := h
      exact ⟨rfl, rfl, by simp [setPCB]⟩
    · simp at h
    · simp at h
    · simp at h

/-- C15, on the table of four slots. Process 1 with the one child 2, a ZOMBIE
that is on both of its lists, calls `sys_Exit(7)`: the drain loop reaps
process 2 in its first call, is left by the second, and the handoff is called
with 7 in a state that stores 7. Process 1 with the ALIVE child 3 and the
zombie child 2: the loop reaps process 2 and then waits, and `process_count`
is one less. Process 2 of the full table calls `sys_Exit(5)`: no drain, and
the handoff is called with 5. -/
theorem C15_exit_drains_and_records_code_witness :
    4 < 2 ^ 32 ∧
    DrainRun 4 1 1 ex_listed_zombie (.done (cleanup_zombie ex_listed_zombie 2 none).2) ∧
    (ex_listed_zombie.PT 2).pstate = ZOMBIE ∧
    (((cleanup_zombie ex_listed_zombie 2 none).2.PT 2).pstate = FREE) ∧
    (((cleanup_zombie ex_listed_zombie 2 none).2.PT 1).children_list = [] ∧
      sys_Exit_call 4 ex_listed_zombie 1 7 =
        some (.handoff
          (setPCB (cleanup_zombie ex_listed_zombie 2 none).2 1
            { (cleanup_zombie ex_listed_zombie 2 none).2.PT 1 with exitval := 7 }) 1 7)) ∧
    DrainRun 4 1 1 ex_zombie (.blocked (cleanup_zombie ex_zombie 2 none).2) ∧
    sys_Exit_call 4 ex_zombie 1 7 = some (.blocked (cleanup_zombie ex_zombie 2 none).2) ∧
    (cleanup_zombie ex_zombie 2 none).2.process_count + 1 = ex_zombie.process_count ∧
    sys_Exit_call 4 ex_full 2 5 =
      some (.handoff (setPCB ex_full 2 { ex_full.PT 2 with exitval := 5 }) 2 5) ∧
    ex_zombie = sys_ThreadExit (setPCB ex_full 2 { ex_full.PT 2 with exitval := 5 }) 2 5 := by
  have run1 : DrainRun 4 1 1 ex_listed_zombie
      (.done (cleanup_zombie ex_listed_zombie 2 none).2) :=
    DrainRun.iterate
      (rfl : sys_WaitChild 4 ex_listed_zombie 1 NOPROC none =
        .returned 2 none (cleanup_zombie ex_listed_zombie 2 none).2)
      (by decide)
      (DrainRun.leave
        (rfl : sys_WaitChild 4 (cleanup_zombie ex_listed_zombie 2 none).2 1 NOPROC none =
          .returned NOPROC none (cleanup_zombie ex_listed_zombie 2 none).2))
  have run2 : DrainRun 4 1 1 ex_zombie (.blocked (cleanup_zombie ex_zombie 2 none).2) :=
    DrainRun.iterate
      (rfl : sys_WaitChild 4 ex_zombie 1 NOPROC none =
        .returned 2 none (cleanup_zombie ex_zombie 2 none).2)
      (by decide) (DrainRun.wait rfl)
  obtain ⟨⟨n1, r1, _, u1, d1, _, _, _, _⟩, _, _, _, _, _⟩ :=
    C15_exit_drains_and_records_code 4 (by norm_num) ex_listed_zombie 7
  obtain ⟨⟨n2, r2, _, u2, _, b2, _, _, c2⟩, _, _, _, _, _⟩ :=
    C15_exit_drains_and_records_code 4 (by norm_num) ex_zombie 7
  obtain ⟨rfl, rfl⟩ := u1 _ _ run1
  obtain ⟨rfl, rfl⟩ := u2 _ _ run2
  exact ⟨by norm_num, run1, by decide, by decide, d1 _ rfl, run2, b2 _ rfl,
    c2 (ex_zombie_reachable.inv (by norm_num)),
    (C15_exit_drains_and_records_code 4 (by norm_num) ex_full 5).2.2.2.1 2 (by decide), rfl⟩

/-! ## The free list and the process count -/

/-- A walk with more fuel than the free list has slots reaches `NULL` and has
met the slots of the list. -/
theorem walk_freelist_of_chain {PT : Nat → PCB} :
    ∀ (l : List Nat) (fuel : Nat) (h : Option Nat), IsChain PT h l → l.length < fuel →
      walk_freelist PT fuel h = some l := by
  intro l
  induction l with
  | nil =>
    intro fuel h hc _
    rw [IsChain_nil_head hc]
    cases fuel <;> rfl
  | cons a t ih =>
    intro fuel h hc hlen
    obtain ⟨rfl, hct⟩ := IsChain_cons hc
    cases fuel with
    | zero => exact absurd hlen (Nat.not_lt_zero _)
    | succ n =>
      simp only [walk_freelist]
      rw [ih n _ hct (by simpa using hlen)]
      rfl

/-- Where no call goes on after a wait, that is in every state of `Reachable`:
the free list threaded through the `parent` fields is acyclic (a walk from `pcb_freelist` reaches `NULL` within `MAX_PROC`
links and meets no slot twice) and holds exactly the slots of the table whose
state is FREE; `get_pcb` returns `NULL` for exactly those slots. -/
theorem freelist_is_the_free_slots_of_reachable (M F : Nat) (hM : M < 2 ^ 32) (s : KState)
    (hR : Reachable M F s) :
    ∃ l, walk_freelist s.PT (M + 1) s.pcb_freelist = some l ∧
      IsChain s.PT s.pcb_freelist l ∧ l.Nodup ∧
      (∀ i, i ∈ l ↔ i < M ∧ (s.PT i).pstate = FREE) ∧
      (∀ i, i < M → (get_pcb s i = none ↔ i ∈ l)) := by
  obtain ⟨l, hc, hnd, hmem, hcnt⟩ := (hR.inv hM).chain
  refine ⟨l, walk_freelist_of_chain l (M + 1) _ hc (by omega), hc, hnd, hmem, ?_⟩
  intro i hi
  rw [hmem i]
  unfold get_pcb
  split_ifs with hf
  · simp [hf, hi]
  · simp [hf]

/-- In the state where process 1 has reaped process 2 out of a full table, the
free list is the slot 2 alone. -/
theorem freelist_is_the_free_slots_of_reachable_example :
    walk_freelist (cleanup_zombie ex_zombie 2 none).2.PT 5
      (cleanup_zombie ex_zombie 2 none).2.pcb_freelist = some [2] ∧
    ∃ l, walk_freelist (step 4 2 ex_zombie (.WaitChild 1 2 none)).PT (4 + 1)
        (step 4 2 ex_zombie (.WaitChild 1 2 none)).pcb_freelist = some l ∧
      IsChain (step 4 2 ex_zombie (.WaitChild 1 2 none)).PT
        (step 4 2 ex_zombie (.WaitChild 1 2 none)).pcb_freelist l ∧ l.Nodup ∧
      (∀ i, i ∈ l ↔ i < 4 ∧ ((step 4 2 ex_zombie (.WaitChild 1 2 none)).PT i).pstate = FREE) ∧
      (∀ i, i < 4 → (get_pcb (step 4 2 ex_zombie (.WaitChild 1 2 none)) i = none ↔ i ∈ l)) :=
  ⟨by decide,
    freelist_is_the_free_slots_of_reachable 4 2 (by norm_num) _ (Reachable.step _ ex_zombie_reachable)⟩

/-- A duplicate-free list that holds exactly the numbers below `M` with a
property has as many entries as there are such numbers. -/
theorem length_eq_countP_range {M : Nat} {l : List Nat} {p : Nat → Bool} (hnd : l.Nodup)
    (hmem : ∀ i, i ∈ l ↔ i < M ∧ p i = true) : l.length = (List.range M).countP p := by
  have hperm : l.Perm ((List.range M).filter p) := by
    rw [List.perm_ext_iff_of_nodup hnd ((List.nodup_range M).filter _)]
    intro i
    rw [hmem i, List.mem_filter, List.mem_range]
  rw [hperm.length_eq, List.countP_eq_length_filter]

/-- Where no call goes on after a wait, that is in every state of `Reachable`:
`process_count` is the number of slots of the table whose state is ALIVE or ZOMBIE, so it is at most `MAX_PROC`; and whenever
a `sys_WaitChild` reaps a process, `process_count` is one less afterwards: the
decrement of `release_PCB` does not wrap. -/
theorem process_count_counts_live_slots_of_reachable (M F : Nat) (hM : M < 2 ^ 32) (s : KState)
    (hR : Reachable M F s) :
    s.process_count = (List.range M).countP
      (fun i => decide ((s.PT i).pstate = ALIVE ∨ (s.PT i).pstate = ZOMBIE)) ∧
    s.process_count ≤ M ∧
    (∀ curproc cpid status X st1 s1,
      sys_WaitChild M s curproc cpid status = .returned X st1 s1 → X ≠ NOPROC →
      0 < s.process_count ∧ s1.process_count + 1 = s.process_count) := by
  have hI := hR.inv hM
  obtain ⟨l, _, hnd, hmem, hcnt⟩ := hI.chain
  have hfree : l.length = (List.range M).countP (fun i => decide ((s.PT i).pstate = FREE)) :=
    length_eq_countP_range hnd (fun i => by simpa using hmem i)
  have hsplit := List.length_eq_countP_add_countP
    (fun i => decide ((s.PT i).pstate = FREE)) (List.range M)
  have hneg : (List.range M).countP
      (fun a => decide ¬(decide ((s.PT a).pstate = FREE) = true)) =
      (List.range M).countP
        (fun i => decide ((s.PT i).pstate = ALIVE ∨ (s.PT i).pstate = ZOMBIE)) := by
    apply List.countP_congr
    intro i _
    cases (s.PT i).pstate <;> simp
  rw [hneg, List.length_range] at hsplit
  refine ⟨by omega, by omega, ?_⟩
  intro c cpid st X st1 s1 hw hX
  rcases sys_WaitChild_returned hI hw with ⟨h0, _, _⟩ | ⟨x, hx, hz, _, _, rfl, _⟩
  · exact absurd h0 hX
  · have h6 := (cleanup_zombie_effect hM hI hx hz st).2.2.2.2.2.1
    exact ⟨by omega, h6⟩

/-- The process count in the state where process 2 is a zombie child of
process 1 in a full table. -/
theorem process_count_counts_live_slots_of_reachable_example :
    ex_zombie.process_count = 4 ∧
    (ex_zombie.process_count = (List.range 4).countP
      (fun i => decide ((ex_zombie.PT i).pstate = ALIVE ∨ (ex_zombie.PT i).pstate = ZOMBIE)) ∧
    ex_zombie.process_count ≤ 4 ∧
    0 < ex_zombie.process_count ∧
    (cleanup_zombie ex_zombie 2 none).2.process_count + 1 = ex_zombie.process_count) :=
  ⟨by decide,
    (process_count_counts_live_slots_of_reachable 4 2 (by norm_num) ex_zombie ex_zombie_reachable).1,
    (process_count_counts_live_slots_of_reachable 4 2 (by norm_num) ex_zombie ex_zombie_reachable).2.1,
    (process_count_counts_live_slots_of_reachable 4 2 (by norm_num) ex_zombie ex_zombie_reachable).2.2
      1 2 none 2 none (cleanup_zombie ex_zombie 2 none).2 rfl (by decide)⟩

/-! ## Last in, first out -/

theorem InvR_sys_Exec {M F : Nat} (hM : M < 2 ^ 32) (s : KState) (c : Nat)
    (call : Option Nat) (argl : Int) (args : Option (List Nat)) (h : InvR M s) :
    InvR M (sys_Exec F s c call argl args).2 := by
  refine ⟨Inv_sys_Exec hM h.1 c call argl args, ?_⟩
  intro i hi
  cases hfl : s.pcb_freelist with
  | none =>
    rw [sys_Exec_none c call argl args hfl]
    exact h.2 i hi
  | some p =>
    have hp := (freelist_head_free h.1 hfl).1
    rw [((sys_Exec_some (F := F) c call argl args hfl).2.2.2.2.1 i (by omega)).1]
    exact h.2 i hi

theorem InvR_zombie_lt {M : Nat} {s : KState} (h : InvR M s) {x : Nat}
    (hx : (s.PT x).pstate ≠ FREE) : x < M := by
  by_contra hlt
  exact hx (h.2 x (by omega))

theorem InvR_cleanup_zombie {M : Nat} (hM : M < 2 ^ 32) (s : KState) (x : Nat)
    (st : Option Int) (h : InvR M s) (hz : (s.PT x).pstate = ZOMBIE) :
    InvR M (cleanup_zombie s x st).2 := by
  have hx : x < M := InvR_zombie_lt h (by rw [hz]; decide)
  refine ⟨Inv_cleanup_zombie hM h.1 hx hz st, ?_⟩
  intro i hi
  rw [((cleanup_zombie_spec s x st).2.2.2.2.1 i (by omega)).1]
  exact h.2 i hi

theorem InvR_exit {M : Nat} (s : KState) (c : Nat) (v : Int) (h : InvR M s)
    (ha : (s.PT c).pstate = ALIVE) :
    InvR M (sys_ThreadExit (setPCB s c { s.PT c with exitval := v }) c v) := by
  have hc : c < M := InvR_zombie_lt h (by rw [ha]; decide)
  have ha2 : ((setPCB s c { s.PT c with exitval := v }).PT c).pstate = ALIVE := by
    simpa [setPCB] using ha
  refine ⟨Inv_sys_ThreadExit (Inv_set_exitval h.1 c v) hc ha2 v, ?_⟩
  intro i hi
  have hic : i ≠ c := by omega
  rw [((sys_ThreadExit_spec (setPCB s c { s.PT c with exitval := v }) c v).2.2.2.2.2.2.1
    i hic).1]
  simpa [setPCB, Function.update_noteq hic] using h.2 i hi

theorem Reachable.invR {M F : Nat} (hM : M < 2 ^ 32) {s : KState} (h : Reachable M F s) :
    InvR M s :=
  Reachable.induct (InvR M)
    ⟨Inv_initialize_table M, fun i _ => initialize_table_pstate M i⟩
    (fun s c call argl args hs => InvR_sys_Exec hM s c call argl args hs)
    (fun s x st hs hz => InvR_cleanup_zombie hM s x st hs hz)
    (fun s c v hs ha => InvR_exit s c v hs ha) h

/-- `release_PCB` followed by `acquire_PCB` hands the released slot out again
and restores the head of the free list and the count. -/
theorem acquire_release (s : KState) (x : Nat) (hpc : s.process_count < 2 ^ 32) :
    (acquire_PCB (release_PCB s x)).1 = some x ∧
    (acquire_PCB (release_PCB s x)).2.pcb_freelist = s.pcb_freelist ∧
    (acquire_PCB (release_PCB s x)).2.process_count = s.process_count := by
  refine ⟨rfl, ?_, ?_⟩
  · simp [acquire_PCB, release_PCB]
  · simp only [acquire_PCB, release_PCB]
    omega

/-- C20: slot reuse is last in, first out. In every reachable state, once a
`sys_WaitChild` has reaped the process `X`, the next `sys_Exec` returns `X`:
at once, and after any run of system calls that creates no process and
releases no slot (it leaves `process_count` as the reap left it). And
`release_PCB` followed by `acquire_PCB` hands out the released slot and
restores the head of the free list and `process_count`. -/
theorem C20_slot_reuse_is_lifo (M F : Nat) (hM : M < 2 ^ 32) (s : KState)
    (hR : Reachable M F s) (curproc : Nat) (cpid : Int) (status : Option Int) (X : Int)
    (st1 : Option Int) (s1 : KState)
    (hw : sys_WaitChild M s curproc cpid status = .returned X st1 s1) (hX : X ≠ NOPROC) :
    (∀ c2 call argl args, (sys_Exec F s1 c2 call argl args).1 = X) ∧
    (∀ ops : List Op, (∀ op ∈ ops, op.reaps = true) →
      (run M F s1 ops).process_count = s1.process_count →
      ∀ c2 call argl args, (sys_Exec F (run M F s1 ops) c2 call argl args).1 = X) ∧
    (∀ (t : KState) (x : Nat), t.process_count < 2 ^ 32 →
      (acquire_PCB (release_PCB t x)).1 = some x ∧
      (acquire_PCB (release_PCB t x)).2.pcb_freelist = t.pcb_freelist ∧
      (acquire_PCB (release_PCB t x)).2.process_count = t.process_count) := by
  have hIR := hR.invR hM
  rcases sys_WaitChild_cases hw with ⟨h0, _, _⟩ | ⟨x, hz, rfl, _, rfl, _, _⟩
  · exact absurd h0 hX
  · have hIR1 : InvR M (cleanup_zombie s x status).2 :=
      InvR_cleanup_zombie hM s x status hIR hz
    have hfl : (cleanup_zombie s x status).2.pcb_freelist = some x := rfl
    have later : ∀ ops : List Op, (∀ op ∈ ops, op.reaps = true) →
        (run M F (cleanup_zombie s x status).2 ops).process_count =
          (cleanup_zombie s x status).2.process_count →
        (run M F (cleanup_zombie s x status).2 ops).pcb_freelist = some x := by
      intro ops hops hcount
      have key := run_preserves_reaps (M := M) (F := F)
        (fun t => InvR M t ∧
          t.process_count ≤ (cleanup_zombie s x status).2.process_count ∧
          (t.process_count = (cleanup_zombie s x status).2.process_count →
            t.pcb_freelist = some x))
        ?_ ?_ ops (cleanup_zombie s x status).2 hops ⟨hIR1, le_rfl, fun _ => hfl⟩
      · exact key.2.2 hcount
      · intro t y st ht hzy
        have hy : y < M := InvR_zombie_lt ht.1 (by rw [hzy]; decide)
        have h6 := (cleanup_zombie_effect hM ht.1.1 hy hzy st).2.2.2.2.2.1
        exact ⟨InvR_cleanup_zombie hM t y st ht.1 hzy, by omega, fun e => by omega⟩
      · intro t c v ht ha
        obtain ⟨e1, e2, _⟩ := sys_ThreadExit_spec (setPCB t c { t.PT c with exitval := v }) c v
        refine ⟨InvR_exit t c v ht.1 ha, ?_, ?_⟩
        · rw [e2]
          exact ht.2.1
        · intro e
          rw [e2] at e
          rw [e1]
          exact ht.2.2 e
    refine ⟨fun c2 call argl args => (sys_Exec_some c2 call argl args hfl).1, ?_,
      fun t y hpc => acquire_release t y hpc⟩
    intro ops hops hcount c2 call argl args
    exact (sys_Exec_some c2 call argl args (later ops hops hcount)).1

/-- C20, in the state where process 2 is a zombie child of process 1 in a full
table: process 1 reaps process 2, process 3 exits, and the next `sys_Exec`
returns 2. -/
theorem C20_slot_reuse_is_lifo_witness :
    (sys_Exec 2 (cleanup_zombie ex_zombie 2 none).2 1 (some 1) 0 none).1 = 2 ∧
    (sys_Exec 2 (run 4 2 (cleanup_zombie ex_zombie 2 none).2 [.Exit 3 0]) 1 (some 1) 0 none).1
      = 2 ∧
    ((acquire_PCB (release_PCB ex_zombie 2)).1 = some 2 ∧
      (acquire_PCB (release_PCB ex_zombie 2)).2.pcb_freelist = ex_zombie.pcb_freelist ∧
      (acquire_PCB (release_PCB ex_zombie 2)).2.process_count = ex_zombie.process_count) :=
  ⟨(C20_slot_reuse_is_lifo 4 2 (by norm_num) ex_zombie ex_zombie_reachable 1 2 none 2 none
      (cleanup_zombie ex_zombie 2 none).2 rfl (by decide)).1 1 (some 1) 0 none,
    (C20_slot_reuse_is_lifo 4 2 (by norm_num) ex_zombie ex_zombie_reachable 1 2 none 2 none
      (cleanup_zombie ex_zombie 2 none).2 rfl (by decide)).2.1 [.Exit 3 0] (by decide)
      (by decide) 1 (some 1) 0 none,
    (C20_slot_reuse_is_lifo 4 2 (by norm_num) ex_zombie ex_zombie_reachable 1 2 none 2 none
      (cleanup_zombie ex_zombie 2 none).2 rfl (by decide)).2.2 ex_zombie 2 (by decide)⟩

/-! ## The thread count -/

theorem ThreadsCounted_sys_Exec {F : Nat} (s : KState) (c : Nat) (call : Option Nat)
    (argl : Int) (args : Option (List Nat)) (h : ThreadsCounted s) :
    ThreadsCounted (sys_Exec F s c call argl args).2 := by
  intro i
  cases hfl : s.pcb_freelist with
  | none =>
    rw [sys_Exec_none c call argl args hfl]
    exact h i
  | some p =>
    obtain ⟨_, _, _, _, e5, _, e7, e8⟩ := sys_Exec_some (F := F) c call argl args hfl
    rcases eq_or_ne i p with rfl | hip
    · rw [e7, e8, h i]
      simp
    · rw [(e5 i hip).2.2.1, (e5 i hip).2.2.2]
      exact h i

theorem ThreadsCounted_cleanup_zombie (s : KState) (x : Nat) (st : Option Int)
    (h : ThreadsCounted s) : ThreadsCounted (cleanup_zombie s x st).2 := by
  intro i
  obtain ⟨e1, e2, _⟩ := (cleanup_zombie_spec s x st).2.2.2.2.2.2.2 i
  rw [e1, e2]
  exact h i

theorem ThreadsCounted_exit (s : KState) (c : Nat) (v : Int) (h : ThreadsCounted s) :
    ThreadsCounted (sys_ThreadExit (setPCB s c { s.PT c with exitval := v }) c v) := by
  intro i
  obtain ⟨_, _, _, e4, e5, _, e7, _⟩ :=
    sys_ThreadExit_spec (setPCB s c { s.PT c with exitval := v }) c v
  rcases eq_or_ne i c with rfl | hic
  · rw [e4, e5]
    rfl
  · rw [(e7 i hic).2.1, (e7 i hic).2.2]
    simpa [setPCB, Function.update_noteq hic] using h i

theorem ThreadsCounted_initialize_table (M : Nat) : ThreadsCounted (initialize_table M) := by
  intro i
  obtain ⟨p, hp⟩ := initialize_table_PT M i
  rw [hp]
  rfl

/-- C18: `threadCount` is the length of the thread list in every PCB: after
`initialize_processes` and in every reachable state. `sys_Exec` keeps the two
equal in any state, by one increment and one append in the slot it takes; and
so does a reap followed by a `sys_Exec`, which creates the new process in the
slot just released. -/
theorem C18_threadCount_is_thread_list_length (M F : Nat) (s : KState)
    (hR : Reachable M F s) :
    (∀ s0, initialize_processes M F = some s0 → ThreadsCounted s0) ∧
    ThreadsCounted s ∧
    (∀ (t : KState) curproc call argl args, ThreadsCounted t →
      ThreadsCounted (sys_Exec F t curproc call argl args).2 ∧
      ∀ x : Nat, (sys_Exec F t curproc call argl args).1 = (x : Int) →
        ((sys_Exec F t curproc call argl args).2.PT x).threadCount = (t.PT x).threadCount + 1 ∧
        ((sys_Exec F t curproc call argl args).2.PT x).thread_list.length =
          (t.PT x).thread_list.length + 1) ∧
    (∀ (t : KState) (x : Nat) status curproc call argl args, ThreadsCounted t →
      (sys_Exec F (cleanup_zombie t x status).2 curproc call argl args).1 = (x : Int) ∧
      ThreadsCounted (sys_Exec F (cleanup_zombie t x status).2 curproc call argl args).2) := by
  refine ⟨?_, ?_, ?_, ?_⟩
  · intro s0 h0
    unfold initialize_processes at h0
    simp only at h0
    split_ifs at h0
    simp only [Option.some.injEq] at h0
    subst h0
    exact ThreadsCounted_sys_Exec _ 0 none 0 none (ThreadsCounted_initialize_table M)
  · exact Reachable.induct ThreadsCounted (ThreadsCounted_initialize_table M)
      (fun s c call argl args hs => ThreadsCounted_sys_Exec s c call argl args hs)
      (fun s x st hs _ => ThreadsCounted_cleanup_zombie s x st hs)
      (fun s c v hs _ => ThreadsCounted_exit s c v hs) hR
  · intro t c call argl args ht
    refine ⟨ThreadsCounted_sys_Exec t c call argl args ht, ?_⟩
    intro x hx
    obtain ⟨_, _, _, _, _, _, e7, e8⟩ := sys_Exec_some (F := F) c call argl args (sys_Exec_ret hx)
    exact ⟨e7, by rw [e8]; simp⟩
  · intro t x st c call argl args ht
    have hfl : (cleanup_zombie t x st).2.pcb_freelist = some x := rfl
    exact ⟨(sys_Exec_some c call argl args hfl).1,
      ThreadsCounted_sys_Exec _ c call argl args (ThreadsCounted_cleanup_zombie t x st ht)⟩

/-- C18, on the table of four slots: after boot, in the state with the zombie
child 2, and after process 1 has reaped it and created a process in slot 2. -/
theorem C18_threadCount_is_thread_list_length_witness :
    ThreadsCounted ex_boot ∧ ThreadsCounted ex_zombie ∧
    ((sys_Exec 2 (cleanup_zombie ex_zombie 2 none).2 1 (some 1) 0 none).2.PT 2).threadCount = 1 ∧
    ((sys_Exec 2 (cleanup_zombie ex_zombie 2 none).2 1 (some 1) 0 none).1 = ((2 : Nat) : Int) ∧
      ThreadsCounted (sys_Exec 2 (cleanup_zombie ex_zombie 2 none).2 1 (some 1) 0 none).2) :=
  ⟨(C18_threadCount_is_thread_list_length 4 2 ex_zombie ex_zombie_reachable).1 ex_boot rfl,
    (C18_threadCount_is_thread_list_length 4 2 ex_zombie ex_zombie_reachable).2.1,
    by decide,
    (C18_threadCount_is_thread_list_length 4 2 ex_zombie ex_zombie_reachable).2.2.2
      ex_zombie 2 none 1 (some 1) 0 none
      (C18_threadCount_is_thread_list_length 4 2 ex_zombie ex_zombie_reachable).2.1⟩

/-! ## Waking up after the table has changed -/

/-- C17, evaluated where it fails. In the full table a `sys_WaitChild(2)` of
process 1 passes the legality checks and enters the wait, process 2 being its
ALIVE child. Process 2 then exits and another `sys_WaitChild(2)` of process 1
reaps it, so slot 2 is FREE and heads the free list. The first waiter wakes
up in that state, finds the state of slot 2 other than ALIVE, and calls
`cleanup_zombie` on the FREE slot: the slot is released a second time, its
link points to itself so that a walk of the free list never reaches `NULL`,
and `process_count` is 2 while three slots are ALIVE. -/
theorem C17_woken_waiter_releases_free_slot :
    sys_WaitChild 4 ex_full 1 2 none = .blocked ∧
    (ex_full.PT 2).pstate = ALIVE ∧ (ex_full.PT 2).parent = some 1 ∧
    (ex_reaped.PT 2).pstate = FREE ∧ ex_reaped.pcb_freelist = some 2 ∧
    (ex_reaped.PT 2).parent = none ∧ ex_reaped.process_count = 3 ∧
    wait_for_specific_child_loop ex_reaped 2 2 none =
      .returned 2 none (cleanup_zombie ex_reaped 2 none).2 ∧
    (cleanup_zombie ex_reaped 2 none).2.pcb_freelist = some 2 ∧
    ((cleanup_zombie ex_reaped 2 none).2.PT 2).parent = some 2 ∧
    walk_freelist (cleanup_zombie ex_reaped 2 none).2.PT 5
      (cleanup_zombie ex_reaped 2 none).2.pcb_freelist = none ∧
    (cleanup_zombie ex_reaped 2 none).2.process_count = 2 ∧
    (List.range 4).countP
      (fun i => decide (((cleanup_zombie ex_reaped 2 none).2.PT i).pstate = ALIVE)) = 3 := by
  refine ⟨rfl, by decide, by decide, by decide, by decide, by decide, by decide, rfl,
    by decide, by decide, by decide, by decide, by decide⟩

/-- On the process table a system call of `stepK` does what `step` says. -/
theorem stepK_call_st (M F : Nat) (k : Kernel) (op : Op) :
    (stepK M F k (.call op)).st = step M F k.st op := by
  simp only [stepK, step]
  split_ifs with h
  · cases op with
    | Exec c call argl args => rfl
    | WaitChild c cpid status =>
      simp only
      cases hw : sys_WaitChild M k.st c cpid status <;> rfl
    | Exit c v =>
      simp only
      cases hw : sys_Exit M k.st c v with
      | none => rfl
      | some r => cases r <;> rfl
  · rfl

theorem ReachableK.runK {M F : Nat} (es : List Event) :
    ∀ {k : Kernel}, ReachableK M F k → ReachableK M F (runK M F k es) := by
  induction es with
  | nil => intro k h; exact h
  | cons e rest ih => intro k h; exact ih (ReachableK.step e h)

/-- Every state of `Reachable` is the table of a kernel of `ReachableK`. -/
theorem Reachable.toK {M F : Nat} {s : KState} (h : Reachable M F s) :
    ∃ k, ReachableK M F k ∧ k.st = s := by
  induction h with
  | init h0 => exact ⟨_, ReachableK.init h0, rfl⟩
  | step op _ ih =>
    obtain ⟨k, hk, rfl⟩ := ih
    exact ⟨_, ReachableK.step (.call op) hk, stepK_call_st M F k op⟩

theorem ex_woken_reachable : ReachableK 4 2 ex_woken := ReachableK.runK _ (ReachableK.init rfl)

theorem ex_refilled_reachable : ReachableK 4 2 ex_refilled :=
  ReachableK.step _ ex_woken_reachable

theorem ex_refilled_twice_reachable : ReachableK 4 2 ex_refilled_twice :=
  ReachableK.step _ ex_refilled_reachable

theorem ex_woken_four_reachable : ReachableK 4 2 ex_woken_four :=
  ReachableK.runK _ (ReachableK.init rfl)

/-- The table left by the woken call is not a state of `Reachable`: a walk of
its free list does not end. -/
theorem ex_woken_not_reachable : ¬ Reachable 4 2 ex_woken.st := by
  intro h
  obtain ⟨l, hc, _, _, hcnt⟩ := (h.inv (by norm_num)).chain
  have hw := walk_freelist_of_chain l 5 _ hc (by omega)
  have : walk_freelist ex_woken.st.PT 5 ex_woken.st.pcb_freelist = none := by decide
  rw [this] at hw
  exact absurd hw (by simp)

/-- A `sys_Exit(7)` of process 1 that waits twice in its drain loop: once woken
it has reaped process 2 and waits again, and woken again it has reaped
process 3, left the loop, stored the code 7 and gone through the handoff. -/
theorem ex_drained_run :
    ReachableK 4 2 ex_drained ∧
    (stepK 4 2 { st := ex_full, waiting := [] } (.call (.Exit 1 7))).waiting = [.drain 1 7] ∧
    ex_drained.waiting.length = 0 ∧
    (ex_drained.st.PT 1).pstate = ZOMBIE ∧ (ex_drained.st.PT 1).exitval = 7 ∧
    (ex_drained.st.PT 1).children_list = [] ∧
    (ex_drained.st.PT 2).pstate = FREE ∧ (ex_drained.st.PT 3).pstate = FREE ∧
    ex_drained.st.process_count = 2 := by
  refine ⟨ReachableK.runK _ (ReachableK.init rfl), rfl, by decide, by decide, by decide,
    by decide, by decide, by decide, by decide⟩

/-- The free list of `ex_woken` never reaches `NULL`. -/
theorem ex_woken_walk (fuel : Nat) :
    walk_freelist ex_woken.st.PT fuel ex_woken.st.pcb_freelist = none := by
  have h1 : ex_woken.st.pcb_freelist = some 2 := by decide
  have h2 : (ex_woken.st.PT 2).parent = some 2 := by decide
  rw [h1]
  induction fuel with
  | zero => rfl
  | succ n ih =>
    simp only [walk_freelist]
    rw [h2, ih]
    rfl

/-- C1, evaluated where it fails. After the woken `sys_WaitChild(2)` of
`ex_woken` has released the FREE slot 2 a second time, process 1 starts a
process: it gets slot 2, whose link to itself stays the head of the free list.
In that state all four slots of the table are ALIVE and none is FREE, and the
next `sys_Exec` does not return `NOPROC`: it returns 2 and raises
`process_count`. -/
theorem C1_exec_succeeds_with_no_free_slot :
    ReachableK 4 2 ex_refilled ∧
    (∀ i, i < 4 → (ex_refilled.st.PT i).pstate = ALIVE) ∧
    (∀ i, i < 4 → (ex_refilled.st.PT i).pstate ≠ FREE) ∧
    (sys_Exec 2 ex_refilled.st 1 (some 1) 0 none).1 = 2 ∧
    (sys_Exec 2 ex_refilled.st 1 (some 1) 0 none).1 ≠ NOPROC ∧
    ex_refilled.st.process_count = 3 ∧
    (sys_Exec 2 ex_refilled.st 1 (some 1) 0 none).2.process_count = 4 := by
  refine ⟨ex_refilled_reachable, by decide, by decide, by decide, by decide, by decide,
    by decide⟩

/-- C2, evaluated where it fails. After the woken `sys_WaitChild(2)` of
`ex_woken`, a `sys_Exec` of process 1 returns the id 2; in the state it leaves,
process 2 is ALIVE, and the very next `sys_Exec`, with no call in between,
returns the id 2 again: the id of a process that is ALIVE at the call, and an
id returned a second time with no reap since the first. -/
theorem C2_exec_returns_id_of_live_process :
    ReachableK 4 2 ex_woken ∧
    (sys_Exec 2 ex_woken.st 1 (some 1) 0 none).1 = 2 ∧
    ex_refilled.st = (sys_Exec 2 ex_woken.st 1 (some 1) 0 none).2 ∧
    (ex_refilled.st.PT 2).pstate = ALIVE ∧
    (sys_Exec 2 ex_refilled.st 1 (some 1) 0 none).1 = 2 ∧
    ex_refilled_twice.st = (sys_Exec 2 ex_refilled.st 1 (some 1) 0 none).2 ∧
    (ex_refilled_twice.st.PT 1).children_list = [2, 2, 3] := by
  refine ⟨ex_woken_reachable, by decide, rfl, by decide, by decide, rfl, by decide⟩

/-- C10, evaluated where it fails. In the state `ex_refilled`, reached after the
woken `sys_WaitChild(2)` of `ex_woken`, slot 2 is ALIVE with one thread and
still heads the free list. A `sys_Exec` of process 1 with the entry task 6 and
three argument bytes succeeds with the id 2, and the new process has
`threadCount` 2 and a thread list of two entries: the main thread of the
process that held the slot, and its own. -/
theorem C10_exec_into_live_slot_leaves_two_threads :
    ReachableK 4 2 ex_refilled ∧
    (ex_refilled.st.PT 2).pstate = ALIVE ∧ (ex_refilled.st.PT 2).threadCount = 1 ∧
    ex_refilled.st.pcb_freelist = some 2 ∧
    copy_args_defined 3 (some [10, 20, 30]) ∧
    (sys_Exec 2 ex_refilled.st 1 (some 6) 3 (some [10, 20, 30])).1 = 2 ∧
    ((sys_Exec 2 ex_refilled.st 1 (some 6) 3 (some [10, 20, 30])).2.PT 2).threadCount = 2 ∧
    ((sys_Exec 2 ex_refilled.st 1 (some 6) 3 (some [10, 20, 30])).2.PT 2).thread_list.length
      = 2 ∧
    ((sys_Exec 2 ex_refilled.st 1 (some 6) 3 (some [10, 20, 30])).2.PT 2).thread_list.map
      (fun ptcb => ptcb.main_task) = [some 1, some 6] := by
  refine ⟨ex_refilled_reachable, by decide, by decide, by decide,
    by simp [copy_args_defined], by decide, by decide, by decide, by decide⟩

/-- C16, evaluated where it fails. After the woken `sys_WaitChild(2)` of
`ex_woken` the free list starts at slot 2 and the link of slot 2 points to
slot 2: the list is cyclic, a walk with any number of links does not reach
`NULL`, and the table is not a state of `Reachable`. After the next `sys_Exec`
slot 2 is ALIVE and `get_pcb` returns it, and it still heads the free list. -/
theorem C16_freelist_cyclic_holds_live_slot :
    ReachableK 4 2 ex_woken ∧ ¬ Reachable 4 2 ex_woken.st ∧
    ex_woken.st.pcb_freelist = some 2 ∧ (ex_woken.st.PT 2).pstate = FREE ∧
    (ex_woken.st.PT 2).parent = some 2 ∧
    (∀ fuel, walk_freelist ex_woken.st.PT fuel ex_woken.st.pcb_freelist = none) ∧
    ReachableK 4 2 ex_refilled ∧
    ex_refilled.st.pcb_freelist = some 2 ∧ (ex_refilled.st.PT 2).pstate = ALIVE ∧
    get_pcb ex_refilled.st 2 = some 2 := by
  refine ⟨ex_woken_reachable, ex_woken_not_reachable, by decide, by decide, by decide,
    ex_woken_walk, ex_refilled_reachable, by decide, by decide, by decide⟩

/-- C19, evaluated where it fails. After the woken `sys_WaitChild(2)` of
`ex_woken`, `process_count` is 2 while three slots of the table are ALIVE.
With four such calls of process 1 waiting and woken, the reap and the four
releases of slot 2 take `process_count` from 4 down to 0 and then below:
the decrement of `release_PCB` wraps, and `process_count` is `2 ^ 32 - 1`,
above `MAX_PROC`, with three slots ALIVE. -/
theorem C19_process_count_miscounts_and_wraps :
    ReachableK 4 2 ex_woken ∧
    ex_woken.st.process_count = 2 ∧
    (List.range 4).countP
      (fun i => decide ((ex_woken.st.PT i).pstate = ALIVE ∨
        (ex_woken.st.PT i).pstate = ZOMBIE)) = 3 ∧
    ReachableK 4 2 ex_woken_four ∧
    ex_woken_four.st.process_count = 2 ^ 32 - 1 ∧
    ¬ ex_woken_four.st.process_count ≤ 4 ∧
    (List.range 4).countP
      (fun i => decide ((ex_woken_four.st.PT i).pstate = ALIVE ∨
        (ex_woken_four.st.PT i).pstate = ZOMBIE)) = 3 := by
  refine ⟨ex_woken_reachable, by decide, by decide, ex_woken_four_reachable, by decide,
    by decide, by decide⟩

/-! ## Reading the introspection stream -/

/-- The loop of `info_read` copies as many bytes as the fuel, the room left in
`buf` and the bytes left in the stream allow, from the cursor on, and advances
the cursor by that number. -/
theorem info_read_loop_spec (size : Nat) :
    ∀ (fuel pos : Nat) (cb : InfoCB) (buf : List Nat),
      info_read_loop size fuel pos cb buf =
        (pos + min fuel (min (size - pos) (cb.write_pos - cb.read_pos)),
          { cb with
            read_pos := cb.read_pos + min fuel (min (size - pos) (cb.write_pos - cb.read_pos)) },
          buf ++ (List.range (min fuel (min (size - pos) (cb.write_pos - cb.read_pos)))).map
            (fun j => cb.infoTable.getD (cb.read_pos + j) 0)) := by
  intro fuel
  induction fuel with
  | zero =>
    intro pos cb buf
    simp [info_read_loop]
  | succ n ih =>
    intro pos cb buf
    simp only [info_read_loop]
    split_ifs with hc
    · rw [ih]
      have hk : min (n + 1) (min (size - pos) (cb.write_pos - cb.read_pos)) =
          min n (min (size - (pos + 1)) (cb.write_pos - (cb.read_pos + 1))) + 1 := by
        omega
      rw [hk]
      refine Prod.ext (by simp only; omega) (Prod.ext ?_ ?_)
      · simp only
        congr 1
        omega
      · simp only [List.range_succ_eq_map, List.map_cons, List.map_map, List.append_assoc,
          List.singleton_append, Nat.add_zero]
        congr 2
        apply List.map_congr_left
        intro j _
        simp only [Function.comp_apply]
        congr 1
        omega
    · have hk : min (n + 1) (min (size - pos) (cb.write_pos - cb.read_pos)) = 0 := by
        omega
      rw [hk]
      simp

/-- The number of bytes one `info_read` copies. -/
theorem info_read_spec (cb : InfoCB) (size : Nat) :
    info_read cb size =
      (to_int (min size (cb.write_pos - cb.read_pos)),
        { cb with read_pos := cb.read_pos + min size (cb.write_pos - cb.read_pos) },
        (List.range (min size (cb.write_pos - cb.read_pos))).map
          (fun j => cb.infoTable.getD (cb.read_pos + j) 0)) := by
  unfold info_read
  rw [info_read_loop_spec]
  have hk : min size (min (size - 0) (cb.write_pos - cb.read_pos)) =
      min size (cb.write_pos - cb.read_pos) := by
    omega
  simp only [hk, Nat.zero_add, List.nil_append]

theorem to_int_of_lt {n : Nat} (h : n < 2 ^ 31) : to_int n = (n : Int) := by
  unfold to_int
  have h1 : n % 2 ^ 32 = n := Nat.mod_eq_of_lt (by omega)
  rw [h1, if_pos h]

/-- The table loop of `sys_OpenInfo`, when it does not fault, leaves the read
cursor alone and advances the write cursor by one record size for each ALIVE or
ZOMBIE slot it has passed; the bytes written are all the table holds. -/
theorem sys_OpenInfo_loop_spec (ARGS SIZE : Nat) (image : procinfo → Nat → Nat) (s : KState) :
    ∀ (n i : Nat) (info : procinfo) (cb : InfoCB) (info1 : procinfo) (cb1 : InfoCB),
      sys_OpenInfo_loop ARGS SIZE image s n i info cb = some (info1, cb1) →
      cb1.read_pos = cb.read_pos ∧
      cb1.write_pos = cb.write_pos + SIZE * (List.range' i n).countP
        (fun q => decide ((s.PT q).pstate = ALIVE ∨ (s.PT q).pstate = ZOMBIE)) ∧
      (cb.infoTable.length = cb.write_pos → cb1.infoTable.length = cb1.write_pos) := by
  intro n
  induction n with
  | zero =>
    intro i info cb info1 cb1 h
    simp only [sys_OpenInfo_loop, Option.some.injEq, Prod.mk.injEq] at h
    obtain ⟨_, rfl⟩ := h
    simp
  | succ n ih =>
    intro i info cb info1 cb1 h
    simp only [sys_OpenInfo_loop] at h
    rw [List.range'_succ, List.countP_cons]
    split_ifs at h with he
    · split at h
      · exact absurd h (by simp)
      · rename_i a ha
        obtain ⟨h1, h2, h3⟩ := ih _ _ _ _ _ h
        simp only at h1 h2 h3
        refine ⟨h1, ?_, ?_⟩
        · rw [h2]
          simp only [he, decide_True, if_true]
          rw [Nat.mul_add]
          omega
        · intro hlen
          apply h3
          simp [hlen]
    · obtain ⟨h1, h2, h3⟩ := ih _ _ _ _ _ h
      refine ⟨h1, ?_, h3⟩
      rw [h2]
      simp [he]

/-- A successful `sys_OpenInfo` leaves a stream of one record size per ALIVE or
ZOMBIE slot of the table, with the read cursor at its start. -/
theorem sys_OpenInfo_opened {M ARGS SIZE : Nat} {image : procinfo → Nat → Nat}
    {info0 : procinfo} {s : KState} {reserved : Option (Int × Nat)} {fid : Int} {fcb : Nat}
    {cb : InfoCB}
    (h : sys_OpenInfo M ARGS SIZE image info0 s reserved = .opened fid fcb cb) :
    reserved = some (fid, fcb) ∧ cb.read_pos = 0 ∧
    cb.write_pos = (List.range M).countP
      (fun q => decide ((s.PT q).pstate = ALIVE ∨ (s.PT q).pstate = ZOMBIE)) * SIZE ∧
    cb.infoTable.length = cb.write_pos := by
  unfold sys_OpenInfo at h
  split at h
  · exact absurd h (by simp)
  · rename_i fid0 fcb0
    simp only at h
    split at h
    · exact absurd h (by simp)
    · rename_i info1 cb1 hl
      simp only [OpenInfoResult.opened.injEq] at h
      obtain ⟨rfl, rfl, rfl⟩ := h
      obtain ⟨h1, h2, h3⟩ := sys_OpenInfo_loop_spec ARGS SIZE image s M 0 info0 _ _ _ hl
      simp only [Nat.zero_add] at h1 h2 h3
      refine ⟨rfl, h1, ?_, h3 rfl⟩
      rw [h2, List.range_eq_range', Nat.mul_comm]

/-- The cursor after `k` reads of one record size from a stream of `N`
records. -/
theorem info_read_seq_spec (cb : InfoCB) (N SIZE : Nat) (h0 : cb.read_pos = 0)
    (hw : cb.write_pos = N * SIZE) :
    ∀ k, info_read_seq cb SIZE k = { cb with read_pos := min k N * SIZE } := by
  intro k
  induction k with
  | zero =>
    simp only [info_read_seq, Nat.zero_min, Nat.zero_mul]
    rw [← h0]
  | succ k ih =>
    simp only [info_read_seq]
    rw [ih, info_read_spec]
    simp only [hw]
    congr 1
    by_cases hk : k < N
    · have e1 : min k N = k := by omega
      have e2 : min (k + 1) N = k + 1 := by omega
      have e3 : (k + 1) * SIZE ≤ N * SIZE := Nat.mul_le_mul_right SIZE hk
      rw [e1, e2]
      rw [Nat.succ_mul] at e3 ⊢
      omega
    · have e1 : min k N = N := by omega
      have e2 : min (k + 1) N = N := by omega
      rw [e1, e2]
      omega

/-- C13: when `sys_OpenInfo` succeeds in a state with `N` ALIVE or ZOMBIE slots,
the stream it leaves has `read_pos = 0` and `write_pos = N * sizeof(procinfo)`,
which is the number of bytes it holds.
An `info_read` of size `size` on any stream copies
`min(size, write_pos - read_pos)` bytes from the cursor on, advances the cursor
by that number and changes nothing else, and returns that number (converted to
`int`, which is the number itself below `2 ^ 31`). So the first `N` reads of one
record size each return a full record, and every read after them returns 0,
copies nothing and leaves the stream as it is. -/
theorem C13_info_stream_reads (M ARGS SIZE : Nat) (image : procinfo → Nat → Nat)
    (info0 : procinfo) (s : KState) (reserved : Option (Int × Nat)) (fid : Int) (fcb : Nat)
    (cb : InfoCB) (hS : SIZE < 2 ^ 31)
    (h : sys_OpenInfo M ARGS SIZE image info0 s reserved = .opened fid fcb cb) :
    cb.read_pos = 0 ∧
    cb.write_pos = (List.range M).countP
      (fun q => decide ((s.PT q).pstate = ALIVE ∨ (s.PT q).pstate = ZOMBIE)) * SIZE ∧
    (∀ (c : InfoCB) (size : Nat),
      (info_read c size).1 = to_int (min size (c.write_pos - c.read_pos)) ∧
      (min size (c.write_pos - c.read_pos) < 2 ^ 31 →
        (info_read c size).1 = ((min size (c.write_pos - c.read_pos) : Nat) : Int)) ∧
      (info_read c size).2.1 =
        { c with read_pos := c.read_pos + min size (c.write_pos - c.read_pos) } ∧
      (info_read c size).2.2 = (List.range (min size (c.write_pos - c.read_pos))).map
        (fun j => c.infoTable.getD (c.read_pos + j) 0)) ∧
    (∀ k, k < (List.range M).countP
        (fun q => decide ((s.PT q).pstate = ALIVE ∨ (s.PT q).pstate = ZOMBIE)) →
      (info_read_seq cb SIZE k).read_pos = k * SIZE ∧
      (info_read (info_read_seq cb SIZE k) SIZE).1 = (SIZE : Int) ∧
      (info_read (info_read_seq cb SIZE k) SIZE).2.2 =
        (List.range SIZE).map (fun j => cb.infoTable.getD (k * SIZE + j) 0)) ∧
    (∀ k, (List.range M).countP
        (fun q => decide ((s.PT q).pstate = ALIVE ∨ (s.PT q).pstate = ZOMBIE)) ≤ k →
      ∀ size, info_read (info_read_seq cb SIZE k) size = (0, info_read_seq cb SIZE k, [])) ∧
    cb.infoTable.length = cb.write_pos := by
  obtain ⟨_, h0, hw, hlen⟩ := sys_OpenInfo_opened h
  have hseq := info_read_seq_spec cb _ SIZE h0 hw
  refine ⟨h0, hw, ?_, ?_, ?_, hlen⟩
  · intro c size
    rw [info_read_spec]
    exact ⟨rfl, fun hlt => to_int_of_lt hlt, rfl, rfl⟩
  · intro k hk
    have e1 : min k ((List.range M).countP
        (fun q => decide ((s.PT q).pstate = ALIVE ∨ (s.PT q).pstate = ZOMBIE))) = k := by
      omega
    have e3 := Nat.mul_le_mul_right SIZE hk
    rw [Nat.succ_mul] at e3
    have hmin : min SIZE (cb.write_pos - k * SIZE) = SIZE := by
      rw [hw]
      omega
    rw [hseq k, e1, info_read_spec]
    simp only [hmin]
    exact ⟨trivial, to_int_of_lt hS, trivial⟩
  · intro k hk size
    have e1 : min k ((List.range M).countP
        (fun q => decide ((s.PT q).pstate = ALIVE ∨ (s.PT q).pstate = ZOMBIE))) =
        (List.range M).countP
          (fun q => decide ((s.PT q).pstate = ALIVE ∨ (s.PT q).pstate = ZOMBIE)) := by
      omega
    rw [hseq k, e1, info_read_spec]
    have hmin : min size (cb.write_pos - (List.range M).countP
        (fun q => decide ((s.PT q).pstate = ALIVE ∨ (s.PT q).pstate = ZOMBIE)) * SIZE) = 0 := by
      rw [hw]
      omega
    simp only [hmin]
    refine Prod.ext ?_ (Prod.ext ?_ ?_)
    · simp [to_int]
    · simp
    · simp

/-- C13, for the full table of four slots with the zombie 2 and records of six
bytes: the stream has 24 bytes, the third read of six bytes returns the record
of process 2, and the fifth read returns 0. -/
theorem C13_info_stream_reads_witness :
    (sys_OpenInfo 4 2 6 ex_image ex_info0 ex_zombie (some (3, 0)) =
      .opened 3 0
        { read_pos := 0, write_pos := 24,
          infoTable := [0, 0, 1, 1, 0, 0, 1, 0, 1, 1, 0, 0, 2, 2, 0, 0, 0, 0,
            3, 2, 1, 1, 0, 0] }) ∧
    (info_read (info_read_seq
      { read_pos := 0, write_pos := 24,
        infoTable := [0, 0, 1, 1, 0, 0, 1, 0, 1, 1, 0, 0, 2, 2, 0, 0, 0, 0,
          3, 2, 1, 1, 0, 0] } 6 2) 6).1 = 6 ∧
    (info_read (info_read_seq
      { read_pos := 0, write_pos := 24,
        infoTable := [0, 0, 1, 1, 0, 0, 1, 0, 1, 1, 0, 0, 2, 2, 0, 0, 0, 0,
          3, 2, 1, 1, 0, 0] } 6 2) 6).2.2 = [2, 2, 0, 0, 0, 0] ∧
    (info_read (info_read_seq
      { read_pos := 0, write_pos := 24,
        infoTable := [0, 0, 1, 1, 0, 0, 1, 0, 1, 1, 0, 0, 2, 2, 0, 0, 0, 0,
          3, 2, 1, 1, 0, 0] } 6 4) 6) =
      (0, info_read_seq
        { read_pos := 0, write_pos := 24,
          infoTable := [0, 0, 1, 1, 0, 0, 1, 0, 1, 1, 0, 0, 2, 2, 0, 0, 0, 0,
            3, 2, 1, 1, 0, 0] } 6 4, []) :=
  ⟨rfl,
    ((C13_info_stream_reads 4 2 6 ex_image ex_info0 ex_zombie (some (3, 0)) 3 0 _
      (by norm_num) rfl).2.2.2.1 2 (by decide)).2.1,
    by decide,
    (C13_info_stream_reads 4 2 6 ex_image ex_info0 ex_zombie (some (3, 0)) 3 0 _
      (by norm_num) rfl).2.2.2.2.1 4 (by decide) 6⟩

/-! ## The records of the snapshot -/

/-- When the copy of the argument bytes does not fault, either nothing was to
be copied, or the buffer is there and neither it nor the array of the record
is shorter than the bytes copied; the bytes copied are those of the buffer, and
the rest of the array is as before. -/
theorem copy_info_args_spec (ARGS : Nat) (args : Option (List Nat)) :
    ∀ (n j : Nat) (dst a : Nat → Nat), copy_info_args ARGS args n j dst = some a →
      (n = 0 ∨ ∃ bytes, args = some bytes ∧ j + n ≤ bytes.length ∧ j + n ≤ ARGS) ∧
      (∀ k, j ≤ k → k < j + n → ∃ bytes, args = some bytes ∧ bytes.get? k = some (a k)) ∧
      (∀ k, k < j ∨ j + n ≤ k → a k = dst k) := by
  intro n
  induction n with
  | zero =>
    intro j dst a h
    simp only [copy_info_args, Option.some.injEq] at h
    subst h
    exact ⟨Or.inl rfl, fun k h1 h2 => absurd h2 (by omega), fun _ _ => rfl⟩
  | succ n ih =>
    intro j dst a h
    simp only [copy_info_args] at h
    split at h
    · exact absurd h (by simp)
    · rename_i bytes
      split at h
      · exact absurd h (by simp)
      · rename_i b hb
        split_ifs at h with hj
        obtain ⟨h1, h2, h3⟩ := ih (j + 1) _ a h
        have hlen : j < bytes.length := by
          by_contra hge
          rw [List.get?_eq_none.2 (by omega)] at hb
          exact absurd hb (by simp)
        refine ⟨Or.inr ⟨bytes, rfl, ?_, ?_⟩, ?_, ?_⟩
        · rcases h1 with h1 | ⟨b2, e, h4, _⟩
          · omega
          · simp only [Option.some.injEq] at e
            subst e
            omega
        · rcases h1 with h1 | ⟨b2, _, _, h5⟩
          · omega
          · omega
        · intro k hk1 hk2
          rcases Nat.eq_or_lt_of_le hk1 with e | hlt
          · subst e
            refine ⟨bytes, rfl, ?_⟩
            rw [h3 j (Or.inl (Nat.lt_succ_self j)), Function.update_same]
            exact hb
          · exact h2 k hlt (by omega)
        · intro k hk
          rw [h3 k (by omega)]
          apply Function.update_noteq
          omega

/-- When the table loop of `sys_OpenInfo` does not fault, it appends the images
of a list of records: one record for each ALIVE or ZOMBIE slot it has passed,
in the order of the slots, with the fields of that slot and, in its first
`argl` argument bytes, the first `argl` bytes of the argument buffer of that
slot. -/
theorem sys_OpenInfo_loop_records (ARGS SIZE : Nat) (image : procinfo → Nat → Nat)
    (s : KState) :
    ∀ (n i : Nat) (info : procinfo) (cb : InfoCB) (info1 : procinfo) (cb1 : InfoCB),
      sys_OpenInfo_loop ARGS SIZE image s n i info cb = some (info1, cb1) →
      cb.infoTable.length = cb.write_pos →
      ∃ recs : List procinfo,
        cb1.infoTable = cb.infoTable ++
          (recs.map (fun r => (List.range SIZE).map (image r))).flatten ∧
        recs.map (fun r => r.pid) =
          ((List.range' i n).filter
            (fun q => decide ((s.PT q).pstate = ALIVE ∨ (s.PT q).pstate = ZOMBIE))).map
            (fun q => (q : Int)) ∧
        ∀ r ∈ recs, ∃ q : Nat, r.pid = (q : Int) ∧
          r.ppid = get_pid (s.PT q).parent ∧
          r.alive = (if (s.PT q).pstate = ALIVE then 1 else 0) ∧
          r.thread_count = (s.PT q).threadCount ∧
          r.main_task = (s.PT q).main_task ∧
          r.argl = (s.PT q).argl ∧
          ∀ j, j < (s.PT q).argl.toNat →
            ∃ bytes, (s.PT q).args = some bytes ∧ bytes.get? j = some (r.args j) := by
  intro n
  induction n with
  | zero =>
    intro i info cb info1 cb1 h _
    simp only [sys_OpenInfo_loop, Option.some.injEq, Prod.mk.injEq] at h
    obtain ⟨_, rfl⟩ := h
    exact ⟨[], by simp, by simp, by simp⟩
  | succ n ih =>
    intro i info cb info1 cb1 h hlen
    simp only [sys_OpenInfo_loop] at h
    rw [List.range'_succ, List.filter_cons]
    split_ifs at h with he
    · split at h
      · exact absurd h (by simp)
      · rename_i a ha
        obtain ⟨_, hbytes, _⟩ := copy_info_args_spec ARGS _ _ _ _ _ ha
        obtain ⟨recs, h1, h2, h3⟩ := ih _ _ _ _ _ h (by simp [hlen])
        refine ⟨{ fill_info s i info with args := a } :: recs, ?_, ?_, ?_⟩
        · rw [h1]
          simp only [List.map_cons, List.flatten_cons, List.append_assoc]
          rw [← hlen, List.take_length]
        · simp only [List.map_cons, he, decide_True, if_true, h2]
          rfl
        · intro r hr
          rcases List.mem_cons.1 hr with rfl | hr
          · refine ⟨i, rfl, rfl, rfl, rfl, rfl, rfl, ?_⟩
            intro j hj
            exact hbytes j (Nat.zero_le j) (by simpa [fill_info] using hj)
          · exact h3 r hr
    · obtain ⟨recs, h1, h2, h3⟩ := ih _ _ _ _ _ h hlen
      refine ⟨recs, h1, ?_, h3⟩
      simp only [he, decide_False, Bool.false_eq_true, if_false, h2]

/-- A `sys_OpenInfo` that does not fault has met, in every ALIVE or ZOMBIE slot
of the table with a positive `argl`, an argument buffer of at least `argl`
bytes, and an `argl` within the size of the array of the record. -/
theorem sys_OpenInfo_loop_needs (ARGS SIZE : Nat) (image : procinfo → Nat → Nat)
    (s : KState) :
    ∀ (n i : Nat) (info : procinfo) (cb : InfoCB) (r : procinfo × InfoCB),
      sys_OpenInfo_loop ARGS SIZE image s n i info cb = some r →
      ∀ q, i ≤ q → q < i + n → (s.PT q).pstate = ALIVE ∨ (s.PT q).pstate = ZOMBIE →
        0 < (s.PT q).argl →
        ∃ bytes, (s.PT q).args = some bytes ∧ (s.PT q).argl ≤ (bytes.length : Int) ∧
          (s.PT q).argl ≤ (ARGS : Int) := by
  intro n
  induction n with
  | zero =>
    intro i info cb r _ q h1 h2
    exact absurd h2 (by omega)
  | succ n ih =>
    intro i info cb r h q h1 h2 he hpos
    simp only [sys_OpenInfo_loop] at h
    rcases Nat.eq_or_lt_of_le h1 with rfl | hlt
    · rw [if_pos he] at h
      split at h
      · exact absurd h (by simp)
      · rename_i a ha
        obtain ⟨hn, _, _⟩ := copy_info_args_spec ARGS _ _ _ _ _ ha
        simp only [fill_info] at hn
        rcases hn with hn | ⟨bytes, e, h4, h5⟩
        · omega
        · exact ⟨bytes, e, by omega, by omega⟩
    · split_ifs at h with hi
      · split at h
        · exact absurd h (by simp)
        · exact ih _ _ _ _ h q hlt (by omega) he hpos
      · exact ih _ _ _ _ h q hlt (by omega) he hpos

/-- C14, evaluated where it fails. Process 1 is created by `Exec(task, 3, NULL)`:
its PCB stores an argument length of 3 and no argument buffer. `sys_OpenInfo`
then reads three bytes through the `NULL` pointer and faults instead of
building the snapshot, whatever the record layout. It faults as well when the
buffer is there and `argl` is larger than the array of the record, here three
bytes for an array of two. -/
theorem C14_openinfo_faults_on_argument_copy (ARGS SIZE : Nat)
    (image : procinfo → Nat → Nat) (info0 : procinfo) (fid : Int) (fcb : Nat) :
    (sys_Exec 2 ex_boot 0 (some 1) 3 none).1 = 1 ∧
    ex_argl_only = (sys_Exec 2 ex_boot 0 (some 1) 3 none).2 ∧
    (ex_argl_only.PT 1).pstate = ALIVE ∧ (ex_argl_only.PT 1).argl = 3 ∧
    (ex_argl_only.PT 1).args = none ∧
    sys_OpenInfo 4 ARGS SIZE image info0 ex_argl_only (some (fid, fcb)) = .fault ∧
    (ex_three_args.PT 1).args = some [7, 8, 9] ∧
    sys_OpenInfo 4 2 SIZE image info0 ex_three_args (some (fid, fcb)) = .fault := by
  refine ⟨by decide, rfl, by decide, by decide, by decide, rfl, by decide, rfl⟩

end TinyOS
